import Mathlib

/-!
# Verification of the fswatch path index (crit-bit tree) and watcher layer

A shallow embedding of the `fswatch` package.  Paths are byte lists
(`List Nat`, each entry a byte value), the crit-bit tree of `tree.go` is an
inductive `ref` (a Go `ref` holds either an `*info` leaf or a `*node` branch;
the all-nil ref never occurs inside a tree, and `tree.root == nil` is the
`none` case of `tree`).  Go's in-place pointer surgery is rendered by
rebuilding the affected spine; the visitor callbacks of `deleteAll`, `walk`
and `walkiter` are rendered by returning the list of entries passed to the
callback, in call order.
-/

namespace fswatch

/-- `os.PathSeparator` on the unix builds (`'/'`). -/
def sep : Nat := 47

/-- Byte of a path at offset `off`; out-of-range offsets read as `0`, matching
the Go code which leaves `ch = 0` when `off >= len(path)`. -/
def byteAt (p : List Nat) (off : Nat) : Nat := p.getD off 0

/-- `replaceSep` from tree.go: path separators are remapped to the byte value
1 so that traversal order is compatible with `filepath.Walk`. -/
def replaceSep (ch : Nat) : Nat := if ch = sep then 1 else ch

/-- flag bits of `info.flags` (info.go): `ignored`, `explicit`, `recurse`. -/
def ignored : Nat := 1
def explicit : Nat := 2
def recurse : Nat := 4

/-- Cached file entry (`info` of info.go).  `mode`, `modt` and `size` are
abstracted into the directory bit `isDir` plus an opaque `meta`; `watch`
holds the kernel watch descriptor when a subscription is live. -/
structure info where
  path : List Nat
  isDir : Bool
  meta : Nat
  flags : Nat
  watch : Option Nat
  deriving DecidableEq, Repr

def info.Ignored (i : info) : Bool := i.flags &&& ignored ≠ 0

/-- A `ref` holds either an info leaf or a branch node (`ref`/`node` of
tree.go); a node carries its two children, the critical byte offset and the
critical bit mask. -/
inductive ref where
  | leaf (nfo : info)
  | node (c0 c1 : ref) (off : Nat) (bit : Nat)
  deriving DecidableEq, Repr

/-- The tree is a nullable root ref. -/
def tree := Option ref

instance : DecidableEq tree := inferInstanceAs (DecidableEq (Option ref))

/-- `node.dir` from tree.go: the direction the given key takes at a node. -/
def dirOf (key : List Nat) (off bit : Nat) : Bool :=
  decide (replaceSep (byteAt key off) &&& bit ≠ 0)

/-- The child of a node in direction `d` (`child[0]`/`child[1]`). -/
def childAt (c0 c1 : ref) (d : Bool) : ref := if d then c1 else c0

/-- The leaf reached by walking `r` by the directions of `key` ("walk for
best member" in `tree.get` / `tree.insert`). -/
def bestLeaf : ref → List Nat → info
  | .leaf i, _ => i
  | .node c0 c1 off bit, key =>
    if dirOf key off bit then bestLeaf c1 key else bestLeaf c0 key

/-- `tree.get`: the entry stored at exactly `path`, if any. -/
def tree.get (t : tree) (path : List Nat) : Option info :=
  match t with
  | none => none
  | some r =>
    let p := bestLeaf r path
    if path = p.path then some p else none

/-- Go `a &^ b` (AND NOT). -/
def andNot (a b : Nat) : Nat := a ^^^ (a &&& b)

/-- The bit-smearing sequence of `tree.insert` that isolates the highest set
bit of a byte: `bit |= bit>>1; bit |= bit>>2; bit |= bit>>4; bit &^= bit>>1`. -/
def topBit (x : Nat) : Nat :=
  let b1 := x ||| (x >>> 1)
  let b2 := b1 ||| (b1 >>> 2)
  let b3 := b2 ||| (b2 >>> 4)
  andNot b3 (b3 >>> 1)

/-- The critical-byte search of `tree.insert`: scan `key` against the best
member `exist` (remapped, `exist` padded with 0), returning
`(off, ch, bit)` where `ch` is the remapped byte of `exist` at `off` and
`bit = ch ^ keych`; `none` means no critical byte was found (duplicate). -/
def findCrit : List Nat → List Nat → Nat → Option (Nat × Nat × Nat)
  | [], [], _ => none
  | [], e :: _, off => some (off, replaceSep e, replaceSep e)
  | k :: ks, [], off =>
    if 0 = replaceSep k then findCrit ks [] (off + 1)
    else some (off, 0, replaceSep k)
  | k :: ks, e :: es, off =>
    if replaceSep e = replaceSep k then findCrit ks es (off + 1)
    else some (off, replaceSep e, replaceSep e ^^^ replaceSep k)

/-- The "walk for best insertion node" loop of `tree.insert`: descend while
the current node's `(off, bit)` precedes the critical bit, then splice in the
new node with `child[ndir]` the displaced subtree and `child[1-ndir]` the new
leaf. -/
def insertIter (key : List Nat) (off bit : Nat) (ndir : Bool) (nfo : info) :
    ref → ref
  | .leaf i =>
    if ndir then .node (.leaf nfo) (.leaf i) off bit
    else .node (.leaf i) (.leaf nfo) off bit
  | .node c0 c1 noff nbit =>
    if noff > off ∨ (noff = off ∧ nbit < bit) then
      if ndir then .node (.leaf nfo) (.node c0 c1 noff nbit) off bit
      else .node (.node c0 c1 noff nbit) (.leaf nfo) off bit
    else if dirOf key noff nbit then
      .node c0 (insertIter key off bit ndir nfo c1) noff nbit
    else
      .node (insertIter key off bit ndir nfo c0) c1 noff nbit

/-- `tree.insert`: inserts an info into the tree, or returns the existing
entry with the same (remapped) path. -/
def tree.insert (t : tree) (nfo : info) : tree × Option info :=
  match t with
  | none => (some (.leaf nfo), none)
  | some r =>
    let p := bestLeaf r nfo.path
    match findCrit nfo.path p.path 0 with
    | none => (t, some p)
    | some (off, ch, bit0) =>
      let bit := topBit bit0
      let ndir := decide (ch &&& bit ≠ 0)
      (some (insertIter nfo.path off bit ndir nfo r), none)

/-- Errors observable through the traversal API.  `skipDir` is the
`SkipDir = filepath.SkipDir` sentinel; `pathError` is the
`*os.PathError{Op:"stat", Err: os.ErrNotExist}` value built by `tree.walk`;
`user n` stands for any other error a visitor may return. -/
inductive goerr where
  | skipDir
  | pathError (path : List Nat)
  | errClosed
  | errNotDir
  | user (n : Nat)
  deriving DecidableEq, Repr

/-- Result of `walkiter`: the Go `error` return refined by dynamic type:
`nil`, the internal `skip` string type, or any other error. -/
inductive wres where
  | ok
  | skipw (s : List Nat)
  | errw (e : goerr)
  deriving DecidableEq, Repr

/-- The `Skips:` loop of `walkiter`: `s` matches when it is no longer than
`path` and its bytes agree (the Go loop compares from the end; the condition
is byte-for-byte prefix equality). -/
def skipMatch (s path : List Nat) : Bool :=
  if s.length > path.length then false
  else s.isPrefixOf path

/-- `walkiter` from tree.go, with the infos passed to the visitor `f`
returned alongside (in call order). -/
def walkiter (f : info → Option goerr) : ref → List (List Nat) →
    List info × wres
  | .node c0 c1 _ _, skips =>
    match walkiter f c0 skips with
    | (v0, .ok) =>
      match walkiter f c1 skips with
      | (v1, .ok) => (v0 ++ v1, .ok)
      | (v1, .skipw _) => (v0 ++ v1, .ok)
      | (v1, .errw e) => (v0 ++ v1, .errw e)
    | (v0, .skipw s) =>
      match walkiter f c1 (skips ++ [s]) with
      | (v1, .ok) => (v0 ++ v1, .ok)
      | (v1, .skipw _) => (v0 ++ v1, .ok)
      | (v1, .errw e) => (v0 ++ v1, .errw e)
    | (v0, .errw e) => (v0, .errw e)
  | .leaf nfo, skips =>
    if skips.any fun s => skipMatch s nfo.path then ([], .ok)
    else if nfo.Ignored then ([], .ok)
    else
      match f nfo with
      | none => ([nfo], .ok)
      | some .skipDir =>
        if nfo.isDir then ([nfo], .skipw (nfo.path ++ [sep]))
        else ([nfo], .errw .skipDir)
      | some e => ([nfo], .errw e)

/-- The `top`-finding loop of `tree.walk`: descend by the directions of
`key`, remembering the child entered at the last node whose `off` is below
`key`'s length. -/
def walkTopGo (key : List Nat) : ref → ref → ref
  | .leaf _, top => top
  | .node c0 c1 off bit, top =>
    if dirOf key off bit then
      walkTopGo key c1 (if off < key.length then c1 else top)
    else
      walkTopGo key c0 (if off < key.length then c0 else top)

/-- `tree.walk` from tree.go, with the visited infos returned alongside. -/
def tree.walk (t : tree) (root : List Nat) (f : info → Option goerr) :
    List info × wres :=
  match t with
  | none => ([], .errw (.pathError root))
  | some r =>
    match tree.get t root with
    | none => ([], .errw (.pathError root))
    | some fi =>
      if fi.Ignored then ([], .errw (.pathError root))
      else
        match f fi with
        | some e => ([fi], .errw e)
        | none =>
          if !fi.isDir then ([fi], .ok)
          else
            let rootp := root ++ [sep]
            let p := bestLeaf r rootp
            let top := walkTopGo rootp r r
            if p.path.length < rootp.length then ([fi], .ok)
            else if !(rootp.isPrefixOf p.path) then ([fi], .ok)
            else
              match walkiter f top [] with
              | (v, res) => (fi :: v, res)

/-- One step of a descent through the tree: the node's fields plus the
direction actually entered (`entered`), the direction `node.dir(root)` of the
search key at this node (`ndir`) and whether `node.off < len(root)`
(`newtop`).  `deleteAll`'s first phase enters by `ndir`; its second phase
enters by the *previous* value of the Go variable `dir`. -/
structure frame where
  c0 : ref
  c1 : ref
  off : Nat
  bit : Nat
  entered : Bool
  ndir : Bool
  newtop : Bool
  deriving DecidableEq, Repr

/-- Rebuild a spine of frames around a replacement for the subtree at the
bottom of the descent (the Go code does this in place through `*ref`
pointers). -/
def rebuild : List frame → ref → ref
  | [], s => s
  | fr :: fs, s =>
    if fr.entered then .node fr.c0 (rebuild fs s) fr.off fr.bit
    else .node (rebuild fs s) fr.c1 fr.off fr.bit

/-- The first descent of `tree.deleteAll` ("walk for best member"): descend
by `node.dir(root)`, recording each node passed. -/
def delFrames (root : List Nat) : ref → List frame × info
  | .leaf i => ([], i)
  | .node c0 c1 off bit =>
    if dirOf root off bit then
      let (fs, i) := delFrames root c1
      (⟨c0, c1, off, bit, true, true, off < root.length⟩ :: fs, i)
    else
      let (fs, i) := delFrames root c0
      (⟨c0, c1, off, bit, false, false, off < root.length⟩ :: fs, i)

/-- The second descent of `tree.deleteAll` ("delete subtree"): at each node
Go computes `ndir := dir(root)` but moves `p` by the *incoming* value of
`dir`, updating `dir` to `ndir` (and `wp`, `top`) only at nodes with
`off < len(root)`. -/
def delFrames2 (root : List Nat) : ref → Bool → List frame × info
  | .leaf i, _ => ([], i)
  | .node c0 c1 off bit, dir =>
    let newtop := decide (off < root.length)
    let ndir := dirOf root off bit
    if dir then
      let (fs, i) := delFrames2 root c1 (if newtop then ndir else dir)
      (⟨c0, c1, off, bit, dir, ndir, newtop⟩ :: fs, i)
    else
      let (fs, i) := delFrames2 root c0 (if newtop then ndir else dir)
      (⟨c0, c1, off, bit, dir, ndir, newtop⟩ :: fs, i)

/-- Split a phase-two descent at the last frame with `newtop` set (the final
values of the Go variables `wp`/`dir`/`top`); `none` when no node had
`off < len(root)` (Go `wp == nil`). -/
def lastNewtop : List frame → Option (List frame × frame)
  | [] => none
  | f :: fs =>
    match lastNewtop fs with
    | some (pre, fk) => some (f :: pre, fk)
    | none => if f.newtop then some ([], f) else none

/-- `tree.deliter`: in-order leaves, in visitor call order. -/
def deliter : ref → List info
  | .leaf i => [i]
  | .node c0 c1 _ _ => deliter c0 ++ deliter c1

/-- `tree.deleteAll` from tree.go, returning the new tree and the infos
passed to the handler, in call order.  The first phase unlinks the exact
member; the second phase unlinks the subtree found for `root + separator`
and runs `deliter` on the child cell recorded in `top`. -/
def tree.deleteAll (t : tree) (root : List Nat) : tree × List info :=
  match t with
  | none => (none, [])
  | some r =>
    let (fs, nfo) := delFrames root r
    if root ≠ nfo.path then (t, [])
    else
      match fs.getLast? with
      | none => (none, [nfo])
      | some lastF =>
        let init := fs.dropLast
        let sibling := if lastF.entered then lastF.c0 else lastF.c1
        let base : tree := some (rebuild init sibling)
        if !nfo.isDir then (base, [nfo])
        else
          let rootp := root ++ [sep]
          let (fs2, leaf2) := delFrames2 rootp sibling lastF.entered
          if !(decide (rootp.length ≤ leaf2.path.length) &&
               rootp.isPrefixOf leaf2.path) then (base, [nfo])
          else
            match lastNewtop fs2 with
            | none => (none, nfo :: deliter sibling)
            | some (pre, fk) =>
              let keep := if fk.ndir then fk.c0 else fk.c1
              let top := if fk.entered then fk.c1 else fk.c0
              (some (rebuild init (rebuild pre keep)), nfo :: deliter top)

/-! ## The traversal order and the crit-bit well-formedness invariant -/

/-- Remapped padded byte of a key at offset `o` (the byte the crit-bit code
compares: separators read as 1, positions past the end read as 0). -/
def pb (k : List Nat) (o : Nat) : Nat := replaceSep (byteAt k o)

/-- Bit `j` of the remapped byte of `k` at offset `o`. -/
def tb (k : List Nat) (o j : Nat) : Bool := (pb k o).testBit j

/-- A byte that can occur in a stored path: in `[2, 256)`.  Paths contain no
NUL byte, and the remapping reserves the byte value 1 for the separator. -/
def validByte (b : Nat) : Prop := 2 ≤ b ∧ b < 256

def validPath (k : List Nat) : Prop := ∀ b ∈ k, validByte b

instance (b : Nat) : Decidable (validByte b) :=
  inferInstanceAs (Decidable (2 ≤ b ∧ b < 256))

instance (k : List Nat) : Decidable (validPath k) :=
  inferInstanceAs (Decidable (∀ b ∈ k, validByte b))

/-- Traversal order of the index: lexicographic on the remapped padded byte
sequences. -/
def keyLt (k1 k2 : List Nat) : Prop :=
  ∃ n, (∀ m, m < n → pb k1 m = pb k2 m) ∧ pb k1 n < pb k2 n

/-- Coordinate `(o1, j1)` is examined strictly before `(o2, j2)`: bytes in
increasing offset order, bits within a byte from most significant down. -/
def coordLt (o1 j1 o2 j2 : Nat) : Prop := o1 < o2 ∨ (o1 = o2 ∧ j2 < j1)

/-- The paths stored in a subtree, in traversal order. -/
def keys (r : ref) : List (List Nat) := (deliter r).map info.path

/-- The root node of `r`, if any, splits strictly later than `(off, bit)` —
the descent-ordering discipline of the crit-bit tree (`bit` is a mask). -/
def topLater (off bit : Nat) : ref → Prop
  | .leaf _ => True
  | .node _ _ o2 b2 => off < o2 ∨ (off = o2 ∧ b2 < bit)

/-- Well-formedness of a crit-bit subtree: every node splits its keys by a
single bit `(off, i)`, all its keys agree on every earlier coordinate, and
children split strictly later. -/
inductive wf : ref → Prop
  | leaf (i : info) : wf (.leaf i)
  | node (c0 c1 : ref) (off i : Nat)
      (h0 : wf c0) (h1 : wf c1) (hi : i < 8)
      (hb0 : ∀ k ∈ keys c0, tb k off i = false)
      (hb1 : ∀ k ∈ keys c1, tb k off i = true)
      (hag : ∀ k1 ∈ keys c0 ++ keys c1, ∀ k2 ∈ keys c0 ++ keys c1,
        ∀ o j, coordLt o j off i → tb k1 o j = tb k2 o j)
      (ht0 : topLater off (2 ^ i) c0) (ht1 : topLater off (2 ^ i) c1) :
      wf (.node c0 c1 off (2 ^ i))

/-- The entries of a tree, in traversal order. -/
def leavesT : tree → List info
  | none => []
  | some r => deliter r

/-- Well-formed tree: a well-formed root whose keys are all valid paths. -/
def wfT (t : tree) : Prop :=
  match t with
  | none => True
  | some r => wf r ∧ ∀ k ∈ keys r, validPath k

theorem deliter_node (c0 c1 : ref) (off bit : Nat) :
    deliter (.node c0 c1 off bit) = deliter c0 ++ deliter c1 := rfl

theorem deliter_leaf (i : info) : deliter (.leaf i) = [i] := rfl

theorem keys_node (c0 c1 : ref) (off bit : Nat) :
    keys (.node c0 c1 off bit) = keys c0 ++ keys c1 := by
  unfold keys
  rw [deliter_node]
  exact List.map_append _ _ _

theorem getD_mem_or_zero (k : List Nat) (o : Nat) :
    k.getD o 0 ∈ k ∨ k.getD o 0 = 0 := by
  rcases Nat.lt_or_ge o k.length with hlt | hge
  · exact Or.inl (by rw [List.getD_eq_getElem _ _ hlt]; exact List.getElem_mem _)
  · exact Or.inr (by rw [List.getD_eq_default _ _ hge])

theorem pb_lt_256 {k : List Nat} (h : validPath k) (o : Nat) : pb k o < 256 := by
  unfold pb byteAt replaceSep
  rcases getD_mem_or_zero k o with hm | hm
  · have hv := h _ hm
    unfold validByte at hv
    split <;> omega
  · split <;> omega

theorem tb_false_of_ge8 {k : List Nat} (h : validPath k) (o : Nat) {j : Nat}
    (hj : 8 ≤ j) : tb k o j = false := by
  apply Nat.testBit_eq_false_of_lt
  calc pb k o < 256 := pb_lt_256 h o
    _ ≤ 2 ^ j := by calc (256 : Nat) = 2 ^ 8 := by norm_num
                      _ ≤ 2 ^ j := Nat.pow_le_pow_right (by norm_num) hj

/-- `dirOf` at a power-of-two mask is the bit test. -/
theorem dirOf_eq_tb (key : List Nat) (off i : Nat) :
    dirOf key off (2 ^ i) = tb key off i := by
  unfold dirOf tb
  rw [show replaceSep (byteAt key off) = pb key off from rfl]
  rw [Nat.and_two_pow]
  have h2 : (2 : Nat) ^ i ≠ 0 := (Nat.two_pow_pos i).ne'
  rcases h : (pb key off).testBit i with _ | _ <;> simp [h, h2]

theorem bestLeaf_mem (r : ref) (k : List Nat) : bestLeaf r k ∈ deliter r := by
  induction r with
  | leaf i => simp [bestLeaf, deliter]
  | node c0 c1 off bit ih0 ih1 =>
    unfold bestLeaf deliter
    split <;> simp [List.mem_append, *]

/-- In a well-formed subtree the leaf found for a stored key is that key's
entry. -/
theorem bestLeaf_of_mem {r : ref} (h : wf r) {k : List Nat} (hk : k ∈ keys r) :
    (bestLeaf r k).path = k := by
  induction h with
  | leaf i =>
    simp only [keys, deliter, List.map_cons, List.map_nil, List.mem_singleton] at hk
    simp [bestLeaf, hk]
  | node c0 c1 off i h0 h1 hi hb0 hb1 hag ht0 ht1 ih0 ih1 =>
    rw [keys_node, List.mem_append] at hk
    unfold bestLeaf
    rw [dirOf_eq_tb]
    rcases hk with hk | hk
    · rw [hb0 _ hk]; simpa using ih0 hk
    · rw [hb1 _ hk]; simpa using ih1 hk

/-! ## Byte-level facts about the critical-bit computation -/

/-- Index of the most significant set bit of a byte (an executable log2). -/
def log2b (x : Nat) : Nat :=
  if x < 2 then 0 else if x < 4 then 1 else if x < 8 then 2
  else if x < 16 then 3 else if x < 32 then 4 else if x < 64 then 5
  else if x < 128 then 6 else 7

set_option maxRecDepth 20000 in
theorem log2b_bounds : ∀ x, x < 256 → x ≠ 0 →
    2 ^ log2b x ≤ x ∧ x < 2 ^ (log2b x + 1) ∧ log2b x < 8 := by decide

set_option maxRecDepth 20000 in
theorem topBit_eq_two_pow : ∀ x, x < 256 → x ≠ 0 →
    topBit x = 2 ^ log2b x := by decide

theorem testBit_of_bounds {x ℓ : Nat} (h1 : 2 ^ ℓ ≤ x) (h2 : x < 2 ^ (ℓ + 1)) :
    x.testBit ℓ = true := by
  have hpos : 0 < 2 ^ ℓ := Nat.two_pow_pos _
  have hdiv : x / 2 ^ ℓ = 1 := by
    have hlo : 1 ≤ x / 2 ^ ℓ := (Nat.one_le_div_iff hpos).2 h1
    have hhi : x / 2 ^ ℓ < 2 := by
      rw [Nat.div_lt_iff_lt_mul hpos]
      calc x < 2 ^ (ℓ + 1) := h2
        _ = 2 * 2 ^ ℓ := by ring
    omega
  rw [Nat.testBit_to_div_mod, hdiv]
  decide

/-- The critical-bit data: for distinct bytes `a b < 256`, `topBit (a ^^^ b)`
is the single bit `2 ^ ℓ` at which `a` and `b` first differ (scanning from
the most significant bit). -/
theorem crit_spec {a b : Nat} (ha : a < 256) (hb : b < 256) (hne : a ≠ b) :
    ∃ ℓ, ℓ < 8 ∧ topBit (a ^^^ b) = 2 ^ ℓ ∧
      a.testBit ℓ = !(b.testBit ℓ) ∧
      ∀ j, ℓ < j → a.testBit j = b.testBit j := by
  have hx0 : a ^^^ b ≠ 0 := fun h => hne (Nat.xor_eq_zero.1 h)
  have hxlt : a ^^^ b < 256 := by
    have h8 : (256 : Nat) = 2 ^ 8 := by norm_num
    rw [h8] at ha hb ⊢
    exact Nat.xor_lt_two_pow ha hb
  obtain ⟨hlo, hhi, hl8⟩ := log2b_bounds _ hxlt hx0
  refine ⟨log2b (a ^^^ b), hl8, topBit_eq_two_pow _ hxlt hx0, ?_, ?_⟩
  · have := testBit_of_bounds hlo hhi
    rw [Nat.testBit_xor] at this
    rcases h1 : a.testBit (log2b (a ^^^ b)) with _ | _ <;>
      rcases h2 : b.testBit (log2b (a ^^^ b)) with _ | _ <;>
        simp [h1, h2] at this ⊢
  · intro j hj
    have hlt : a ^^^ b < 2 ^ j := by
      calc a ^^^ b < 2 ^ (log2b (a ^^^ b) + 1) := hhi
        _ ≤ 2 ^ j := Nat.pow_le_pow_right (by norm_num) hj
    have := Nat.testBit_lt_two_pow hlt
    rw [Nat.testBit_xor] at this
    rcases h1 : a.testBit j with _ | _ <;> rcases h2 : b.testBit j with _ | _ <;>
      simp [h1, h2] at this ⊢

/-! ## The traversal order -/

theorem keyLt_of_coord {k1 k2 : List Nat} {off i : Nat}
    (hag : ∀ o j, coordLt o j off i → tb k1 o j = tb k2 o j)
    (h1 : tb k1 off i = false) (h2 : tb k2 off i = true) : keyLt k1 k2 := by
  refine ⟨off, fun m hm => ?_, ?_⟩
  · exact Nat.eq_of_testBit_eq fun j => hag m j (Or.inl hm)
  · exact Nat.lt_of_testBit i h1 h2 fun j hj => hag off j (Or.inr ⟨rfl, hj⟩)

theorem wf_pairwise {r : ref} (h : wf r) : (keys r).Pairwise keyLt := by
  induction h with
  | leaf i => simp [keys, deliter]
  | node c0 c1 off i h0 h1 hi hb0 hb1 hag ht0 ht1 ih0 ih1 =>
    rw [keys_node]
    refine List.pairwise_append.2 ⟨ih0, ih1, fun k1 hk1 k2 hk2 => ?_⟩
    refine keyLt_of_coord (fun o j hc => ?_) (hb0 _ hk1) (hb1 _ hk2)
    exact hag k1 (List.mem_append_left _ hk1) k2 (List.mem_append_right _ hk2)
      o j hc

theorem pb_append_left {p q : List Nat} {m : Nat} (hm : m < p.length) :
    pb (p ++ q) m = pb p m := by
  unfold pb byteAt
  rw [List.getD_append _ _ _ _ hm]

theorem pb_cons_succ (a : Nat) (l : List Nat) (m : Nat) :
    pb (a :: l) (m + 1) = pb l m := rfl

theorem pb_at_length (p : List Nat) : pb p p.length = 0 := by
  unfold pb byteAt
  rw [List.getD_eq_default _ _ (le_refl _)]
  rfl

theorem pb_append_at_length (p : List Nat) (c : Nat) (q : List Nat) :
    pb (p ++ c :: q) p.length = replaceSep c := by
  unfold pb byteAt
  rw [show p.length = p.length + 0 from rfl, List.getD_append_right _ _ _ _ (by omega)]
  simp

/-- A directory key precedes every key below it in traversal order. -/
theorem keyLt_dir_sub (p q : List Nat) : keyLt p (p ++ sep :: q) := by
  refine ⟨p.length, fun m hm => (pb_append_left hm).symm, ?_⟩
  rw [pb_at_length, pb_append_at_length]
  unfold replaceSep
  simp

/-- After a common prefix, a separator byte precedes any byte `c ≥ 2` other
than the separator itself (any byte that can occur in a name). -/
theorem keyLt_sep_byte (p q s : List Nat) (c : Nat) (hc2 : 2 ≤ c)
    (hcs : c ≠ sep) : keyLt (p ++ sep :: q) (p ++ c :: s) := by
  refine ⟨p.length, fun m hm => ?_, ?_⟩
  · rw [pb_append_left hm, pb_append_left hm]
  · rw [pb_append_at_length, pb_append_at_length]
    unfold replaceSep
    rw [if_pos rfl, if_neg hcs]
    omega

/-! ## Correctness of the critical-byte search -/

theorem pb_cons_zero (a : Nat) (l : List Nat) : pb (a :: l) 0 = replaceSep a := rfl

theorem pb_nil (m : Nat) : pb [] m = 0 := by
  unfold pb byteAt replaceSep
  simp [sep]

theorem validByte_replaceSep {b : Nat} (h : validByte b) : replaceSep b ≠ 0 := by
  unfold replaceSep
  rcases h with ⟨h2, _⟩
  split <;> omega

theorem replaceSep_inj {a b : Nat} (ha : validByte a) (hb : validByte b)
    (h : replaceSep a = replaceSep b) : a = b := by
  unfold replaceSep at h
  unfold validByte at ha hb
  split at h <;> split at h <;> omega

theorem findCrit_self (k : List Nat) (n : Nat) : findCrit k k n = none := by
  induction k generalizing n with
  | nil => rfl
  | cons a l ih =>
    unfold findCrit
    rw [if_pos rfl]
    exact ih _

theorem findCrit_none_pb : ∀ (k e : List Nat) (n : Nat),
    findCrit k e n = none → ∀ m, pb k m = pb e m := by
  intro k
  induction k with
  | nil =>
    intro e n h m
    cases e with
    | nil => rfl
    | cons b es => simp [findCrit] at h
  | cons a ks ih =>
    intro e n h m
    cases e with
    | nil =>
      unfold findCrit at h
      split at h
      · cases m with
        | zero => rw [pb_cons_zero, pb_nil]; omega
        | succ m => rw [pb_cons_succ, pb_nil, ← pb_nil m]; exact ih [] _ h m
      · exact absurd h (by simp)
    | cons b es =>
      unfold findCrit at h
      split at h
      · cases m with
        | zero => rw [pb_cons_zero, pb_cons_zero]; omega
        | succ m => rw [pb_cons_succ, pb_cons_succ]; exact ih es _ h m
      · exact absurd h (by simp)

theorem pb_inj : ∀ (k e : List Nat), validPath k → validPath e →
    (∀ m, pb k m = pb e m) → k = e := by
  intro k
  induction k with
  | nil =>
    intro e _ he h
    cases e with
    | nil => rfl
    | cons b es =>
      have := h 0
      rw [pb_nil, pb_cons_zero] at this
      exact absurd this.symm (validByte_replaceSep (he b (by simp)))
  | cons a ks ih =>
    intro e hk he h
    cases e with
    | nil =>
      have := h 0
      rw [pb_nil, pb_cons_zero] at this
      exact absurd this (validByte_replaceSep (hk a (by simp)))
    | cons b es =>
      have h0 := h 0
      rw [pb_cons_zero, pb_cons_zero] at h0
      have hab := replaceSep_inj (hk a (by simp)) (he b (by simp)) h0
      have htl : ks = es := by
        refine ih es (fun x hx => hk x (by simp [hx]))
          (fun x hx => he x (by simp [hx])) (fun m => ?_)
        have := h (m + 1)
        rwa [pb_cons_succ, pb_cons_succ] at this
      rw [hab, htl]

theorem findCrit_some_spec : ∀ (k e : List Nat), validPath e → ∀ (n off ch x : Nat),
    findCrit k e n = some (off, ch, x) →
    n ≤ off ∧ ch = pb e (off - n) ∧ x = ch ^^^ pb k (off - n) ∧
      pb k (off - n) ≠ pb e (off - n) ∧
      ∀ m, m < off - n → pb k m = pb e m := by
  intro k
  induction k with
  | nil =>
    intro e he n off ch x h
    cases e with
    | nil => simp [findCrit] at h
    | cons b es =>
      simp only [findCrit, Option.some.injEq, Prod.mk.injEq] at h
      obtain ⟨h1, h2, h3⟩ := h
      subst h1; subst h2; subst h3
      refine ⟨le_refl _, by simp [pb_cons_zero], by simp [pb_nil], ?_, by omega⟩
      simp only [Nat.sub_self, pb_nil, pb_cons_zero]
      exact fun hc => validByte_replaceSep (he b (by simp)) hc.symm
  | cons a ks ih =>
    intro e he n off ch x h
    cases e with
    | nil =>
      unfold findCrit at h
      split at h
      · rename_i hc
        obtain ⟨hn, h2, h3, h4, h5⟩ := ih [] (by intro x hx; simp at hx) _ _ _ _ h
        have hoff : off - n = (off - (n + 1)) + 1 := by omega
        refine ⟨by omega, ?_, ?_, ?_, ?_⟩
        · rw [pb_nil]; rw [pb_nil] at h2; exact h2
        · rw [hoff, pb_cons_succ]; exact h3
        · rw [hoff, pb_cons_succ, pb_nil]; rw [pb_nil] at h4; exact h4
        · intro m hm
          cases m with
          | zero => rw [pb_cons_zero, pb_nil]; omega
          | succ m => rw [pb_cons_succ, pb_nil, ← pb_nil m]; exact h5 m (by omega)
      · rename_i hc
        simp only [Option.some.injEq, Prod.mk.injEq] at h
        obtain ⟨h1, h2, h3⟩ := h
        subst h1; subst h2; subst h3
        refine ⟨le_refl _, by simp [pb_nil], ?_, ?_, by omega⟩
        · simp only [Nat.sub_self, pb_cons_zero]; simp
        · simp only [Nat.sub_self, pb_cons_zero, pb_nil]; omega
    | cons b es =>
      unfold findCrit at h
      split at h
      · rename_i hc
        obtain ⟨hn, h2, h3, h4, h5⟩ :=
          ih es (fun x hx => he x (by simp [hx])) _ _ _ _ h
        have hoff : off - n = (off - (n + 1)) + 1 := by omega
        refine ⟨by omega, ?_, ?_, ?_, ?_⟩
        · rw [hoff, pb_cons_succ]; exact h2
        · rw [hoff, pb_cons_succ]; exact h3
        · rw [hoff, pb_cons_succ, pb_cons_succ]; exact h4
        · intro m hm
          cases m with
          | zero => rw [pb_cons_zero, pb_cons_zero]; omega
          | succ m =>
            rw [pb_cons_succ, pb_cons_succ]
            exact h5 m (by omega)
      · rename_i hc
        simp only [Option.some.injEq, Prod.mk.injEq] at h
        obtain ⟨h1, h2, h3⟩ := h
        subst h1; subst h2; subst h3
        refine ⟨le_refl _, by simp [pb_cons_zero], by simp [pb_cons_zero], ?_, by omega⟩
        simp only [Nat.sub_self, pb_cons_zero]
        omega

/-! ## Insert preserves well-formedness -/

theorem coordLt_weaken {o j off i co ci : Nat}
    (h : coordLt o j off i) (hle : off < co ∨ (off = co ∧ ci ≤ i)) :
    coordLt o j co ci := by
  unfold coordLt at h ⊢
  omega

theorem coordLt_strengthen {o j off i co ci : Nat}
    (h : coordLt o j co ci) (hlt : co < off ∨ (co = off ∧ i < ci)) :
    coordLt o j off i := by
  unfold coordLt at h ⊢
  omega

theorem keys_leaf (i : info) : keys (.leaf i) = [i.path] := rfl

theorem mem_keys_of_deliter {r : ref} {i : info} (h : i ∈ deliter r) :
    i.path ∈ keys r := List.mem_map_of_mem _ h

set_option maxHeartbeats 1000000 in
theorem insertIter_spec {k : List Nat} {nfo p : info} (hnf : nfo.path = k)
    {co ci : Nat} (hci : ci < 8)
    (hlow : ∀ o j, coordLt o j co ci → tb k o j = tb p.path o j)
    (hdiff : tb k co ci = !(tb p.path co ci)) :
    ∀ {r : ref}, wf r → bestLeaf r k = p →
      wf (insertIter k co (2 ^ ci) (tb p.path co ci) nfo r) ∧
      (∃ pre post, deliter r = pre ++ post ∧
        deliter (insertIter k co (2 ^ ci) (tb p.path co ci) nfo r) =
          pre ++ nfo :: post) ∧
      (∀ o2 b2, topLater o2 b2 r → (o2 < co ∨ (o2 = co ∧ 2 ^ ci < b2)) →
        topLater o2 b2 (insertIter k co (2 ^ ci) (tb p.path co ci) nfo r)) := by
  intro r hwf
  induction hwf with
  | leaf q =>
    intro hbl
    have hqp : q = p := hbl
    subst hqp
    have hmemp : ∀ a (x : info), a ∈ keys (.leaf x) → a = x.path := by
      intro a x ha
      simpa [keys_leaf] using ha
    have hagl : ∀ k1, (k1 = k ∨ k1 = q.path) → ∀ k2, (k2 = k ∨ k2 = q.path) →
        ∀ o j, coordLt o j co ci → tb k1 o j = tb k2 o j := by
      intro k1 hk1 k2 hk2 o j hoj
      have hstep : ∀ a, (a = k ∨ a = q.path) → tb a o j = tb q.path o j := by
        intro a ha
        rcases ha with ha | ha <;> subst ha
        · exact hlow o j hoj
        · rfl
      rw [hstep k1 hk1, hstep k2 hk2]
    rcases hnd : tb q.path co ci with _ | _
    · have hres : insertIter k co (2 ^ ci) false nfo (.leaf q)
          = .node (.leaf q) (.leaf nfo) co (2 ^ ci) := by
        simp [insertIter]
      rw [hres]
      refine ⟨?_, ⟨[q], [], by simp [deliter], by simp [deliter_node, deliter]⟩, ?_⟩
      · refine wf.node _ _ _ _ (wf.leaf q) (wf.leaf nfo) hci ?_ ?_ ?_ trivial trivial
        · intro a ha
          rw [hmemp _ _ ha, hnd]
        · intro a ha
          rw [hmemp _ _ ha, hnf, hdiff, hnd]
          rfl
        · intro k1 hk1 k2 hk2 o j hoj
          rw [List.mem_append, keys_leaf, keys_leaf, hnf,
            List.mem_singleton, List.mem_singleton] at hk1 hk2
          exact hagl k1 (hk1.elim Or.inr Or.inl) k2 (hk2.elim Or.inr Or.inl)
            o j hoj
      · intro o2 b2 _ hcond
        exact hcond
    · have hres : insertIter k co (2 ^ ci) true nfo (.leaf q)
          = .node (.leaf nfo) (.leaf q) co (2 ^ ci) := by
        simp [insertIter]
      rw [hres]
      refine ⟨?_, ⟨[], [q], by simp [deliter], by simp [deliter_node, deliter]⟩, ?_⟩
      · refine wf.node _ _ _ _ (wf.leaf nfo) (wf.leaf q) hci ?_ ?_ ?_ trivial trivial
        · intro a ha
          rw [hmemp _ _ ha, hnf, hdiff, hnd]
          rfl
        · intro a ha
          rw [hmemp _ _ ha, hnd]
        · intro k1 hk1 k2 hk2 o j hoj
          rw [List.mem_append, keys_leaf, keys_leaf, hnf,
            List.mem_singleton, List.mem_singleton] at hk1 hk2
          exact hagl k1 hk1 k2 hk2 o j hoj
      · intro o2 b2 _ hcond
        exact hcond
  | node c0 c1 off i h0 h1 hi hb0 hb1 hag ht0 ht1 ih0 ih1 =>
    intro hbl
    have hwfr : wf (.node c0 c1 off (2 ^ i)) :=
      wf.node c0 c1 off i h0 h1 hi hb0 hb1 hag ht0 ht1
    have hagN : ∀ q1 ∈ keys (.node c0 c1 off (2 ^ i)),
        ∀ q2 ∈ keys (.node c0 c1 off (2 ^ i)), ∀ o j,
        coordLt o j off i → tb q1 o j = tb q2 o j := by
      rw [keys_node]
      exact hag
    have hpmem : p.path ∈ keys (.node c0 c1 off (2 ^ i)) :=
      mem_keys_of_deliter (hbl ▸ bestLeaf_mem _ k)
    by_cases hbrk : off > co ∨ (off = co ∧ 2 ^ i < 2 ^ ci)
    · -- splice above this node
      have hcc : coordLt co ci off i := by
        rcases hbrk with h | ⟨h1, h2⟩
        · exact Or.inl h
        · exact Or.inr ⟨h1.symm, (Nat.pow_lt_pow_iff_right (by norm_num)).1 h2⟩
      have hall : ∀ q ∈ keys (.node c0 c1 off (2 ^ i)),
          tb q co ci = tb p.path co ci :=
        fun q hq => hagN q hq p.path hpmem co ci hcc
      have hagS : ∀ k1, (k1 = k ∨ k1 ∈ keys (.node c0 c1 off (2 ^ i))) →
          ∀ k2, (k2 = k ∨ k2 ∈ keys (.node c0 c1 off (2 ^ i))) →
          ∀ o j, coordLt o j co ci → tb k1 o j = tb k2 o j := by
        intro k1 hk1 k2 hk2 o j hoj
        have hstep : ∀ q, (q = k ∨ q ∈ keys (.node c0 c1 off (2 ^ i))) →
            tb q o j = tb p.path o j := by
          intro q hq
          rcases hq with hq | hq
          · subst hq; exact hlow o j hoj
          · exact hagN q hq p.path hpmem o j (coordLt_strengthen hoj hcc)
        rw [hstep k1 hk1, hstep k2 hk2]
      have htl : topLater co (2 ^ ci) (.node c0 c1 off (2 ^ i)) := by
        unfold topLater
        rcases hbrk with h | h
        · exact Or.inl h
        · exact Or.inr ⟨h.1.symm, h.2⟩
      rcases hnd : tb p.path co ci with _ | _
      · have hres : insertIter k co (2 ^ ci) false nfo
            (.node c0 c1 off (2 ^ i))
            = .node (.node c0 c1 off (2 ^ i)) (.leaf nfo) co (2 ^ ci) := by
          simp [insertIter, if_pos hbrk]
        rw [hres]
        refine ⟨?_, ⟨deliter (.node c0 c1 off (2 ^ i)), [], by simp,
          by simp [deliter_node, deliter_leaf]⟩, ?_⟩
        · refine wf.node _ _ _ _ hwfr (wf.leaf nfo) hci ?_ ?_ ?_ htl trivial
          · intro q hq
            rw [hall _ hq, hnd]
          · intro q hq
            rw [keys_leaf] at hq
            simp only [List.mem_singleton] at hq
            rw [hq, hnf, hdiff, hnd]
            rfl
          · intro k1 hk1 k2 hk2 o j hoj
            rw [keys_leaf, hnf] at hk1 hk2
            refine hagS k1 ?_ k2 ?_ o j hoj <;>
              rw [List.mem_append, List.mem_singleton] at hk1 hk2 <;> tauto
        · intro o2 b2 _ hcond
          exact hcond
      · have hres : insertIter k co (2 ^ ci) true nfo
            (.node c0 c1 off (2 ^ i))
            = .node (.leaf nfo) (.node c0 c1 off (2 ^ i)) co (2 ^ ci) := by
          simp [insertIter, if_pos hbrk]
        rw [hres]
        refine ⟨?_, ⟨[], deliter (.node c0 c1 off (2 ^ i)), by simp,
          by simp [deliter_node, deliter_leaf]⟩, ?_⟩
        · refine wf.node _ _ _ _ (wf.leaf nfo) hwfr hci ?_ ?_ ?_ trivial htl
          · intro q hq
            rw [keys_leaf] at hq
            simp only [List.mem_singleton] at hq
            rw [hq, hnf, hdiff, hnd]
            rfl
          · intro q hq
            rw [hall _ hq, hnd]
          · intro k1 hk1 k2 hk2 o j hoj
            rw [keys_leaf, hnf] at hk1 hk2
            refine hagS k1 ?_ k2 ?_ o j hoj <;>
              rw [List.mem_append, List.mem_singleton] at hk1 hk2 <;> tauto
        · intro o2 b2 _ hcond
          exact hcond
    · -- descend into the child chosen by the key
      have hnbrk : off < co ∨ (off = co ∧ ci ≤ i) := by
        push_neg at hbrk
        rcases Nat.lt_or_ge off co with h | h
        · exact Or.inl h
        · have h2 := hbrk.1
          have hoc : off = co := by omega
          refine Or.inr ⟨hoc, ?_⟩
          have := hbrk.2 hoc
          exact (Nat.pow_le_pow_iff_right (by norm_num)).1 this
      cases hd : dirOf k off (2 ^ i) with
      | false =>
        have hbl0 : bestLeaf c0 k = p := by
          unfold bestLeaf at hbl
          rwa [hd, if_neg Bool.false_ne_true] at hbl
        obtain ⟨ihw, ⟨pre, post, hdl, hdl2⟩, ihtop⟩ := ih0 hbl0
        have hkd : tb k off i = false := by rw [← dirOf_eq_tb, hd]
        have hkeysnew : ∀ q, q ∈ keys (insertIter k co (2 ^ ci)
            (tb p.path co ci) nfo c0) → q ∈ keys c0 ∨ q = k := by
          intro q hq
          unfold keys at hq
          rw [hdl2] at hq
          unfold keys
          rw [hdl]
          simp only [List.map_append, List.map_cons, List.mem_append,
            List.mem_cons, hnf] at hq ⊢
          tauto
        have hcne : ¬(off = co ∧ i = ci) := by
          rintro ⟨hoc, hic⟩
          have hpmem0 : p.path ∈ keys c0 :=
            mem_keys_of_deliter (hbl0 ▸ bestLeaf_mem _ k)
          have := hb0 _ hpmem0
          rw [hoc, hic] at this hkd
          rw [this] at hdiff
          rw [hdiff] at hkd
          simp at hkd
        have hcond : off < co ∨ (off = co ∧ 2 ^ ci < 2 ^ i) := by
          rcases hnbrk with h | ⟨h1, h2⟩
          · exact Or.inl h
          · refine Or.inr ⟨h1, ?_⟩
            have : ci < i := by
              rcases Nat.lt_or_ge ci i with hh | hh
              · exact hh
              · exact absurd ⟨h1, by omega⟩ hcne
            exact Nat.pow_lt_pow_right (by norm_num) this
        have hres : insertIter k co (2 ^ ci) (tb p.path co ci) nfo
            (.node c0 c1 off (2 ^ i))
            = .node (insertIter k co (2 ^ ci) (tb p.path co ci) nfo c0) c1
                off (2 ^ i) := by
          simp [insertIter, if_neg hbrk, hd]
        rw [hres]
        refine ⟨?_, ?_, ?_⟩
        · refine wf.node _ _ _ _ ihw h1 hi ?_ hb1 ?_ (ihtop off (2 ^ i) ht0 hcond) ht1
          · intro q hq
            rcases hkeysnew q hq with hq | hq
            · exact hb0 _ hq
            · rw [hq]; exact hkd
          · intro k1 hk1 k2 hk2 o j hoj
            rw [List.mem_append] at hk1 hk2
            have hmem : ∀ q, (q ∈ keys (insertIter k co (2 ^ ci)
                (tb p.path co ci) nfo c0) ∨ q ∈ keys c1) →
                q = k ∨ q ∈ keys (.node c0 c1 off (2 ^ i)) := by
              intro q hq
              rw [keys_node, List.mem_append]
              rcases hq with hq | hq
              · rcases hkeysnew q hq with hq | hq
                · exact Or.inr (Or.inl hq)
                · exact Or.inl hq
              · exact Or.inr (Or.inr hq)
            have hstep : ∀ q, (q = k ∨ q ∈ keys (.node c0 c1 off (2 ^ i))) →
                tb q o j = tb p.path o j := by
              intro q hq
              rcases hq with hq | hq
              · subst hq
                exact hlow o j (coordLt_weaken hoj hnbrk)
              · exact hagN q hq p.path hpmem o j hoj
            rw [hstep k1 (hmem k1 hk1), hstep k2 (hmem k2 hk2)]
        · refine ⟨pre, post ++ deliter c1, ?_, ?_⟩
          · rw [deliter_node, hdl, List.append_assoc]
          · rw [deliter_node, hdl2]
            simp
        · intro o2 b2 hto hcond2
          exact hto
      | true =>
        have hbl1 : bestLeaf c1 k = p := by
          unfold bestLeaf at hbl
          rwa [hd, if_pos rfl] at hbl
        obtain ⟨ihw, ⟨pre, post, hdl, hdl2⟩, ihtop⟩ := ih1 hbl1
        have hkd : tb k off i = true := by rw [← dirOf_eq_tb, hd]
        have hkeysnew : ∀ q, q ∈ keys (insertIter k co (2 ^ ci)
            (tb p.path co ci) nfo c1) → q ∈ keys c1 ∨ q = k := by
          intro q hq
          unfold keys at hq
          rw [hdl2] at hq
          unfold keys
          rw [hdl]
          simp only [List.map_append, List.map_cons, List.mem_append,
            List.mem_cons, hnf] at hq ⊢
          tauto
        have hcne : ¬(off = co ∧ i = ci) := by
          rintro ⟨hoc, hic⟩
          have hpmem1 : p.path ∈ keys c1 :=
            mem_keys_of_deliter (hbl1 ▸ bestLeaf_mem _ k)
          have := hb1 _ hpmem1
          rw [hoc, hic] at this hkd
          rw [this] at hdiff
          rw [hdiff] at hkd
          simp at hkd
        have hcond : off < co ∨ (off = co ∧ 2 ^ ci < 2 ^ i) := by
          rcases hnbrk with h | ⟨h1, h2⟩
          · exact Or.inl h
          · refine Or.inr ⟨h1, ?_⟩
            have : ci < i := by
              rcases Nat.lt_or_ge ci i with hh | hh
              · exact hh
              · exact absurd ⟨h1, by omega⟩ hcne
            exact Nat.pow_lt_pow_right (by norm_num) this
        have hres : insertIter k co (2 ^ ci) (tb p.path co ci) nfo
            (.node c0 c1 off (2 ^ i))
            = .node c0 (insertIter k co (2 ^ ci) (tb p.path co ci) nfo c1)
                off (2 ^ i) := by
          simp [insertIter, if_neg hbrk, hd]
        rw [hres]
        refine ⟨?_, ?_, ?_⟩
        · refine wf.node _ _ _ _ h0 ihw hi hb0 ?_ ?_ ht0 (ihtop off (2 ^ i) ht1 hcond)
          · intro q hq
            rcases hkeysnew q hq with hq | hq
            · exact hb1 _ hq
            · rw [hq]; exact hkd
          · intro k1 hk1 k2 hk2 o j hoj
            rw [List.mem_append] at hk1 hk2
            have hmem : ∀ q, (q ∈ keys c0 ∨ q ∈ keys (insertIter k co (2 ^ ci)
                (tb p.path co ci) nfo c1)) →
                q = k ∨ q ∈ keys (.node c0 c1 off (2 ^ i)) := by
              intro q hq
              rw [keys_node, List.mem_append]
              rcases hq with hq | hq
              · exact Or.inr (Or.inl hq)
              · rcases hkeysnew q hq with hq | hq
                · exact Or.inr (Or.inr hq)
                · exact Or.inl hq
            have hstep : ∀ q, (q = k ∨ q ∈ keys (.node c0 c1 off (2 ^ i))) →
                tb q o j = tb p.path o j := by
              intro q hq
              rcases hq with hq | hq
              · subst hq
                exact hlow o j (coordLt_weaken hoj hnbrk)
              · exact hagN q hq p.path hpmem o j hoj
            rw [hstep k1 (hmem k1 hk1), hstep k2 (hmem k2 hk2)]
        · refine ⟨deliter c0 ++ pre, post, ?_, ?_⟩
          · rw [deliter_node, hdl, List.append_assoc]
          · rw [deliter_node, hdl2]
            simp
        · intro o2 b2 hto hcond2
          exact hto

/-! ## Lookup and insert, at the tree level -/

theorem keyLt_irrefl (q : List Nat) : ¬keyLt q q := by
  rintro ⟨n, _, hlt⟩
  exact lt_irrefl _ hlt

theorem eq_of_mem_same_path {l : List info}
    (hp : l.Pairwise (fun a b => keyLt a.path b.path)) :
    ∀ {a b : info}, a ∈ l → b ∈ l → a.path = b.path → a = b := by
  induction l with
  | nil => intro a b ha; simp at ha
  | cons x xs ih =>
    intro a b ha hb hpath
    rcases List.pairwise_cons.1 hp with ⟨hx, hxs⟩
    rcases List.mem_cons.1 ha with ha | ha <;> rcases List.mem_cons.1 hb with hb | hb
    · rw [ha, hb]
    · rw [ha] at hpath ⊢
      have := hx b hb
      rw [← hpath] at this
      exact absurd this (keyLt_irrefl _)
    · rw [hb] at hpath ⊢
      have := hx a ha
      rw [hpath] at this
      exact absurd this (keyLt_irrefl _)
    · exact ih hxs ha hb hpath

theorem deliter_pairwise {r : ref} (hwf : wf r) :
    (deliter r).Pairwise (fun a b => keyLt a.path b.path) := by
  have := wf_pairwise hwf
  unfold keys at this
  exact (List.pairwise_map).1 this

/-- Characterization of `tree.get` on a well-formed tree: it finds exactly
the stored entry with the requested path. -/
theorem get_some_eq (r : ref) (q : List Nat) :
    tree.get (some r) q =
      if q = (bestLeaf r q).path then some (bestLeaf r q) else none := rfl

theorem get_char {r : ref} (hwf : wf r) {q : List Nat} {E : info} :
    tree.get (some r) q = some E ↔ E ∈ deliter r ∧ E.path = q := by
  rw [get_some_eq]
  constructor
  · intro h
    split at h
    · rename_i heq
      injection h with h
      rw [← h]
      exact ⟨bestLeaf_mem _ _, heq.symm⟩
    · exact absurd h (by simp)
  · rintro ⟨hmem, hpath⟩
    have hk : q ∈ keys r := hpath ▸ mem_keys_of_deliter hmem
    have hbl := bestLeaf_of_mem hwf hk
    have hEq : E = bestLeaf r q :=
      eq_of_mem_same_path (deliter_pairwise hwf) hmem (bestLeaf_mem _ _)
        (by rw [hpath, hbl])
    rw [if_pos hbl.symm, hEq]

/-- The duplicate case of `tree.insert`: when an entry exists at exactly the
new entry's path, insert returns it and leaves the tree unchanged. -/
theorem insert_some_eq (r : ref) (nfo : info) :
    tree.insert (some r) nfo =
      (match findCrit nfo.path (bestLeaf r nfo.path).path 0 with
        | none => (some r, some (bestLeaf r nfo.path))
        | some (off, ch, bit0) =>
          (some (insertIter nfo.path off (topBit bit0)
            (decide (ch &&& topBit bit0 ≠ 0)) nfo r), none)) := rfl

theorem insert_dup {t : tree} {E : info} (nfo : info)
    (h : tree.get t nfo.path = some E) :
    tree.insert t nfo = (t, some E) := by
  match t with
  | none => exact absurd h (by simp [tree.get])
  | some r =>
    rw [get_some_eq] at h
    rw [insert_some_eq]
    split at h
    · rename_i heq
      injection h with h
      rw [← heq, findCrit_self, h]
    · exact absurd h (by simp)

theorem and_topBit_testBit (a x : Nat) {ℓ : Nat} (hx : topBit x = 2 ^ ℓ) :
    decide (a &&& topBit x ≠ 0) = a.testBit ℓ := by
  rw [hx, Nat.and_two_pow]
  have h2 : (2 : Nat) ^ ℓ ≠ 0 := (Nat.two_pow_pos ℓ).ne'
  rcases h : a.testBit ℓ with _ | _ <;> simp [h, h2]

/-- The fresh case of `tree.insert`: inserting a new valid path into a
well-formed tree yields a well-formed tree whose entry list gains exactly
the new entry, in place. -/
theorem insert_new {r : ref} (hwf : wf r) (hvk : ∀ q ∈ keys r, validPath q)
    {nfo : info} (hv : validPath nfo.path)
    (h : tree.get (some r) nfo.path = none) :
    ∃ r2, tree.insert (some r) nfo = (some r2, none) ∧ wf r2 ∧
      (∀ q ∈ keys r2, validPath q) ∧
      (∃ pre post, deliter r = pre ++ post ∧
        deliter r2 = pre ++ nfo :: post) := by
  have hne : nfo.path ≠ (bestLeaf r nfo.path).path := by
    intro hc
    rw [get_some_eq, if_pos hc] at h
    exact absurd h (by simp)
  have hpv : validPath (bestLeaf r nfo.path).path :=
    hvk _ (mem_keys_of_deliter (bestLeaf_mem _ _))
  obtain ⟨off, ch, x, hfc⟩ : ∃ off ch x,
      findCrit nfo.path (bestLeaf r nfo.path).path 0 = some (off, ch, x) := by
    rcases hopt : findCrit nfo.path (bestLeaf r nfo.path).path 0 with _ | ⟨⟨o, c, y⟩⟩
    · exact absurd (pb_inj _ _ hv hpv (findCrit_none_pb _ _ _ hopt)) hne
    · exact ⟨o, c, y, rfl⟩
  obtain ⟨-, hch, hx, hdiffb, hagb⟩ := findCrit_some_spec _ _ hpv _ _ _ _ hfc
  rw [Nat.sub_zero] at hch hx hdiffb hagb
  set p := bestLeaf r nfo.path with hp
  set a := pb p.path off with ha
  set b := pb nfo.path off with hb
  have haval : a < 256 := pb_lt_256 hpv off
  have hbval : b < 256 := pb_lt_256 hv off
  have hxab : x = a ^^^ b := by rw [hx, hch]
  obtain ⟨ℓ, hl8, htop, hbitd, hhigh⟩ :=
    crit_spec haval hbval (fun hc => hdiffb hc.symm)
  have htx : topBit x = 2 ^ ℓ := by rw [hxab]; exact htop
  have hnd : decide (ch &&& topBit x ≠ 0) = tb p.path off ℓ := by
    unfold tb
    rw [← ha, hch]
    exact and_topBit_testBit _ _ htx
  have hlow : ∀ o j, coordLt o j off ℓ → tb nfo.path o j = tb p.path o j := by
    intro o j hoj
    rcases hoj with hoj | ⟨rfl, hoj⟩
    · unfold tb
      rw [hagb o hoj]
    · unfold tb
      rw [← ha, ← hb]
      exact (hhigh j hoj).symm
  have hdiff : tb nfo.path off ℓ = !(tb p.path off ℓ) := by
    unfold tb
    rw [← ha, ← hb]
    rcases h1 : a.testBit ℓ with _ | _ <;> rcases h2 : b.testBit ℓ with _ | _ <;>
      rw [h1, h2] at hbitd <;> simp_all
  obtain ⟨hw2, ⟨pre, post, hd1, hd2⟩, -⟩ :=
    insertIter_spec rfl hl8 hlow hdiff hwf hp.symm
  rw [← htx] at hw2 hd2
  refine ⟨insertIter nfo.path off (topBit x) (tb p.path off ℓ) nfo r,
    ?_, hw2, ?_, ⟨pre, post, hd1, hd2⟩⟩
  · rw [insert_some_eq, ← hp, hfc]
    show (some (insertIter nfo.path off (topBit x)
      (decide (ch &&& topBit x ≠ 0)) nfo r), (none : Option info)) = _
    rw [hnd]
  · intro q hq
    have hq2 : q ∈ List.map info.path (pre ++ nfo :: post) := by
      unfold keys at hq
      rwa [hd2] at hq
    rw [List.map_append, List.map_cons] at hq2
    rcases List.mem_append.1 hq2 with hq2 | hq2
    · refine hvk q ?_
      unfold keys
      rw [hd1, List.map_append]
      exact List.mem_append.2 (Or.inl hq2)
    · rcases List.mem_cons.1 hq2 with hq2 | hq2
      · rw [hq2]; exact hv
      · refine hvk q ?_
        unfold keys
        rw [hd1, List.map_append]
        exact List.mem_append.2 (Or.inr hq2)

/-! ## Locating the subtree walked by `tree.walk` -/

/-- The root node of `r`, if any, splits at byte offset at least `L`. -/
def offGE (L : Nat) : ref → Prop
  | .leaf _ => True
  | .node _ _ o _ => L ≤ o

theorem offGE_of_topLater {off bit : Nat} {c : ref} (h : topLater off bit c)
    {L : Nat} (hL : L ≤ off) : offGE L c := by
  cases c with
  | leaf _ => trivial
  | node c0 c1 o2 b2 =>
    unfold topLater at h
    unfold offGE
    omega

/-- Once the descent is past all nodes with `off < len(root)`, `top` no
longer changes. -/
theorem walkTopGo_stay {rootp : List Nat} {r : ref} (hwf : wf r)
    (hoff : offGE rootp.length r) : ∀ top, walkTopGo rootp r top = top := by
  induction hwf with
  | leaf q => intro top; rfl
  | node c0 c1 off i h0 h1 hi hb0 hb1 hag ht0 ht1 ih0 ih1 =>
    intro top
    unfold offGE at hoff
    have hnl : ¬off < rootp.length := by omega
    unfold walkTopGo
    simp only [if_neg hnl]
    split
    · exact ih1 (offGE_of_topLater ht1 hoff) top
    · exact ih0 (offGE_of_topLater ht0 hoff) top

/-- In a subtree whose top node splits at offset `≥ L`, all keys agree on
every byte before `L`. -/
theorem keys_agree_low {r : ref} (hwf : wf r) {L : Nat}
    (hoff : offGE L r) :
    ∀ k1 ∈ keys r, ∀ k2 ∈ keys r, ∀ o j, o < L → tb k1 o j = tb k2 o j := by
  cases hwf with
  | leaf q =>
    intro k1 hk1 k2 hk2 o j ho
    rw [keys_leaf, List.mem_singleton] at hk1 hk2
    rw [hk1, hk2]
  | node c0 c1 off i h0 h1 hi hb0 hb1 hag ht0 ht1 =>
    intro k1 hk1 k2 hk2 o j ho
    unfold offGE at hoff
    rw [keys_node] at hk1 hk2
    exact hag k1 hk1 k2 hk2 o j (Or.inl (by omega))

/-- For valid paths, `rootp` is a raw byte prefix of `k` exactly when their
remapped padded bytes agree below `len rootp`. -/
theorem isPrefixOf_iff_pb {rootp k : List Nat} (hvr : validPath rootp)
    (hvk : validPath k) :
    rootp.isPrefixOf k = true ↔ ∀ o, o < rootp.length → pb k o = pb rootp o := by
  rw [List.isPrefixOf_iff_prefix]
  constructor
  · rintro ⟨t, rfl⟩ o ho
    unfold pb byteAt
    rw [List.getD_append _ _ _ _ ho]
  · intro h
    have hlen : rootp.length ≤ k.length := by
      by_contra hc
      push_neg at hc
      have h0 := h k.length hc
      rw [pb_at_length] at h0
      have hmem : rootp.getD k.length 0 ∈ rootp := by
        rw [List.getD_eq_getElem _ _ hc]
        exact List.getElem_mem _
      exact validByte_replaceSep (hvr _ hmem) h0.symm
    have htake : k.take rootp.length = rootp := by
      apply List.ext_getElem
      · rw [List.length_take]
        omega
      · intro n h1 h2
        rw [List.getElem_take]
        have hpb := h n h2
        unfold pb byteAt at hpb
        rw [List.getD_eq_getElem _ _ (by omega : n < k.length),
          List.getD_eq_getElem _ _ (by omega : n < rootp.length)] at hpb
        exact replaceSep_inj (hvk _ (List.getElem_mem _))
          (hvr _ (List.getElem_mem _)) hpb
    have hsplit := List.take_append_drop rootp.length k
    rw [htake] at hsplit
    exact ⟨k.drop rootp.length, hsplit⟩

theorem bestLeaf_node (c0 c1 : ref) (off bit : Nat) (key : List Nat) :
    bestLeaf (.node c0 c1 off bit) key =
      if dirOf key off bit then bestLeaf c1 key else bestLeaf c0 key := rfl

theorem walkTopGo_node (key : List Nat) (c0 c1 : ref) (off bit : Nat) (top : ref) :
    walkTopGo key (.node c0 c1 off bit) top =
      if dirOf key off bit then
        walkTopGo key c1 (if off < key.length then c1 else top)
      else
        walkTopGo key c0 (if off < key.length then c0 else top) := rfl

/-- If the best-member leaf for `root + sep` does not carry the prefix, no
key in the (well-formed) subtree does. -/
theorem walk_no_prefix {r : ref} (hwf : wf r) (hvk : ∀ q ∈ keys r, validPath q)
    {rootp : List Nat} (hvr : validPath rootp)
    (hnp : ¬(rootp.isPrefixOf (bestLeaf r rootp).path = true)) :
    ∀ k ∈ keys r, ¬(rootp.isPrefixOf k = true) := by
  induction hwf with
  | leaf q =>
    intro k hk
    rw [keys_leaf, List.mem_singleton] at hk
    rw [hk]
    exact hnp
  | node c0 c1 off i h0 h1 hi hb0 hb1 hag ht0 ht1 ih0 ih1 =>
    intro k hk hpref
    have hvkk : validPath k := hvk k hk
    have hbm : (bestLeaf (.node c0 c1 off (2 ^ i)) rootp).path
        ∈ keys (.node c0 c1 off (2 ^ i)) :=
      mem_keys_of_deliter (bestLeaf_mem _ _)
    by_cases hL : off < rootp.length
    · -- the key follows the same direction as the search path
      have htbk : tb k off i = tb rootp off i := by
        unfold tb
        rw [(isPrefixOf_iff_pb hvr hvkk).1 hpref off hL]
      rw [keys_node, List.mem_append] at hk
      cases hd : dirOf rootp off (2 ^ i) with
      | false =>
        have hblc : bestLeaf (.node c0 c1 off (2 ^ i)) rootp = bestLeaf c0 rootp := by
          rw [bestLeaf_node, hd, if_neg Bool.false_ne_true]
        rw [dirOf_eq_tb] at hd
        rcases hk with hk | hk
        · refine ih0 (fun q hq => hvk q ?_) (hblc ▸ hnp) k hk hpref
          rw [keys_node]
          exact List.mem_append_left _ hq
        · rw [hb1 k hk, hd] at htbk
          simp at htbk
      | true =>
        have hblc : bestLeaf (.node c0 c1 off (2 ^ i)) rootp = bestLeaf c1 rootp := by
          rw [bestLeaf_node, hd, if_pos rfl]
        rw [dirOf_eq_tb] at hd
        rcases hk with hk | hk
        · rw [hb0 k hk, hd] at htbk
          simp at htbk
        · refine ih1 (fun q hq => hvk q ?_) (hblc ▸ hnp) k hk hpref
          rw [keys_node]
          exact List.mem_append_right _ hq
    · -- all keys agree below len rootp, so the best leaf would carry the prefix
      have hoff : offGE rootp.length (.node c0 c1 off (2 ^ i)) := by
        unfold offGE
        omega
      have hag2 := keys_agree_low (wf.node c0 c1 off i h0 h1 hi hb0 hb1 hag ht0 ht1) hoff
      have hbl : rootp.isPrefixOf (bestLeaf (.node c0 c1 off (2 ^ i)) rootp).path = true := by
        rw [isPrefixOf_iff_pb hvr (hvk _ hbm)]
        intro o ho
        have hpb : pb (bestLeaf (.node c0 c1 off (2 ^ i)) rootp).path o = pb k o :=
          Nat.eq_of_testBit_eq fun j => hag2 _ hbm k hk o j ho
        rw [hpb]
        exact (isPrefixOf_iff_pb hvr hvkk).1 hpref o ho
      exact hnp hbl

/-- When the best-member leaf for `root + sep` does carry the prefix, the
`top` subtree found by `tree.walk` holds exactly the keys with that prefix. -/
theorem walkTop_exact {r : ref} (hwf : wf r) (hvk : ∀ q ∈ keys r, validPath q)
    {rootp : List Nat} (hvr : validPath rootp)
    (hp : rootp.isPrefixOf (bestLeaf r rootp).path = true) :
    deliter (walkTopGo rootp r r) =
      (deliter r).filter (fun i => rootp.isPrefixOf i.path) := by
  induction hwf with
  | leaf q =>
    have : rootp.isPrefixOf q.path = true := hp
    show deliter (.leaf q) = (deliter (.leaf q)).filter _
    rw [deliter_leaf]
    simp [this]
  | node c0 c1 off i h0 h1 hi hb0 hb1 hag ht0 ht1 ih0 ih1 =>
    have hwfr : wf (.node c0 c1 off (2 ^ i)) :=
      wf.node c0 c1 off i h0 h1 hi hb0 hb1 hag ht0 ht1
    by_cases hL : off < rootp.length
    · -- descend into the child of the search direction; the other child
      -- holds no key with the prefix
      cases hd : dirOf rootp off (2 ^ i) with
      | false =>
        have heval : walkTopGo rootp (.node c0 c1 off (2 ^ i))
            (.node c0 c1 off (2 ^ i)) = walkTopGo rootp c0 c0 := by
          rw [walkTopGo_node, hd, if_neg Bool.false_ne_true, if_pos hL]
        have hblc : bestLeaf (.node c0 c1 off (2 ^ i)) rootp
            = bestLeaf c0 rootp := by
          rw [bestLeaf_node, hd, if_neg Bool.false_ne_true]
        rw [heval, deliter_node, List.filter_append]
        have hc1nil : (deliter c1).filter
            (fun x => rootp.isPrefixOf x.path) = [] := by
          rw [List.filter_eq_nil_iff]
          intro x hx hpref
          have hvx := hvk x.path (by
            rw [keys_node]
            exact List.mem_append_right _ (mem_keys_of_deliter hx))
          have htbx : tb x.path off i = tb rootp off i := by
            unfold tb
            rw [(isPrefixOf_iff_pb hvr hvx).1 hpref off hL]
          rw [hb1 _ (mem_keys_of_deliter hx)] at htbx
          rw [← dirOf_eq_tb, hd] at htbx
          simp at htbx
        rw [hc1nil, List.append_nil]
        exact ih0 (fun q hq => hvk q (by
          rw [keys_node]
          exact List.mem_append_left _ hq)) (hblc ▸ hp)
      | true =>
        have heval : walkTopGo rootp (.node c0 c1 off (2 ^ i))
            (.node c0 c1 off (2 ^ i)) = walkTopGo rootp c1 c1 := by
          rw [walkTopGo_node, hd, if_pos rfl, if_pos hL]
        have hblc : bestLeaf (.node c0 c1 off (2 ^ i)) rootp
            = bestLeaf c1 rootp := by
          rw [bestLeaf_node, hd, if_pos rfl]
        rw [heval, deliter_node, List.filter_append]
        have hc0nil : (deliter c0).filter
            (fun x => rootp.isPrefixOf x.path) = [] := by
          rw [List.filter_eq_nil_iff]
          intro x hx hpref
          have hvx := hvk x.path (by
            rw [keys_node]
            exact List.mem_append_left _ (mem_keys_of_deliter hx))
          have htbx : tb x.path off i = tb rootp off i := by
            unfold tb
            rw [(isPrefixOf_iff_pb hvr hvx).1 hpref off hL]
          rw [hb0 _ (mem_keys_of_deliter hx)] at htbx
          rw [← dirOf_eq_tb, hd] at htbx
          simp at htbx
        rw [hc0nil, List.nil_append]
        exact ih1 (fun q hq => hvk q (by
          rw [keys_node]
          exact List.mem_append_right _ hq)) (hblc ▸ hp)
    · have hoff : offGE rootp.length (.node c0 c1 off (2 ^ i)) := by
        unfold offGE
        omega
      rw [walkTopGo_stay hwfr hoff]
      have hag2 := keys_agree_low hwfr hoff
      have hbm : (bestLeaf (.node c0 c1 off (2 ^ i)) rootp).path
          ∈ keys (.node c0 c1 off (2 ^ i)) :=
        mem_keys_of_deliter (bestLeaf_mem _ _)
      have hall : ∀ x ∈ deliter (.node c0 c1 off (2 ^ i)),
          rootp.isPrefixOf x.path = true := by
        intro x hx
        have hxk : x.path ∈ keys (.node c0 c1 off (2 ^ i)) :=
          mem_keys_of_deliter hx
        rw [isPrefixOf_iff_pb hvr (hvk _ hxk)]
        intro o ho
        have hpb : pb x.path o = pb (bestLeaf (.node c0 c1 off (2 ^ i)) rootp).path o :=
          Nat.eq_of_testBit_eq fun j => hag2 _ hxk _ hbm o j ho
        rw [hpb]
        exact (isPrefixOf_iff_pb hvr (hvk _ hbm)).1 hp o ho
      rw [List.filter_eq_self.2 (fun x hx => hall x hx)]

/-! ## The traversal with an always-continue visitor -/

theorem walkiter_none : ∀ r : ref,
    walkiter (fun _ => none) r [] =
      ((deliter r).filter (fun i => !i.Ignored), .ok) := by
  intro r
  induction r with
  | leaf nfo =>
    rcases h : nfo.Ignored with _ | _ <;>
      simp [walkiter, deliter_leaf, h]
  | node c0 c1 off bit ih0 ih1 =>
    show (match walkiter (fun _ => none) c0 [] with
      | (v0, .ok) =>
        match walkiter (fun _ => none) c1 [] with
        | (v1, .ok) => (v0 ++ v1, wres.ok)
        | (v1, .skipw _) => (v0 ++ v1, wres.ok)
        | (v1, .errw e) => (v0 ++ v1, wres.errw e)
      | (v0, .skipw s) =>
        match walkiter (fun _ => none) c1 ([] ++ [s]) with
        | (v1, .ok) => (v0 ++ v1, wres.ok)
        | (v1, .skipw _) => (v0 ++ v1, wres.ok)
        | (v1, .errw e) => (v0 ++ v1, wres.errw e)
      | (v0, .errw e) => (v0, wres.errw e)) = _
    rw [ih0, ih1, deliter_node, List.filter_append]

/-- `tree.walk` evaluated step by step (its Go control flow, as a single
equation). -/
theorem walk_some_eq (r : ref) (root : List Nat) (f : info → Option goerr) :
    tree.walk (some r) root f =
      (match tree.get (some r) root with
        | none => ([], .errw (.pathError root))
        | some fi =>
          if fi.Ignored then ([], .errw (.pathError root))
          else
            match f fi with
            | some e => ([fi], .errw e)
            | none =>
              if !fi.isDir then ([fi], .ok)
              else if (bestLeaf r (root ++ [sep])).path.length
                  < (root ++ [sep]).length then ([fi], .ok)
              else if !((root ++ [sep]).isPrefixOf
                  (bestLeaf r (root ++ [sep])).path) then ([fi], .ok)
              else
                match walkiter f (walkTopGo (root ++ [sep]) r r) [] with
                | (v, res) => (fi :: v, res)) := rfl

theorem validPath_append_sep {root : List Nat} (h : validPath root) :
    validPath (root ++ [sep]) := by
  intro b hb
  rcases List.mem_append.1 hb with hb | hb
  · exact h b hb
  · rw [List.mem_singleton] at hb
    rw [hb]
    unfold validByte sep
    omega

theorem not_isPrefixOf_short {s k : List Nat} (h : k.length < s.length) :
    s.isPrefixOf k = false := by
  rcases hres : s.isPrefixOf k with _ | _
  · rfl
  · rw [List.isPrefixOf_iff_prefix] at hres
    have := hres.length_le
    omega

theorem sep_not_self_pref (root : List Nat) :
    (root ++ [sep]).isPrefixOf root = false := by
  apply not_isPrefixOf_short
  rw [List.length_append]
  simp

/-- The visitor call list of `tree.walk` with an always-continue visitor, on
a well-formed tree: exactly the root entry (when present, not ignored) plus,
when the root entry is a directory, every non-ignored entry carrying the
`root + sep` prefix, in stored order. -/
theorem walk_none_spec {r : ref} (hwf : wf r) (hvk : ∀ q ∈ keys r, validPath q)
    {root : List Nat} (hvr : validPath root) :
    ((tree.walk (some r) root (fun _ => none)).1.map info.path).Pairwise keyLt
    ∧ ∀ E, E ∈ (tree.walk (some r) root (fun _ => none)).1 ↔
        (E ∈ deliter r ∧ E.Ignored = false ∧
          (E.path = root ∨ ((root ++ [sep]).isPrefixOf E.path = true ∧
            ∃ fi ∈ deliter r, fi.path = root ∧ fi.isDir = true ∧
              fi.Ignored = false))) := by
  rw [walk_some_eq]
  rcases hget : tree.get (some r) root with _ | fi
  · -- root absent
    refine ⟨by simp, fun E => ?_⟩
    simp only [List.mem_nil_iff, false_iff]
    rintro ⟨hmem, -, hcase⟩
    rcases hcase with hpath | ⟨-, fi, hfim, hfip, -⟩
    · rw [(get_char hwf).2 ⟨hmem, hpath⟩] at hget
      exact absurd hget (by simp)
    · rw [(get_char hwf).2 ⟨hfim, hfip⟩] at hget
      exact absurd hget (by simp)
  · simp only []
    have hfimem := ((get_char hwf).1 hget).1
    have hfipath := ((get_char hwf).1 hget).2
    have huniq : ∀ E, E ∈ deliter r → E.path = root → E = fi := fun E hm hp =>
      eq_of_mem_same_path (deliter_pairwise hwf) hm hfimem (by rw [hp, hfipath])
    rcases hign : fi.Ignored with _ | _
    swap
    · -- root entry ignored
      rw [if_pos rfl]
      refine ⟨by simp, fun E => ?_⟩
      simp only [List.mem_nil_iff, false_iff]
      rintro ⟨hmem, hnign, hcase⟩
      rcases hcase with hpath | ⟨-, fi2, hfi2m, hfi2p, -, hnign2⟩
      · rw [huniq E hmem hpath] at hnign
        rw [hnign] at hign
        exact absurd hign (by simp)
      · rw [huniq fi2 hfi2m hfi2p] at hnign2
        rw [hnign2] at hign
        exact absurd hign (by simp)
    · rw [if_neg (by simp)]
      rcases hdir : fi.isDir with _ | _
      · -- root entry is not a directory
        rw [if_pos (by simp)]
        refine ⟨by simp, fun E => ?_⟩
        simp only [List.mem_singleton]
        constructor
        · rintro rfl
          exact ⟨hfimem, hign, Or.inl hfipath⟩
        · rintro ⟨hmem, -, hcase⟩
          rcases hcase with hpath | ⟨-, fi2, hfi2m, hfi2p, hdir2, -⟩
          · exact huniq E hmem hpath
          · rw [huniq fi2 hfi2m hfi2p] at hdir2
            rw [hdir2] at hdir
            exact absurd hdir (by simp)
      · rw [if_neg (by simp)]
        have hvrp : validPath (root ++ [sep]) := validPath_append_sep hvr
        by_cases hpref : (root ++ [sep]).isPrefixOf
            (bestLeaf r (root ++ [sep])).path = true
        · -- the subtree below root is walked
          have hlen : ¬((bestLeaf r (root ++ [sep])).path.length
              < (root ++ [sep]).length) := by
            rw [List.isPrefixOf_iff_prefix] at hpref
            have := hpref.length_le
            omega
          rw [if_neg hlen, if_neg (by simp [hpref]), walkiter_none,
            walkTop_exact hwf hvk hvrp hpref]
          simp only []
          constructor
          · rw [List.map_cons]
            refine List.pairwise_cons.2 ⟨?_, ?_⟩
            · intro b hb
              obtain ⟨E, hE, rfl⟩ := List.mem_map.1 hb
              have hE1 : E ∈ (deliter r).filter
                  (fun i => (root ++ [sep]).isPrefixOf i.path) :=
                List.mem_of_mem_filter hE
              have hpr : (root ++ [sep]).isPrefixOf E.path = true := by
                simpa using List.of_mem_filter hE1
              rw [List.isPrefixOf_iff_prefix] at hpr
              obtain ⟨t, ht⟩ := hpr
              rw [hfipath, ← ht, List.append_assoc, List.singleton_append]
              exact keyLt_dir_sub root t
            · apply List.pairwise_map.2
              exact (List.Pairwise.filter _ (List.Pairwise.filter _
                (deliter_pairwise hwf)))
          · intro E
            rw [List.mem_cons]
            constructor
            · rintro (rfl | hE)
              · exact ⟨hfimem, hign, Or.inl hfipath⟩
              · have hE1 : E ∈ (deliter r).filter
                    (fun i => (root ++ [sep]).isPrefixOf i.path) :=
                  List.mem_of_mem_filter hE
                have hnign : E.Ignored = false := by
                  simpa using List.of_mem_filter hE
                have hpr : (root ++ [sep]).isPrefixOf E.path = true := by
                  simpa using List.of_mem_filter hE1
                exact ⟨List.mem_of_mem_filter hE1, hnign,
                  Or.inr ⟨hpr, fi, hfimem, hfipath, hdir, hign⟩⟩
            · rintro ⟨hmem, hnign, hcase⟩
              rcases hcase with hpath | ⟨hpr, -⟩
              · exact Or.inl (huniq E hmem hpath)
              · refine Or.inr (List.mem_filter.2 ⟨List.mem_filter.2
                  ⟨hmem, hpr⟩, by simp [hnign]⟩)
        · -- no key carries the prefix: only the root entry is visited
          have hnone := walk_no_prefix hwf hvk hvrp hpref
          have hpreff : (root ++ [sep]).isPrefixOf
              (bestLeaf r (root ++ [sep])).path = false := by
            rcases h2 : (root ++ [sep]).isPrefixOf
                (bestLeaf r (root ++ [sep])).path with _ | _
            · rfl
            · exact absurd h2 hpref
          have hiff : ∀ E, E ∈ [fi] ↔
              (E ∈ deliter r ∧ E.Ignored = false ∧
                (E.path = root ∨ ((root ++ [sep]).isPrefixOf E.path = true ∧
                  ∃ fi2 ∈ deliter r, fi2.path = root ∧ fi2.isDir = true ∧
                    fi2.Ignored = false))) := by
            intro E
            simp only [List.mem_singleton]
            constructor
            · rintro rfl
              exact ⟨hfimem, hign, Or.inl hfipath⟩
            · rintro ⟨hmem, -, hcase⟩
              rcases hcase with hpath | ⟨hpr, -⟩
              · exact huniq E hmem hpath
              · exact absurd hpr (hnone E.path (mem_keys_of_deliter hmem))
          by_cases hlen2 : (bestLeaf r (root ++ [sep])).path.length
              < (root ++ [sep]).length
          · rw [if_pos hlen2]
            exact ⟨by simp, hiff⟩
          · rw [if_neg hlen2, if_pos (by simp [hpreff])]
            exact ⟨by simp, hiff⟩

/-! ## Trees built by insertion, and claims C1 and C5 -/

/-- A path index populated by a sequence of `tree.insert` calls, as the
watcher does. -/
def insertAll (l : List info) : tree :=
  l.foldl (fun t i => (tree.insert t i).1) none

theorem insert_wfT {t : tree} (h : wfT t) {nfo : info}
    (hv : validPath nfo.path) : wfT (tree.insert t nfo).1 := by
  match t with
  | none =>
    refine ⟨wf.leaf nfo, ?_⟩
    intro q hq
    rw [keys_leaf, List.mem_singleton] at hq
    rw [hq]
    exact hv
  | some r =>
    obtain ⟨hwf, hvk⟩ := h
    rcases hget : tree.get (some r) nfo.path with _ | E
    · obtain ⟨r2, heq, hw2, hv2, -⟩ := insert_new hwf hvk hv hget
      rw [heq]
      exact ⟨hw2, hv2⟩
    · rw [insert_dup _ hget]
      exact ⟨hwf, hvk⟩

theorem foldl_insert_wfT : ∀ (l : List info) (t : tree), wfT t →
    (∀ i ∈ l, validPath i.path) →
    wfT (l.foldl (fun t i => (tree.insert t i).1) t) := by
  intro l
  induction l with
  | nil => intro t h _; exact h
  | cons x xs ih =>
    intro t h hv
    rw [List.foldl_cons]
    exact ih _ (insert_wfT h (hv x (by simp))) (fun i hi => hv i (by simp [hi]))

theorem insertAll_wfT (l : List info) (h : ∀ i ∈ l, validPath i.path) :
    wfT (insertAll l) := foldl_insert_wfT l none trivial h

/-- **C1** (functional correctness, confirmed): on a path index built by
insertion from valid paths (no NUL or 0x01 bytes), `walk` visits, for any
root, exactly the non-ignored entries of the subtree — the root entry plus,
when the root entry is a directory, every entry with prefix `root + sep` —
and the visited path sequence is strictly increasing in `keyLt`, the
byte-wise order on separator-remapped paths.  `keyLt` is the depth-first
filesystem-walk order: a directory precedes everything below it
(`keyLt p (p ++ sep :: q)`), and after a common prefix the separator
compares below every byte that can follow it in a name, so `foo/bar`
precedes `foo.ext` (`keyLt (p ++ sep :: q) (p ++ c :: s)` for any name byte
`c`). -/
theorem C1_walk_depth_first_order :
    (∀ (l : List info) (root : List Nat),
      (∀ i ∈ l, validPath i.path) → validPath root →
      ((tree.walk (insertAll l) root (fun _ => none)).1.map info.path).Pairwise keyLt
      ∧ (∀ E, E ∈ (tree.walk (insertAll l) root (fun _ => none)).1 ↔
          (E ∈ leavesT (insertAll l) ∧ E.Ignored = false ∧
            (E.path = root ∨ ((root ++ [sep]).isPrefixOf E.path = true ∧
              ∃ fi ∈ leavesT (insertAll l), fi.path = root ∧ fi.isDir = true ∧
                fi.Ignored = false)))))
    ∧ (∀ p q : List Nat, keyLt p (p ++ sep :: q))
    ∧ (∀ p q s : List Nat, ∀ c, 2 ≤ c → c ≠ sep →
        keyLt (p ++ sep :: q) (p ++ c :: s)) := by
  refine ⟨?_, keyLt_dir_sub, keyLt_sep_byte⟩
  intro l root hvl hvr
  rcases ht : insertAll l with _ | r
  · constructor
    · show ((tree.walk none root (fun _ => none)).1.map info.path).Pairwise keyLt
      simp [tree.walk]
    · intro E
      show E ∈ (tree.walk none root (fun _ => none)).1 ↔ _
      simp [tree.walk, leavesT]
  · have hwfT := insertAll_wfT l hvl
    rw [ht] at hwfT
    obtain ⟨hwf, hvk⟩ := hwfT
    exact walk_none_spec hwf hvk hvr

/-- **C5** (functional correctness, confirmed): on a well-formed index,
`insert e` returns the entry previously stored at exactly `e.path` (leaving
the tree unchanged, so a lookup still finds it), and otherwise inserts `e`
and returns null, after which `get e.path` finds `e` and every other path
reads exactly as before. -/
theorem C5_insert_spec (t : tree) (e : info) (hwf : wfT t)
    (hv : validPath e.path) :
    (∀ E, tree.get t e.path = some E → tree.insert t e = (t, some E))
    ∧ (tree.get t e.path = none →
        ∃ t2, tree.insert t e = (t2, none) ∧
          tree.get t2 e.path = some e ∧
          ∀ q, q ≠ e.path → tree.get t2 q = tree.get t q) := by
  constructor
  · intro E hget
    exact insert_dup e hget
  · intro hget
    match t with
    | none =>
      refine ⟨some (.leaf e), rfl, ?_, ?_⟩
      · rw [get_some_eq]
        have hble : bestLeaf (.leaf e) e.path = e := rfl
        rw [hble, if_pos rfl]
      · intro q hq
        rw [get_some_eq]
        have hble : bestLeaf (.leaf e) q = e := rfl
        rw [hble, if_neg hq]
        rfl
    | some r =>
      obtain ⟨hwfr, hvk⟩ := hwf
      obtain ⟨r2, heq, hw2, hv2, pre, post, hd1, hd2⟩ :=
        insert_new hwfr hvk hv hget
      refine ⟨some r2, heq, ?_, ?_⟩
      · refine (get_char hw2).2 ⟨?_, rfl⟩
        rw [hd2]
        exact List.mem_append_right _ (by simp)
      · intro q hq
        rcases hgq : tree.get (some r) q with _ | E
        · rcases hq2 : tree.get (some r2) q with _ | E2
          · rfl
          · exfalso
            obtain ⟨hm2, hp2⟩ := (get_char hw2).1 hq2
            rw [hd2] at hm2
            rcases List.mem_append.1 hm2 with hm2 | hm2
            · have hmem : E2 ∈ deliter r := by
                rw [hd1]
                exact List.mem_append_left _ hm2
              rw [(get_char hwfr).2 ⟨hmem, hp2⟩] at hgq
              exact absurd hgq (by simp)
            · rcases List.mem_cons.1 hm2 with hm2 | hm2
              · rw [hm2] at hp2
                exact hq hp2.symm
              · have hmem : E2 ∈ deliter r := by
                  rw [hd1]
                  exact List.mem_append_right _ hm2
                rw [(get_char hwfr).2 ⟨hmem, hp2⟩] at hgq
                exact absurd hgq (by simp)
        · obtain ⟨hmE, hpE⟩ := (get_char hwfr).1 hgq
          refine (get_char hw2).2 ⟨?_, hpE⟩
          rw [hd1] at hmE
          rw [hd2]
          rcases List.mem_append.1 hmE with hmE | hmE
          · exact List.mem_append_left _ hmE
          · exact List.mem_append_right _ (by simp [hmE])


theorem C1_walk_depth_first_order_witness :
    ((tree.walk (insertAll [⟨[47, 97], true, 0, 0, none⟩,
        ⟨[47, 97, 47, 98], false, 0, 0, none⟩,
        ⟨[47, 98], false, 0, 0, none⟩]) [47, 97]
        (fun _ => none)).1.map info.path).Pairwise keyLt
    ∧ keyLt [47, 97] ([47, 97] ++ sep :: [98])
    ∧ keyLt ([47, 97] ++ sep :: [98]) ([47, 97] ++ 46 :: [99]) :=
  ⟨(C1_walk_depth_first_order.1 _ _ (by decide) (by decide)).1,
    C1_walk_depth_first_order.2.1 _ _,
    C1_walk_depth_first_order.2.2 _ _ [99] 46 (by decide) (by decide)⟩

theorem C5_insert_spec_witness :
    tree.insert (insertAll [⟨[47, 97], true, 0, 0, none⟩])
        ⟨[47, 97], true, 0, 2, none⟩
      = (insertAll [⟨[47, 97], true, 0, 0, none⟩],
          some ⟨[47, 97], true, 0, 0, none⟩) :=
  (C5_insert_spec _ _ (insertAll_wfT _ (by decide)) (by decide)).1 _ (by decide)

/-- **C3** (code bug, failing input): on the index holding the directories
`/a`, `/a/b` and `/b`, `deleteAll "/a"` passes exactly `/a` and `/a/b` to the
handler (the correct subtree) but then sets the tree root to nil, so the
unrelated entry `/b` — whose path neither equals `/a` nor starts with `/a/`
— vanishes from the index without ever being visited.  The second unlink of
`deleteAll` confuses "no node with `off < len(root)` was seen" (Go
`wp == nil`) with "the subtree cell is the tree root". -/
theorem C3_deleteAll_failing_input :
    tree.get (insertAll [⟨[47, 97], true, 0, 0, none⟩,
        ⟨[47, 97, 47, 98], true, 0, 0, none⟩,
        ⟨[47, 98], true, 0, 0, none⟩]) [47, 98]
      = some ⟨[47, 98], true, 0, 0, none⟩
    ∧ (tree.deleteAll (insertAll [⟨[47, 97], true, 0, 0, none⟩,
        ⟨[47, 97, 47, 98], true, 0, 0, none⟩,
        ⟨[47, 98], true, 0, 0, none⟩]) [47, 97]).2.map info.path
      = [[47, 97], [47, 97, 47, 98]]
    ∧ (tree.deleteAll (insertAll [⟨[47, 97], true, 0, 0, none⟩,
        ⟨[47, 97, 47, 98], true, 0, 0, none⟩,
        ⟨[47, 98], true, 0, 0, none⟩]) [47, 97]).1 = none := by decide

/-- **C6** (counterexample): a visitor that returns `SkipDir` on the
non-directory entry `/r/a` does not continue like an always-continue
visitor: the traversal aborts (the sibling `/r/b` is never visited) and
`walk` returns `SkipDir` as its error. -/
theorem C6_skipdir_counterexample :
    (tree.walk (insertAll [⟨[47, 114], true, 0, 0, none⟩,
        ⟨[47, 114, 47, 97], false, 0, 0, none⟩,
        ⟨[47, 114, 47, 98], false, 0, 0, none⟩]) [47, 114]
        (fun i => if i.path = [47, 114, 47, 97] then some .skipDir else none)).1.map
        info.path = [[47, 114], [47, 114, 47, 97]]
    ∧ (tree.walk (insertAll [⟨[47, 114], true, 0, 0, none⟩,
        ⟨[47, 114, 47, 97], false, 0, 0, none⟩,
        ⟨[47, 114, 47, 98], false, 0, 0, none⟩]) [47, 114]
        (fun i => if i.path = [47, 114, 47, 97] then some .skipDir else none)).2
      = .errw .skipDir
    ∧ (tree.walk (insertAll [⟨[47, 114], true, 0, 0, none⟩,
        ⟨[47, 114, 47, 97], false, 0, 0, none⟩,
        ⟨[47, 114, 47, 98], false, 0, 0, none⟩]) [47, 114]
        (fun _ => none)).1.map info.path
      = [[47, 114], [47, 114, 47, 97], [47, 114, 47, 98]] := by decide

theorem walkiter_leaf (f : info → Option goerr) (nfo : info)
    (skips : List (List Nat)) :
    walkiter f (.leaf nfo) skips =
      (if skips.any fun s => skipMatch s nfo.path then ([], .ok)
       else if nfo.Ignored then ([], .ok)
       else match f nfo with
         | none => ([nfo], .ok)
         | some .skipDir =>
           if nfo.isDir then ([nfo], .skipw (nfo.path ++ [sep]))
           else ([nfo], .errw .skipDir)
         | some e => ([nfo], .errw e)) := rfl

theorem walkiter_node (f : info → Option goerr) (c0 c1 : ref) (off bit : Nat)
    (skips : List (List Nat)) :
    walkiter f (.node c0 c1 off bit) skips =
      (match walkiter f c0 skips with
       | (v0, .ok) =>
         match walkiter f c1 skips with
         | (v1, .ok) => (v0 ++ v1, .ok)
         | (v1, .skipw _) => (v0 ++ v1, .ok)
         | (v1, .errw e) => (v0 ++ v1, .errw e)
       | (v0, .skipw s) =>
         match walkiter f c1 (skips ++ [s]) with
         | (v1, .ok) => (v0 ++ v1, .ok)
         | (v1, .skipw _) => (v0 ++ v1, .ok)
         | (v1, .errw e) => (v0 ++ v1, .errw e)
       | (v0, .errw e) => (v0, .errw e)) := rfl

/-- **C6** (amended): a `SkipDir` returned on a non-directory entry is not
harmless — it aborts the traversal.  For a visitor that only ever answers
continue or `SkipDir`-on-a-non-directory, `walkiter` either completes with
every visited entry answered continue, or stops at the first entry that
answered `SkipDir` (a non-directory, the last entry visited) and propagates
`SkipDir` as an error to the caller, pruning everything after it. -/
theorem C6_skipdir_aborts (r : ref) (f : info → Option goerr)
    (skips : List (List Nat))
    (hf : ∀ i, f i = none ∨ (f i = some .skipDir ∧ i.isDir = false)) :
    ((walkiter f r skips).2 = .ok ∧ ∀ i ∈ (walkiter f r skips).1, f i = none)
    ∨ ((walkiter f r skips).2 = .errw .skipDir ∧
        ∃ pre x, (walkiter f r skips).1 = pre ++ [x] ∧
          f x = some .skipDir ∧ x.isDir = false ∧ ∀ i ∈ pre, f i = none) := by
  induction r generalizing skips with
  | leaf nfo =>
    rw [walkiter_leaf]
    rcases hsk : skips.any fun s => skipMatch s nfo.path with _ | _
    · rw [if_neg (by simp)]
      rcases hign : nfo.Ignored with _ | _
      · rw [if_neg (by simp)]
        rcases hfn : f nfo with _ | e
        · exact Or.inl ⟨rfl, by
            intro i hi
            rw [List.mem_singleton] at hi
            rw [hi]
            exact hfn⟩
        · rcases hf nfo with h | ⟨h, hdir⟩
          · rw [hfn] at h
            exact absurd h (by simp)
          · rw [hfn] at h
            injection h with h
            subst h
            rw [hdir]
            rw [if_neg (by simp)]
            exact Or.inr ⟨rfl, [], nfo, by simp, hfn, hdir, by simp⟩
      · rw [if_pos rfl]
        exact Or.inl ⟨rfl, by simp⟩
    · rw [if_pos rfl]
      exact Or.inl ⟨rfl, by simp⟩
  | node c0 c1 off bit ih0 ih1 =>
    rw [walkiter_node]
    have H0 := ih0 skips
    rcases h0 : walkiter f c0 skips with ⟨v0, r0⟩
    rw [h0] at H0
    simp only at H0
    rcases H0 with ⟨hr0, hall0⟩ | ⟨hr0, pre, x, hv0, hfx, hxdir, hpre⟩
    · subst hr0
      have H1 := ih1 skips
      rcases h1 : walkiter f c1 skips with ⟨v1, r1⟩
      rw [h1] at H1
      simp only at H1
      rcases H1 with ⟨hr1, hall1⟩ | ⟨hr1, pre, x, hv1, hfx, hxdir, hpre⟩
      · subst hr1
        refine Or.inl ⟨rfl, ?_⟩
        intro i hi
        rcases List.mem_append.1 hi with hi | hi
        · exact hall0 i hi
        · exact hall1 i hi
      · subst hr1
        refine Or.inr ⟨rfl, v0 ++ pre, x, ?_, hfx, hxdir, ?_⟩
        · rw [hv1, List.append_assoc]
        · intro i hi
          rcases List.mem_append.1 hi with hi | hi
          · exact hall0 i hi
          · exact hpre i hi
    · subst hr0
      exact Or.inr ⟨rfl, pre, x, hv0, hfx, hxdir, hpre⟩

theorem C6_skipdir_aborts_witness :
    ((walkiter (fun i => if i.isDir then none else some .skipDir)
        (.node (.leaf ⟨[47, 97], false, 0, 0, none⟩)
          (.leaf ⟨[47, 98], false, 0, 0, none⟩) 1 2) []).2 = .ok ∧
      ∀ j ∈ (walkiter (fun i => if i.isDir then none else some .skipDir)
        (.node (.leaf ⟨[47, 97], false, 0, 0, none⟩)
          (.leaf ⟨[47, 98], false, 0, 0, none⟩) 1 2) []).1,
        (if j.isDir then (none : Option goerr) else some .skipDir) = none)
    ∨ (((walkiter (fun i => if i.isDir then none else some .skipDir)
        (.node (.leaf ⟨[47, 97], false, 0, 0, none⟩)
          (.leaf ⟨[47, 98], false, 0, 0, none⟩) 1 2) []).2
          = .errw .skipDir) ∧
        ∃ (pre : List info) (x : info),
          (walkiter (fun i => if i.isDir then none else some .skipDir)
            (.node (.leaf ⟨[47, 97], false, 0, 0, none⟩)
              (.leaf ⟨[47, 98], false, 0, 0, none⟩) 1 2) []).1 = pre ++ [x] ∧
          (if x.isDir then (none : Option goerr) else some .skipDir)
            = some .skipDir ∧ x.isDir = false ∧
          ∀ j ∈ pre, (if j.isDir then (none : Option goerr) else some .skipDir)
            = none) :=
  C6_skipdir_aborts _ _ _ (fun i => by
    rcases h : i.isDir with _ | _ <;> simp [h])

/-! ## `filepath.Clean` (path/filepath, unix rules)

Every public path-taking operation of `Watcher` first applies
`filepath.Clean`; the function is part of the Go standard library (not of
this repository), translated here from its unix implementation.  The Go
`lazybuf` is an allocation optimization; the write buffer is materialized
as a list, `out.w` is its length. -/

/-- `'.'` -/
def dot : Nat := 46

/-- The backtracking loop of `Clean`'s `..` case
(`for out.w > dotdot && !os.IsPathSeparator(out.index(out.w))`), returning
the final write cursor starting from position `w`. -/
def backW (out : List Nat) (dotdot : Nat) : Nat → Nat
  | 0 => 0
  | w + 1 => if dotdot ≤ w ∧ byteAt out (w + 1) ≠ sep then backW out dotdot w else w + 1

/-- The main loop of `filepath.Clean`.  The fuel argument only bounds the
recursion; every call supplies at least the remaining input's length, so it
never runs out. -/
def cleanLoop (rooted : Bool) : Nat → List Nat → Nat → List Nat → List Nat
  | 0, _, _, out => out
  | _ + 1, [], _, out => out
  | fuel + 1, c :: rest, dotdot, out =>
    if c = sep then
      -- empty path element
      cleanLoop rooted fuel rest dotdot out
    else if c = dot ∧ (rest.head? = none ∨ rest.head? = some sep) then
      -- . element
      cleanLoop rooted fuel rest dotdot out
    else if c = dot ∧ rest.head? = some dot ∧
        (rest.tail.head? = none ∨ rest.tail.head? = some sep) then
      -- .. element: remove to last separator
      if dotdot < out.length then
        cleanLoop rooted fuel rest.tail dotdot
          (out.take (backW out dotdot (out.length - 1)))
      else if rooted = false then
        let out2 := (if out.length ≠ 0 then out ++ [sep] else out) ++ [dot, dot]
        cleanLoop rooted fuel rest.tail out2.length out2
      else
        cleanLoop rooted fuel rest.tail dotdot out
    else
      -- real path element: add a slash if needed, then copy the element
      let out2 := (if (rooted = true ∧ out.length ≠ 1) ∨ (rooted = false ∧ out.length ≠ 0)
          then out ++ [sep] else out) ++ c :: rest.takeWhile (fun b => b ≠ sep)
      cleanLoop rooted fuel (rest.dropWhile (fun b => b ≠ sep)) dotdot out2

/-- `filepath.Clean` (unix): empty input is `.`, a leading separator marks a
rooted path (`r, dotdot = 1, 1` after appending the separator), and an empty
result becomes `.`. -/
def clean (path : List Nat) : List Nat :=
  match path with
  | [] => [dot]
  | c :: rest =>
    if c = sep then
      let out := cleanLoop true rest.length rest 1 [sep]
      if out = [] then [dot] else out
    else
      let out := cleanLoop false path.length path 0 []
      if out = [] then [dot] else out

/-! ### Canonical form of cleaned paths

A cleaned path is `.`, or a separator followed by name components, or some
leading `..` elements followed by name components.  `normSt` mirrors
`cleanLoop` on that abstract state, which makes `clean` idempotent. -/

/-- A name component of a cleaned path: nonempty, separator-free, and not a
`.` or `..` element. -/
def Name (n : List Nat) : Prop :=
  n ≠ [] ∧ sep ∉ n ∧ n ≠ [dot] ∧ n ≠ [dot, dot]

/-- Join components with separators. -/
def joinN : List (List Nat) → List Nat
  | [] => []
  | [n] => n
  | n :: ns => n ++ sep :: joinN ns

/-- `k` leading `..` elements. -/
def ddots (k : Nat) : List (List Nat) := List.replicate k [dot, dot]

/-- The buffer contents of an abstract cleaning state. -/
def render (rooted : Bool) (k : Nat) (ms : List (List Nat)) : List Nat :=
  if rooted then sep :: joinN ms else joinN (ddots k ++ ms)

/-- The `dotdot` cursor of an abstract cleaning state. -/
def ddVal (rooted : Bool) (k : Nat) : Nat :=
  if rooted then 1 else (joinN (ddots k)).length

/-- Abstract mirror of `cleanLoop`: `k` counts leading `..` elements, `ms`
lists the name components written so far. -/
def normSt (rooted : Bool) : Nat → List Nat → Nat → List (List Nat) →
    Nat × List (List Nat)
  | 0, _, k, ms => (k, ms)
  | _ + 1, [], k, ms => (k, ms)
  | fuel + 1, c :: rest, k, ms =>
    if c = sep then normSt rooted fuel rest k ms
    else if c = dot ∧ (rest.head? = none ∨ rest.head? = some sep) then
      normSt rooted fuel rest k ms
    else if c = dot ∧ rest.head? = some dot ∧
        (rest.tail.head? = none ∨ rest.tail.head? = some sep) then
      if ms ≠ [] then normSt rooted fuel rest.tail k ms.dropLast
      else if rooted = false then normSt rooted fuel rest.tail (k + 1) ms
      else normSt rooted fuel rest.tail k ms
    else
      normSt rooted fuel (rest.dropWhile (fun b => b ≠ sep)) k
        (ms ++ [c :: rest.takeWhile (fun b => b ≠ sep)])

theorem joinN_nil : joinN [] = [] := rfl

theorem joinN_single (n : List Nat) : joinN [n] = n := rfl

theorem joinN_cons₂ (a b : List Nat) (l : List (List Nat)) :
    joinN (a :: b :: l) = a ++ sep :: joinN (b :: l) := rfl

theorem joinN_append : ∀ (xs : List (List Nat)), xs ≠ [] →
    ∀ ys, ys ≠ [] → joinN (xs ++ ys) = joinN xs ++ sep :: joinN ys := by
  intro xs
  induction xs with
  | nil => intro h; exact absurd rfl h
  | cons x xs ih =>
    intro _ ys hys
    match xs with
    | [] =>
      match ys with
      | y :: ys' => rw [List.singleton_append, joinN_cons₂, joinN_single]
    | x2 :: xs' =>
      have h1 : joinN ((x :: x2 :: xs') ++ ys)
          = x ++ sep :: joinN ((x2 :: xs') ++ ys) := by
        show joinN (x :: x2 :: (xs' ++ ys)) = x ++ sep :: joinN (x2 :: (xs' ++ ys))
        rw [joinN_cons₂]
      rw [h1, ih (by simp) ys hys, joinN_cons₂, List.append_assoc]
      simp

theorem joinN_append_singleton (xs : List (List Nat)) (hxs : xs ≠ [])
    (n : List Nat) : joinN (xs ++ [n]) = joinN xs ++ sep :: n := by
  rw [joinN_append xs hxs [n] (by simp), joinN_single]

theorem joinN_eq_nil_iff (ms : List (List Nat)) (h : ∀ n ∈ ms, n ≠ []) :
    joinN ms = [] ↔ ms = [] := by
  match ms with
  | [] => simp [joinN_nil]
  | [n] =>
    rw [joinN_single]
    simp only [List.cons_ne_nil, iff_false]
    exact h n (by simp)
  | a :: b :: l =>
    rw [joinN_cons₂]
    simp only [List.cons_ne_nil, iff_false, List.append_eq_nil]
    rintro ⟨-, h2⟩
    exact absurd h2 (by simp)

theorem backW_stop_dd (out : List Nat) (dd : Nat) :
    ∀ w, dd ≤ w → (∀ j, dd < j → j ≤ w → byteAt out j ≠ sep) →
      backW out dd w = dd := by
  intro w
  induction w with
  | zero => intro h _; unfold backW; omega
  | succ w ih =>
    intro hle hns
    unfold backW
    by_cases hw : dd ≤ w
    · rw [if_pos ⟨hw, hns (w + 1) (by omega) (by omega)⟩]
      exact ih hw (fun j h1 h2 => hns j h1 (by omega))
    · rw [if_neg (by tauto)]
      omega

theorem backW_stop_sep (out : List Nat) (dd m : Nat) (hsep : byteAt out m = sep)
    (hdd : dd ≤ m) :
    ∀ w, m ≤ w → (∀ j, m < j → j ≤ w → byteAt out j ≠ sep) →
      backW out dd w = m := by
  intro w
  induction w with
  | zero => intro h _; unfold backW; omega
  | succ w ih =>
    intro hle hns
    by_cases hm : m = w + 1
    · subst hm
      unfold backW
      rw [if_neg (by simp [hsep])]
    · have hmw : m ≤ w := by omega
      unfold backW
      rw [if_pos ⟨by omega, hns (w + 1) (by omega) (by omega)⟩]
      exact ih hmw (fun j h1 h2 => hns j h1 (by omega))

theorem byteAt_in {n : List Nat} (hn : sep ∉ n) (i : Nat) : byteAt n i ≠ sep := by
  intro hc
  rcases getD_mem_or_zero n i with h | h
  · rw [show n.getD i 0 = byteAt n i from rfl, hc] at h
    exact hn h
  · rw [show n.getD i 0 = byteAt n i from rfl, hc] at h
    unfold sep at h
    omega

theorem byteAt_append_sep_cons (X n : List Nat) :
    byteAt (X ++ sep :: n) X.length = sep := by
  show (X ++ sep :: n).getD X.length 0 = sep
  rw [List.getD_append_right _ _ _ _ (le_refl _), Nat.sub_self]
  rfl

theorem byteAt_append_sep_cons_past (X n : List Nat) {j : Nat}
    (hj : X.length < j) (hn : sep ∉ n) : byteAt (X ++ sep :: n) j ≠ sep := by
  show (X ++ sep :: n).getD j 0 ≠ sep
  rw [List.getD_append_right _ _ _ _ (by omega : X.length ≤ j)]
  have h2 : j - X.length = (j - X.length - 1) + 1 := by omega
  rw [h2]
  show byteAt n (j - X.length - 1) ≠ sep
  exact byteAt_in hn _

/-- The `..` backtrack on a buffer `X ++ sep :: n` with a separator-free last
element truncates to `X`. -/
theorem take_backW_sep (X n : List Nat) (hn : sep ∉ n) (dd : Nat)
    (hdd : dd ≤ X.length) :
    (X ++ sep :: n).take
        (backW (X ++ sep :: n) dd ((X ++ sep :: n).length - 1)) = X := by
  have hlen : (X ++ sep :: n).length = X.length + 1 + n.length := by
    simp
    omega
  have harg : (X ++ sep :: n).length - 1 = X.length + n.length := by
    rw [hlen]
    omega
  have hb : backW (X ++ sep :: n) dd ((X ++ sep :: n).length - 1) = X.length := by
    rw [harg]
    refine backW_stop_sep _ dd X.length (byteAt_append_sep_cons X n) hdd _
      (by omega) ?_
    intro j h1 h2
    exact byteAt_append_sep_cons_past X n h1 hn
  rw [hb]
  exact List.take_left X (sep :: n)

/-- The `..` backtrack on an unrooted single-name buffer empties it. -/
theorem take_backW_dd (n : List Nat) (hn : sep ∉ n) :
    n.take (backW n 0 (n.length - 1)) = [] := by
  have hb : backW n 0 (n.length - 1) = 0 := by
    refine backW_stop_dd n 0 _ (by omega) ?_
    intro j h1 h2
    exact byteAt_in hn j
  rw [hb, List.take_zero]

/-- The `..` backtrack on a rooted single-name buffer truncates to the
separator. -/
theorem take_backW_root_single (n : List Nat) (hn : sep ∉ n) (hne : n ≠ []) :
    (sep :: n).take (backW (sep :: n) 1 ((sep :: n).length - 1)) = [sep] := by
  have hb : backW (sep :: n) 1 ((sep :: n).length - 1) = 1 := by
    show backW (sep :: n) 1 n.length = 1
    refine backW_stop_dd _ 1 _ ?_ ?_
    · have : n.length ≠ 0 := fun hc => hne (List.eq_nil_of_length_eq_zero hc)
      omega
    · intro j h1 h2
      show (sep :: n).getD j 0 ≠ sep
      have hj : j = (j - 1) + 1 := by omega
      rw [hj]
      show byteAt n (j - 1) ≠ sep
      exact byteAt_in hn _
  rw [hb]
  rfl

theorem cleanLoop_cons (rooted : Bool) (fuel : Nat) (c : Nat) (rest : List Nat)
    (dd : Nat) (out : List Nat) :
    cleanLoop rooted (fuel + 1) (c :: rest) dd out =
      (if c = sep then cleanLoop rooted fuel rest dd out
       else if c = dot ∧ (rest.head? = none ∨ rest.head? = some sep) then
         cleanLoop rooted fuel rest dd out
       else if c = dot ∧ rest.head? = some dot ∧
           (rest.tail.head? = none ∨ rest.tail.head? = some sep) then
         (if dd < out.length then
            cleanLoop rooted fuel rest.tail dd
              (out.take (backW out dd (out.length - 1)))
          else if rooted = false then
            cleanLoop rooted fuel rest.tail
              (((if out.length ≠ 0 then out ++ [sep] else out) ++ [dot, dot]).length)
              ((if out.length ≠ 0 then out ++ [sep] else out) ++ [dot, dot])
          else cleanLoop rooted fuel rest.tail dd out)
       else
         cleanLoop rooted fuel (rest.dropWhile (fun b => b ≠ sep)) dd
           ((if (rooted = true ∧ out.length ≠ 1) ∨ (rooted = false ∧ out.length ≠ 0)
             then out ++ [sep] else out) ++ c :: rest.takeWhile (fun b => b ≠ sep))) := rfl

theorem normSt_cons (rooted : Bool) (fuel : Nat) (c : Nat) (rest : List Nat)
    (k : Nat) (ms : List (List Nat)) :
    normSt rooted (fuel + 1) (c :: rest) k ms =
      (if c = sep then normSt rooted fuel rest k ms
       else if c = dot ∧ (rest.head? = none ∨ rest.head? = some sep) then
         normSt rooted fuel rest k ms
       else if c = dot ∧ rest.head? = some dot ∧
           (rest.tail.head? = none ∨ rest.tail.head? = some sep) then
         (if ms ≠ [] then normSt rooted fuel rest.tail k ms.dropLast
          else if rooted = false then normSt rooted fuel rest.tail (k + 1) ms
          else normSt rooted fuel rest.tail k ms)
       else
         normSt rooted fuel (rest.dropWhile (fun b => b ≠ sep)) k
           (ms ++ [c :: rest.takeWhile (fun b => b ≠ sep)])) := rfl

theorem render_true (k : Nat) (ms : List (List Nat)) :
    render true k ms = sep :: joinN ms := rfl

theorem render_false (k : Nat) (ms : List (List Nat)) :
    render false k ms = joinN (ddots k ++ ms) := rfl

theorem ddVal_true (k : Nat) : ddVal true k = 1 := rfl

theorem ddVal_false (k : Nat) : ddVal false k = (joinN (ddots k)).length := rfl

theorem ddots_ne_nil {k : Nat} (hk : k ≠ 0) : ddots k ≠ [] := by
  unfold ddots
  intro hc
  have hlen := congrArg List.length hc
  rw [List.length_replicate] at hlen
  simp at hlen
  exact hk hlen

theorem ddots_mem {n : List Nat} {k : Nat} (h : n ∈ ddots k) : n = [dot, dot] :=
  List.eq_of_mem_replicate h

theorem joinN_ddots_ne_nil {k : Nat} (hk : k ≠ 0) : joinN (ddots k) ≠ [] := by
  intro hc
  rw [joinN_eq_nil_iff _ (fun n hn => by rw [ddots_mem hn]; simp)] at hc
  exact ddots_ne_nil hk hc

theorem ddots_append_names_ne {k : Nat} {ms : List (List Nat)}
    (hms : ∀ m ∈ ms, Name m) : ∀ n ∈ ddots k ++ ms, n ≠ [] := by
  intro n hn
  rcases List.mem_append.1 hn with hn | hn
  · rw [ddots_mem hn]; simp
  · exact (hms n hn).1

/-- The `..` case's branch condition on the buffer matches the abstract
condition: backtracking is possible exactly when a name has been written. -/
theorem render_dd_lt (rooted : Bool) (k : Nat) (ms : List (List Nat))
    (hms : ∀ m ∈ ms, Name m) :
    (ddVal rooted k < (render rooted k ms).length) ↔ ms ≠ [] := by
  rcases rooted with _ | _
  · rw [ddVal_false, render_false]
    constructor
    · intro h hc
      rw [hc, List.append_nil] at h
      omega
    · intro hne
      rcases hk : k with _ | k2
      · have h0 : ddots 0 = ([] : List (List Nat)) := rfl
        rw [h0, List.nil_append]
        have hj : joinN ms ≠ [] :=
          fun hc => hne ((joinN_eq_nil_iff ms (fun n hn => (hms n hn).1)).1 hc)
        show (joinN []).length < (joinN ms).length
        rw [joinN_nil]
        simp only [List.length_nil]
        exact List.length_pos.2 hj
      · rw [joinN_append _ (ddots_ne_nil (by omega)) ms
          (by intro hc; exact hne hc)]
        simp
  · rw [ddVal_true, render_true]
    simp only [List.length_cons]
    constructor
    · intro h hc
      rw [hc] at h
      simp [joinN_nil] at h
    · intro hne
      have hj : joinN ms ≠ [] :=
        fun hc => hne ((joinN_eq_nil_iff ms (fun n hn => (hms n hn).1)).1 hc)
      have := List.length_pos.2 hj
      omega

/-- The real-element case appends a separator exactly when the buffer is not
in its initial state, producing the render of the extended name list. -/
theorem render_push (rooted : Bool) (k : Nat) (ms : List (List Nat))
    (hms : ∀ m ∈ ms, Name m) (nm : List Nat) :
    (if (rooted = true ∧ (render rooted k ms).length ≠ 1) ∨
        (rooted = false ∧ (render rooted k ms).length ≠ 0)
      then render rooted k ms ++ [sep] else render rooted k ms) ++ nm
      = render rooted k (ms ++ [nm]) := by
  rcases rooted with _ | _
  · by_cases hz : ddots k ++ ms = []
    · obtain ⟨hk, hm⟩ := List.append_eq_nil.1 hz
      have h0 : k = 0 := by
        by_contra hc
        exact ddots_ne_nil hc hk
      subst h0
      subst hm
      rw [if_neg ?hneg]
      case hneg =>
        rintro (⟨h, -⟩ | ⟨-, h⟩)
        · exact absurd h (by simp)
        · exact h rfl
      rfl
    · have hlen : (render false k ms).length ≠ 0 := by
        intro hc
        have hc2 : render false k ms = [] := List.eq_nil_of_length_eq_zero hc
        rw [render_false] at hc2
        exact hz ((joinN_eq_nil_iff _ (ddots_append_names_ne hms)).1 hc2)
      rw [if_pos (Or.inr ⟨rfl, hlen⟩), render_false, render_false,
        ← List.append_assoc (ddots k) ms [nm],
        joinN_append_singleton (ddots k ++ ms) hz nm, List.append_assoc]
      rfl
  · by_cases hm : ms = []
    · subst hm
      rw [if_neg ?hneg2]
      case hneg2 =>
        rintro (⟨-, h⟩ | ⟨h, -⟩)
        · exact h rfl
        · exact absurd h (by simp)
      rfl
    · have hlen : (render true k ms).length ≠ 1 := by
        rw [render_true]
        simp only [List.length_cons]
        intro hc
        have h0 : joinN ms = [] :=
          List.eq_nil_of_length_eq_zero (by omega)
        exact hm ((joinN_eq_nil_iff ms (fun n hn => (hms n hn).1)).1 h0)
      rw [if_pos (Or.inl ⟨rfl, hlen⟩), render_true, render_true,
        joinN_append_singleton ms hm nm]
      simp

/-- The `..` backtrack truncates the buffer to the render of the name list
without its last element. -/
theorem take_backW_render (rooted : Bool) (k : Nat) (ms' : List (List Nat))
    (n : List Nat) (hms : ∀ m ∈ ms' ++ [n], Name m) :
    (render rooted k (ms' ++ [n])).take
      (backW (render rooted k (ms' ++ [n])) (ddVal rooted k)
        ((render rooted k (ms' ++ [n])).length - 1)) = render rooted k ms' := by
  have hn : Name n := hms n (by simp)
  rcases rooted with _ | _
  · -- unrooted
    rw [render_false, ddVal_false]
    by_cases hz : ddots k ++ ms' = []
    · obtain ⟨hk, hm⟩ := List.append_eq_nil.1 hz
      have h0 : k = 0 := by
        by_contra hc
        exact ddots_ne_nil hc hk
      subst h0
      subst hm
      show (joinN [n]).take (backW (joinN [n]) (joinN (ddots 0)).length
        ((joinN [n]).length - 1)) = render false 0 []
      rw [joinN_single, show (joinN (ddots 0)).length = 0 from rfl]
      rw [take_backW_dd n hn.2.1]
      rfl
    · have hsplit : joinN (ddots k ++ (ms' ++ [n]))
          = joinN (ddots k ++ ms') ++ sep :: n := by
        rw [← List.append_assoc (ddots k) ms' [n],
          joinN_append_singleton (ddots k ++ ms') hz n]
      have hdd : (joinN (ddots k)).length ≤ (joinN (ddots k ++ ms')).length := by
        by_cases hm : ms' = []
        · rw [hm, List.append_nil]
        · rcases hk : k with _ | k2
          · simp [show ddots 0 = ([] : List (List Nat)) from rfl, joinN_nil]
          · rw [joinN_append _ (ddots_ne_nil (by omega)) ms' hm]
            simp
      rw [hsplit, take_backW_sep _ n hn.2.1 _ hdd]
      rw [render_false]
  · -- rooted
    rw [render_true, ddVal_true]
    by_cases hm : ms' = []
    · subst hm
      show (sep :: joinN [n]).take (backW (sep :: joinN [n]) 1
        ((sep :: joinN [n]).length - 1)) = render true k []
      rw [joinN_single, take_backW_root_single n hn.2.1 hn.1]
      rfl
    · have hsplit : sep :: joinN (ms' ++ [n])
          = (sep :: joinN ms') ++ sep :: n := by
        rw [joinN_append_singleton ms' hm n]
        rfl
      rw [hsplit, take_backW_sep (sep :: joinN ms') n hn.2.1 1 (by simp)]
      rw [render_true]

/-- The component copied by the real-element case of the loop is a proper
name: the guards of the earlier cases exclude `.`, `..`, and separators. -/
theorem name_copied {c : Nat} {rest : List Nat}
    (h1 : ¬c = sep)
    (h2 : ¬(c = dot ∧ (rest.head? = none ∨ rest.head? = some sep)))
    (h3 : ¬(c = dot ∧ rest.head? = some dot ∧
        (rest.tail.head? = none ∨ rest.tail.head? = some sep))) :
    Name (c :: rest.takeWhile (fun b => b ≠ sep)) := by
  refine ⟨by simp, ?_, ?_, ?_⟩
  · intro hc
    rcases List.mem_cons.1 hc with hc | hc
    · exact h1 hc.symm
    · have := List.mem_takeWhile_imp hc
      simp at this
  · intro hc
    rw [List.cons_eq_cons] at hc
    obtain ⟨hcd, ht⟩ := hc
    rcases hrest : rest with _ | ⟨r, rs⟩
    · exact h2 ⟨hcd, Or.inl (by rw [hrest]; rfl)⟩
    · rw [hrest, List.takeWhile_cons] at ht
      split at ht
      · exact absurd ht (by simp)
      · rename_i hr
        simp only [decide_not, Bool.not_eq_true', decide_eq_false_iff_not,
          Decidable.not_not] at hr
        exact h2 ⟨hcd, Or.inr (by rw [hrest, hr]; rfl)⟩
  · intro hc
    rw [List.cons_eq_cons] at hc
    obtain ⟨hcd, ht⟩ := hc
    rcases hrest : rest with _ | ⟨r, rs⟩
    · rw [hrest] at ht
      exact absurd ht (by simp)
    · rw [hrest, List.takeWhile_cons] at ht
      split at ht
      · rw [List.cons_eq_cons] at ht
        obtain ⟨hrd, ht2⟩ := ht
        rcases hrs : rs with _ | ⟨r2, rs2⟩
        · refine h3 ⟨hcd, by rw [hrest, hrd]; rfl, Or.inl (by rw [hrest, hrs]; rfl)⟩
        · rw [hrs, List.takeWhile_cons] at ht2
          split at ht2
          · exact absurd ht2 (by simp)
          · rename_i hr2
            simp only [decide_not, Bool.not_eq_true', decide_eq_false_iff_not,
              Decidable.not_not] at hr2
            refine h3 ⟨hcd, by rw [hrest, hrd]; rfl,
              Or.inr (by rw [hrest, hrs, hr2]; rfl)⟩
      · exact absurd ht (by simp)

/-- `cleanLoop` tracks `normSt`: started on the buffer and cursor of an
abstract state, it ends on the buffer of the final abstract state. -/
theorem cleanLoop_norm (rooted : Bool) : ∀ (fuel : Nat) (rem : List Nat)
    (k : Nat) (ms : List (List Nat)), (∀ n ∈ ms, Name n) →
    cleanLoop rooted fuel rem (ddVal rooted k) (render rooted k ms) =
      render rooted (normSt rooted fuel rem k ms).1
        (normSt rooted fuel rem k ms).2 := by
  intro fuel
  induction fuel with
  | zero => intro rem k ms _; rfl
  | succ fuel ih =>
    intro rem k ms hms
    match rem with
    | [] => rfl
    | c :: rest =>
      rw [cleanLoop_cons, normSt_cons]
      by_cases h1 : c = sep
      · rw [if_pos h1, if_pos h1]
        exact ih rest k ms hms
      rw [if_neg h1, if_neg h1]
      by_cases h2 : c = dot ∧ (rest.head? = none ∨ rest.head? = some sep)
      · rw [if_pos h2, if_pos h2]
        exact ih rest k ms hms
      rw [if_neg h2, if_neg h2]
      by_cases h3 : c = dot ∧ rest.head? = some dot ∧
          (rest.tail.head? = none ∨ rest.tail.head? = some sep)
      · rw [if_pos h3, if_pos h3]
        by_cases hm : ms = []
        · have hnlt : ¬ ddVal rooted k < (render rooted k ms).length :=
            fun hlt => ((render_dd_lt rooted k ms hms).1 hlt) hm
          rw [if_neg hnlt, if_neg (show ¬(ms ≠ []) from fun hne => hne hm)]
          rcases rooted with _ | _
          · rw [if_pos rfl, if_pos rfl]
            subst hm
            have hout : (if (render false k ([] : List (List Nat))).length ≠ 0
                then render false k [] ++ [sep] else render false k [])
                ++ [dot, dot] = render false (k + 1) [] := by
              rcases hk : k with _ | k2
              · rw [if_neg (by intro hlen; exact hlen rfl)]
                rfl
              · rw [if_pos ?hpos]
                case hpos =>
                  rw [render_false, List.append_nil]
                  intro hlen
                  exact joinN_ddots_ne_nil (k := k2 + 1) (by omega)
                    (List.eq_nil_of_length_eq_zero hlen)
                rw [render_false, render_false, List.append_nil, List.append_nil,
                  show ddots (k2 + 1 + 1) = ddots (k2 + 1) ++ [[dot, dot]] from
                    List.replicate_succ' _ _,
                  joinN_append_singleton _ (ddots_ne_nil (by omega)) _,
                  List.append_assoc]
                rfl
            have hddv : ((if (render false k ([] : List (List Nat))).length ≠ 0
                then render false k [] ++ [sep] else render false k [])
                ++ [dot, dot]).length = ddVal false (k + 1) := by
              rw [hout, ddVal_false, render_false, List.append_nil]
            rw [hddv, hout]
            exact ih rest.tail (k + 1) [] (by simp)
          · rw [if_neg (by simp), if_neg (by simp)]
            exact ih rest.tail k ms hms
        · have hlt : ddVal rooted k < (render rooted k ms).length :=
            (render_dd_lt rooted k ms hms).2 hm
          rw [if_pos hlt, if_pos hm]
          obtain ⟨ms', n, rfl⟩ : ∃ ms' n, ms = ms' ++ [n] := by
            rcases List.eq_nil_or_concat ms with h | ⟨L, b, h⟩
            · exact absurd h hm
            · exact ⟨L, b, by rw [h, List.concat_eq_append]⟩
          rw [take_backW_render rooted k ms' n hms,
            List.dropLast_concat]
          exact ih rest.tail k ms' (fun m hmem => hms m (by simp [hmem]))
      rw [if_neg h3, if_neg h3]
      rw [render_push rooted k ms hms (c :: rest.takeWhile (fun b => b ≠ sep))]
      refine ih _ k _ (fun m hmem => ?_)
      rcases List.mem_append.1 hmem with hmem | hmem
      · exact hms m hmem
      · rw [List.mem_singleton] at hmem
        rw [hmem]
        exact name_copied h1 h2 h3

/-- `normSt` only ever appends proper names. -/
theorem normSt_names (rooted : Bool) : ∀ (fuel : Nat) (rem : List Nat)
    (k : Nat) (ms : List (List Nat)), (∀ n ∈ ms, Name n) →
    ∀ m ∈ (normSt rooted fuel rem k ms).2, Name m := by
  intro fuel
  induction fuel with
  | zero => intro rem k ms hms; exact hms
  | succ fuel ih =>
    intro rem k ms hms
    match rem with
    | [] => exact hms
    | c :: rest =>
      rw [normSt_cons]
      by_cases h1 : c = sep
      · rw [if_pos h1]; exact ih rest k ms hms
      rw [if_neg h1]
      by_cases h2 : c = dot ∧ (rest.head? = none ∨ rest.head? = some sep)
      · rw [if_pos h2]; exact ih rest k ms hms
      rw [if_neg h2]
      by_cases h3 : c = dot ∧ rest.head? = some dot ∧
          (rest.tail.head? = none ∨ rest.tail.head? = some sep)
      · rw [if_pos h3]
        by_cases hm : ms = []
        · rw [if_neg (show ¬(ms ≠ []) from fun hne => hne hm)]
          by_cases hro : rooted = false
          · rw [if_pos hro]; exact ih rest.tail (k + 1) ms hms
          · rw [if_neg hro]; exact ih rest.tail k ms hms
        · rw [if_pos hm]
          exact ih rest.tail k ms.dropLast
            (fun m hmem => hms m ((List.dropLast_prefix ms).subset hmem))
      rw [if_neg h3]
      refine ih _ k _ (fun m hmem => ?_)
      rcases List.mem_append.1 hmem with hmem | hmem
      · exact hms m hmem
      · rw [List.mem_singleton] at hmem
        rw [hmem]
        exact name_copied h1 h2 h3

theorem takeWhile_drop_append (nr : List Nat) (hnr : sep ∉ nr) :
    ∀ X, (X = [] ∨ X.head? = some sep) →
      (nr ++ X).takeWhile (fun b => b ≠ sep) = nr ∧
      (nr ++ X).dropWhile (fun b => b ≠ sep) = X := by
  induction nr with
  | nil =>
    intro X hX
    rcases hX with rfl | hX
    · exact ⟨rfl, rfl⟩
    · rcases X with _ | ⟨x, xs⟩
      · exact ⟨rfl, rfl⟩
      · have hx : x = sep := by
          simp only [List.head?_cons, Option.some.injEq] at hX
          exact hX
        subst hx
        constructor
        · show (sep :: xs).takeWhile (fun b => b ≠ sep) = []
          rw [List.takeWhile_cons, if_neg (by simp)]
        · show (sep :: xs).dropWhile (fun b => b ≠ sep) = sep :: xs
          rw [List.dropWhile_cons, if_neg (by simp)]
  | cons r nr ih =>
    intro X hX
    have hr : r ≠ sep := fun hc => hnr (hc ▸ List.mem_cons_self r nr)
    obtain ⟨ht, hd⟩ := ih (fun hc => hnr (List.mem_cons_of_mem r hc)) X hX
    constructor
    · show (r :: (nr ++ X)).takeWhile (fun b => b ≠ sep) = r :: nr
      rw [List.takeWhile_cons, if_pos (by simp [hr]), ht]
    · show (r :: (nr ++ X)).dropWhile (fun b => b ≠ sep) = X
      rw [List.dropWhile_cons, if_pos (by simp [hr]), hd]

/-- On the first character of a stored name component, none of the loop's
special cases fire, and the copy loop consumes exactly the component. -/
theorem name_guards (c : Nat) (nr : List Nat) (hn : Name (c :: nr))
    (X : List Nat) (hX : X = [] ∨ X.head? = some sep) :
    ¬c = sep ∧
    ¬(c = dot ∧ ((nr ++ X).head? = none ∨ (nr ++ X).head? = some sep)) ∧
    ¬(c = dot ∧ (nr ++ X).head? = some dot ∧
      ((nr ++ X).tail.head? = none ∨ (nr ++ X).tail.head? = some sep)) ∧
    (nr ++ X).takeWhile (fun b => b ≠ sep) = nr ∧
    (nr ++ X).dropWhile (fun b => b ≠ sep) = X := by
  obtain ⟨-, hsep, hdot1, hdot2⟩ := hn
  have hcs : ¬c = sep := fun hc => hsep (hc ▸ List.mem_cons_self c nr)
  have hnrs : sep ∉ nr := fun hc => hsep (List.mem_cons_of_mem c hc)
  obtain ⟨ht, hd⟩ := takeWhile_drop_append nr hnrs X hX
  refine ⟨hcs, ?_, ?_, ht, hd⟩
  · rintro ⟨hcd, hcase⟩
    have hnr : nr ≠ [] := by
      intro hc
      rw [hcd, hc] at hdot1
      exact hdot1 rfl
    obtain ⟨r, nr', rfl⟩ := List.exists_cons_of_ne_nil hnr
    have hr : r ≠ sep := fun hc => hnrs (hc ▸ List.mem_cons_self r nr')
    rcases hcase with hcase | hcase
    · exact absurd hcase (by simp)
    · simp only [List.cons_append, List.head?_cons, Option.some.injEq] at hcase
      exact hr hcase
  · rintro ⟨hcd, hhead, hcase⟩
    have hnr : nr ≠ [] := by
      intro hc
      rw [hcd, hc] at hdot1
      exact hdot1 rfl
    obtain ⟨r, nr', rfl⟩ := List.exists_cons_of_ne_nil hnr
    have hrd : r = dot := by
      simp only [List.cons_append, List.head?_cons, Option.some.injEq] at hhead
      exact hhead
    have hnr2 : nr' ≠ [] := by
      intro hc
      rw [hcd, hrd, hc] at hdot2
      exact hdot2 rfl
    obtain ⟨r2, nr'', rfl⟩ := List.exists_cons_of_ne_nil hnr2
    have hr2 : r2 ≠ sep :=
      fun hc => hnrs (hc ▸ List.mem_cons_of_mem r (List.mem_cons_self r2 nr''))
    rcases hcase with hcase | hcase
    · exact absurd hcase (by simp)
    · simp only [List.cons_append, List.tail_cons, List.head?_cons,
        Option.some.injEq] at hcase
      exact hr2 hcase

/-- Running `normSt` on joined names appends exactly those names. -/
theorem normSt_fix_names (rooted : Bool) : ∀ (ns : List (List Nat)),
    (∀ n ∈ ns, Name n) → ∀ (fuel : Nat), (joinN ns).length ≤ fuel →
    ∀ (k : Nat) (ms : List (List Nat)),
    normSt rooted fuel (joinN ns) k ms = (k, ms ++ ns) := by
  intro ns
  induction ns with
  | nil =>
    intro _ fuel _ k ms
    have h : normSt rooted fuel (joinN []) k ms = (k, ms) := by
      match fuel with
      | 0 => rfl
      | fuel + 1 => rfl
    rw [h, List.append_nil]
  | cons n ns ih =>
    intro hns fuel hfuel k ms
    have hn : Name n := hns n (by simp)
    obtain ⟨c, nr, rfl⟩ : ∃ c nr, n = c :: nr := by
      rcases n with _ | ⟨c, nr⟩
      · exact absurd rfl hn.1
      · exact ⟨c, nr, rfl⟩
    rcases hns2 : ns with _ | ⟨m, ns'⟩
    · -- last component
      subst hns2
      rw [joinN_single] at hfuel ⊢
      obtain ⟨f, rfl⟩ : ∃ f, fuel = f + 1 := by
        match fuel with
        | 0 => simp at hfuel
        | f + 1 => exact ⟨f, rfl⟩
      obtain ⟨g1, g2, g3, ht, hd⟩ := name_guards c nr hn [] (Or.inl rfl)
      rw [List.append_nil] at ht hd
      rw [show (c :: nr : List Nat) = c :: (nr ++ []) by rw [List.append_nil],
        normSt_cons]
      rw [List.append_nil]
      rw [if_neg g1, if_neg (by rw [List.append_nil] at g2; exact g2),
        if_neg (by rw [List.append_nil] at g3; exact g3), ht, hd]
      have hfin : normSt rooted f (joinN []) k (ms ++ [c :: nr])
          = (k, ms ++ [c :: nr]) := by
        match f with
        | 0 => rfl
        | f + 1 => rfl
      exact hfin
    · -- more components follow
      subst hns2
      have hjoin : joinN ((c :: nr) :: m :: ns')
          = c :: (nr ++ sep :: joinN (m :: ns')) := by
        rw [joinN_cons₂]
        rfl
      rw [hjoin] at hfuel ⊢
      obtain ⟨f, rfl⟩ : ∃ f, fuel = f + 1 := by
        match fuel with
        | 0 => simp at hfuel
        | f + 1 => exact ⟨f, rfl⟩
      obtain ⟨g1, g2, g3, ht, hd⟩ :=
        name_guards c nr hn (sep :: joinN (m :: ns')) (Or.inr rfl)
      rw [normSt_cons, if_neg g1, if_neg g2, if_neg g3, ht, hd]
      have hlen : (nr ++ sep :: joinN (m :: ns')).length + 1 ≤ f + 1 := by
        simpa using hfuel
      obtain ⟨f2, rfl⟩ : ∃ f2, f = f2 + 1 := by
        match f with
        | 0 => simp at hlen
        | f2 + 1 => exact ⟨f2, rfl⟩
      rw [normSt_cons, if_pos rfl]
      rw [ih (fun x hx => hns x (by simp [hx])) f2
        (by simp at hlen; omega) k (ms ++ [c :: nr])]
      rw [List.append_assoc]
      rfl

/-- Running `normSt` on joined `..` elements and names from an empty state
recovers the element count and names. -/
theorem normSt_fix_ddots : ∀ (k2 : Nat) (ns : List (List Nat)),
    (∀ n ∈ ns, Name n) → ∀ (fuel : Nat),
    (joinN (ddots k2 ++ ns)).length ≤ fuel → ∀ (j : Nat),
    normSt false fuel (joinN (ddots k2 ++ ns)) j [] = (j + k2, ns) := by
  intro k2
  induction k2 with
  | zero =>
    intro ns hns fuel hf j
    rw [show ddots 0 ++ ns = ns from rfl] at hf ⊢
    rw [normSt_fix_names false ns hns fuel hf j []]
    rfl
  | succ k2 ih =>
    intro ns hns fuel hf j
    have hdd : ddots (k2 + 1) ++ ns = [dot, dot] :: (ddots k2 ++ ns) := by
      show List.replicate (k2 + 1) [dot, dot] ++ ns = _
      rw [List.replicate_succ]
      rfl
    by_cases hrest : ddots k2 ++ ns = []
    · obtain ⟨hk, hn⟩ := List.append_eq_nil.1 hrest
      have hk0 : k2 = 0 := by
        by_contra hc
        exact ddots_ne_nil hc hk
      subst hk0
      subst hn
      rw [show joinN (ddots (0 + 1) ++ []) = [dot, dot] from rfl] at hf ⊢
      obtain ⟨f, rfl⟩ : ∃ f, fuel = f + 1 := by
        match fuel with
        | 0 => simp at hf
        | f + 1 => exact ⟨f, rfl⟩
      rw [normSt_cons]
      rw [if_neg (by unfold sep dot; omega),
        if_neg (by
          rintro ⟨-, h | h⟩ <;> simp at h
          unfold sep dot at h
          omega),
        if_pos ⟨rfl, rfl, Or.inl rfl⟩,
        if_neg (show ¬(([] : List (List Nat)) ≠ []) from fun h => h rfl),
        if_pos rfl]
      have hfin : normSt false f (([dot, dot] : List Nat).tail.tail) (j + 1) []
          = (j + 1, []) := by
        match f with
        | 0 => rfl
        | f + 1 => rfl
      show normSt false f [] (j + 1) [] = (j + (0 + 1), [])
      match f with
      | 0 => rfl
      | f + 1 => rfl
    · obtain ⟨m, rest', hrest'⟩ := List.exists_cons_of_ne_nil hrest
      have hjoin : joinN (ddots (k2 + 1) ++ ns)
          = dot :: dot :: sep :: joinN (ddots k2 ++ ns) := by
        rw [hdd, hrest', joinN_cons₂, ← hrest']
        rfl
      rw [hjoin] at hf ⊢
      obtain ⟨f, rfl⟩ : ∃ f, fuel = f + 1 := by
        match fuel with
        | 0 => simp at hf
        | f + 1 => exact ⟨f, rfl⟩
      rw [normSt_cons]
      rw [if_neg (by unfold sep dot; omega),
        if_neg (by
          rintro ⟨-, h | h⟩ <;> simp at h
          unfold sep dot at h
          omega),
        if_pos ⟨rfl, rfl, Or.inr rfl⟩,
        if_neg (show ¬(([] : List (List Nat)) ≠ []) from fun h => h rfl),
        if_pos rfl]
      show normSt false f (sep :: joinN (ddots k2 ++ ns)) (j + 1) []
          = (j + (k2 + 1), ns)
      obtain ⟨f2, rfl⟩ : ∃ f2, f = f2 + 1 := by
        match f with
        | 0 => simp at hf
        | f2 + 1 => exact ⟨f2, rfl⟩
      rw [normSt_cons, if_pos rfl]
      rw [ih ns hns f2 (by simp at hf; omega) (j + 1)]
      have : j + 1 + k2 = j + (k2 + 1) := by omega
      rw [this]

theorem clean_cons (c : Nat) (rest : List Nat) :
    clean (c :: rest) =
      (if c = sep then
        (if cleanLoop true rest.length rest 1 [sep] = [] then [dot]
         else cleanLoop true rest.length rest 1 [sep])
       else
        (if cleanLoop false (c :: rest).length (c :: rest) 0 [] = [] then [dot]
         else cleanLoop false (c :: rest).length (c :: rest) 0 [])) := rfl

theorem cleanLoop_norm_init_true (fuel : Nat) (rem : List Nat) :
    cleanLoop true fuel rem 1 [sep] =
      render true (normSt true fuel rem 0 []).1 (normSt true fuel rem 0 []).2 :=
  cleanLoop_norm true fuel rem 0 [] (by simp)

theorem cleanLoop_norm_init_false (fuel : Nat) (rem : List Nat) :
    cleanLoop false fuel rem 0 [] =
      render false (normSt false fuel rem 0 []).1 (normSt false fuel rem 0 []).2 :=
  cleanLoop_norm false fuel rem 0 [] (by simp)

/-- Every output of `clean` is `.`, or rooted names, or `..` elements
followed by names. -/
theorem clean_canonical (p : List Nat) :
    clean p = [dot] ∨
    (∃ ns, (∀ n ∈ ns, Name n) ∧ clean p = sep :: joinN ns) ∨
    (∃ k ns, (∀ n ∈ ns, Name n) ∧ k + ns.length ≠ 0 ∧
      clean p = joinN (ddots k ++ ns)) := by
  match p with
  | [] => exact Or.inl rfl
  | c :: rest =>
    rw [clean_cons]
    by_cases h1 : c = sep
    · rw [if_pos h1, cleanLoop_norm_init_true]
      have hnames := normSt_names true rest.length rest 0 [] (by simp)
      rw [render_true, if_neg (by simp)]
      exact Or.inr (Or.inl ⟨(normSt true rest.length rest 0 []).2, hnames, rfl⟩)
    · rw [if_neg h1, cleanLoop_norm_init_false]
      have hnames := normSt_names false (c :: rest).length (c :: rest) 0 []
        (by simp)
      rw [render_false]
      by_cases hz : joinN (ddots (normSt false (c :: rest).length (c :: rest) 0 []).1
          ++ (normSt false (c :: rest).length (c :: rest) 0 []).2) = []
      · rw [if_pos hz]
        exact Or.inl rfl
      · rw [if_neg hz]
        refine Or.inr (Or.inr ⟨_, _, hnames, ?_, rfl⟩)
        intro hc
        apply hz
        have hk : (normSt false (c :: rest).length (c :: rest) 0 []).1 = 0 := by
          omega
        have hns : (normSt false (c :: rest).length (c :: rest) 0 []).2 = [] :=
          List.eq_nil_of_length_eq_zero (by omega)
        rw [hk, hns]
        rfl

theorem clean_dot : clean [dot] = [dot] := by decide

theorem clean_fix_rooted (ns : List (List Nat)) (hns : ∀ n ∈ ns, Name n) :
    clean (sep :: joinN ns) = sep :: joinN ns := by
  rw [clean_cons, if_pos rfl, cleanLoop_norm_init_true,
    normSt_fix_names true ns hns (joinN ns).length (le_refl _) 0 []]
  simp only [render_true, List.nil_append]
  rw [if_neg (by simp)]

theorem joinN_head (c : Nat) (nr : List Nat) (tail : List (List Nat)) :
    (joinN ((c :: nr) :: tail)).head? = some c := by
  rcases tail with _ | ⟨m, tail'⟩
  · rfl
  · rfl

theorem clean_fix_rel (k : Nat) (ns : List (List Nat))
    (hns : ∀ n ∈ ns, Name n) (hnz : k + ns.length ≠ 0) :
    clean (joinN (ddots k ++ ns)) = joinN (ddots k ++ ns) := by
  have hne : joinN (ddots k ++ ns) ≠ [] := by
    intro hc
    rw [joinN_eq_nil_iff _ (ddots_append_names_ne hns)] at hc
    obtain ⟨h1, h2⟩ := List.append_eq_nil.1 hc
    have hk0 : k = 0 := by
      by_contra hco
      exact ddots_ne_nil hco h1
    rw [hk0, h2] at hnz
    exact hnz rfl
  obtain ⟨c, rest, hp⟩ := List.exists_cons_of_ne_nil hne
  have hhead : (joinN (ddots k ++ ns)).head? = some c := by
    rw [hp]
    rfl
  have hcs : ¬c = sep := by
    rcases hk : k with _ | k2
    · have hns2 : ns ≠ [] := by
        intro hc
        rw [hk, hc] at hnz
        exact hnz rfl
      obtain ⟨n, ns', rfl⟩ := List.exists_cons_of_ne_nil hns2
      have hn := hns n (by simp)
      obtain ⟨cn, nr, rfl⟩ : ∃ cn nr, n = cn :: nr := by
        rcases n with _ | ⟨cn, nr⟩
        · exact absurd rfl hn.1
        · exact ⟨cn, nr, rfl⟩
      rw [hk, show ddots 0 ++ (cn :: nr) :: ns' = (cn :: nr) :: ns' from rfl,
        joinN_head] at hhead
      injection hhead with hhead
      rw [← hhead]
      exact fun hcc => hn.2.1 (hcc ▸ List.mem_cons_self cn nr)
    · rw [hk, show ddots (k2 + 1) ++ ns = [dot, dot] :: (ddots k2 ++ ns) by
        show List.replicate (k2 + 1) [dot, dot] ++ ns = _
        rw [List.replicate_succ]
        rfl, joinN_head] at hhead
      injection hhead with hhead
      rw [← hhead]
      unfold dot sep
      omega
  rw [hp, clean_cons, if_neg hcs, ← hp, cleanLoop_norm_init_false,
    normSt_fix_ddots k ns hns _ (le_refl _) 0]
  simp only [render_false, Nat.zero_add]
  rw [if_neg hne]

/-- `filepath.Clean` is idempotent. -/
theorem clean_idem (p : List Nat) : clean (clean p) = clean p := by
  rcases clean_canonical p with h | ⟨ns, hns, h⟩ | ⟨k, ns, hns, hnz, h⟩
  · rw [h, clean_dot]
  · rw [h, clean_fix_rooted ns hns]
  · rw [h, clean_fix_rel k ns hns hnz]

/-! ## The watcher layer

The watcher of part_005 (inotify) / tree.go (kqueue): a kernel descriptor
(`fd = -1` once closed), the path index, and the descriptor → entry map
`fdmap`.  Kernel watch descriptors are modeled by a fresh-descriptor
counter; syscalls always succeed.  The filesystem seen by `os.Lstat` and
`filepath.Walk` is a finite map from paths to stat results.  Go writes
through `*info` pointers shared with the tree become tree updates at the
entry's path (`updRef` follows the same descent as `tree.get`). -/

/-- An `os.FileInfo` stat result: the directory bit plus opaque metadata
(mode/mtime/size). -/
structure fsEntry where
  isDir : Bool
  meta : Nat
  deriving DecidableEq, Repr

/-- `os.Lstat` against the filesystem model. -/
def fsFind (fs : List (List Nat × fsEntry)) (p : List Nat) : Option fsEntry :=
  (fs.find? (fun e => decide (e.1 = p))).map (fun e => e.2)

/-- Write through the `*info` pointer found by the best-member descent:
rebuild the spine with `g` applied to the reached leaf. -/
def updRef (path : List Nat) (g : info → info) : ref → ref
  | .leaf i => .leaf (g i)
  | .node c0 c1 off bit =>
    if dirOf path off bit then .node c0 (updRef path g c1) off bit
    else .node (updRef path g c0) c1 off bit

def tree.updL (t : tree) (path : List Nat) (g : info → info) : tree :=
  match t with
  | none => none
  | some r => some (updRef path g r)

/-- `newInfo` (info.go): fresh entry with zero flags and no watch. -/
def newInfo (path : List Nat) (fi : fsEntry) : info :=
  ⟨path, fi.isDir, fi.meta, 0, none⟩

/-- `watchFilter` (part_005, inotify): only directories get kernel
watches. -/
def watchFilter (i : info) : Bool := i.isDir

/-- Watcher state: open flag (`fd != -1`), path index, `fdmap`, and the
kernel's next free watch descriptor. -/
structure WState where
  fdOpen : Bool
  t : tree
  fdmap : List (Nat × List Nat)
  nextFd : Nat
  deriving DecidableEq

/-- Byte-wise comparison of names, as `sort.Strings` orders
`readDirNames`. -/
def lexLe : List Nat → List Nat → Bool
  | [], _ => true
  | _ :: _, [] => false
  | a :: as, b :: bs => if a < b then true else if b < a then false else lexLe as bs

def insSorted (x : List Nat × fsEntry) :
    List (List Nat × fsEntry) → List (List Nat × fsEntry)
  | [] => [x]
  | y :: ys => if lexLe x.1 y.1 then x :: y :: ys else y :: insSorted x ys

/-- `readDirNames` + per-child `lstat`: the immediate children of `d` in the
filesystem, as sorted (name, stat) pairs. -/
def childEntries (fs : List (List Nat × fsEntry)) (d : List Nat) :
    List (List Nat × fsEntry) :=
  (fs.filterMap (fun e =>
    if (d ++ [sep]).isPrefixOf e.1 then
      let name := e.1.drop (d.length + 1)
      if name ≠ [] ∧ sep ∉ name then some (name, e.2) else none
    else none)).foldr insSorted []

/-- The `filepath.WalkFunc` closure of `loadImpl`, acting on (watcher state,
deferred event list).  The walker never receives a lstat error here (the
children come from the filesystem map), so the `err != nil` arm is dead. -/
def walkerStep (filt : info → Bool) (root : List Nat) (flags event : Nat)
    (st : WState × List info) (path : List Nat) (fi : fsEntry) :
    (WState × List info) × Option goerr :=
  if path = root then (st, none)
  else
    let f := newInfo path fi
    let ignore := !filt f
    let (t1, dup) := st.1.t.insert f
    match dup with
    | some _ => (st, some .skipDir)
    | none =>
      if ignore then
        (({st.1 with
            t := (tree.updL t1 path (fun i => {i with flags := i.flags ||| ignored}))},
          st.2),
          if fi.isDir then some .skipDir else none)
      else
        let s2 := {st.1 with t := t1}
        let (s3, f3) :=
          if watchFilter f then
            ({s2 with
                t := tree.updL t1 path (fun i => {i with watch := some s2.nextFd}),
                fdmap := s2.fdmap ++ [(s2.nextFd, path)],
                nextFd := s2.nextFd + 1},
             {f with watch := some s2.nextFd})
          else (s2, f)
        let lst := if event ≠ 0 then st.2 ++ [f3] else st.2
        ((s3, lst),
          if fi.isDir = true ∧ flags &&& recurse = 0 then some .skipDir else none)

/-- `filepath.Walk`'s recursive `walk` (Go standard library), specialized
to the `loadImpl` walker.  The per-directory loop over children is threaded
through the fold accumulator; an aborted traversal passes through.  The fuel
only bounds recursion depth and is supplied larger than any path length. -/
def fsWalk (fs : List (List Nat × fsEntry)) (filt : info → Bool)
    (root : List Nat) (flags event : Nat) :
    Nat → WState × List info → List Nat → fsEntry →
    (WState × List info) × Option goerr
  | 0, st, _, _ => (st, none)
  | fuel + 1, st, path, fi =>
    match walkerStep filt root flags event st path fi with
    | (st1, some e) =>
      if fi.isDir = true ∧ e = .skipDir then (st1, none) else (st1, some e)
    | (st1, none) =>
      if fi.isDir = false then (st1, none)
      else
        (childEntries fs path).foldl
          (fun acc c =>
            match acc with
            | (st2, some e) => (st2, some e)
            | (st2, none) =>
              match fsWalk fs filt root flags event fuel st2
                  (path ++ sep :: c.1) c.2 with
              | (st3, none) => (st3, none)
              | (st3, some e) =>
                if c.2.isDir = false ∨ e ≠ .skipDir then (st3, some e)
                else (st3, none))
          (st1, none)

def fsFuel (fs : List (List Nat × fsEntry)) : Nat :=
  fs.length + (fs.map (fun e => e.1.length)).sum + 2

/-- `watcher.loadImpl` (part_003).  Kernel watch masks (`rootflags`,
`otherflags`) only parametrize syscalls and are dropped; `w.add` always
succeeds.  Returns the new state, the `Handle` invocations (event code with
the entry passed), and the error. -/
def loadImpl (fs : List (List Nat × fsEntry)) (filt : info → Bool)
    (s : WState) (root : List Nat) (flags event : Nat) :
    WState × List (Nat × info) × Option goerr :=
  match fsFind fs root with
  | none => (s, [], some (.pathError root))
  | some fi =>
    if fi.isDir = false ∧ flags &&& explicit ≠ 0 then (s, [], some .errNotDir)
    else
      let f0 := newInfo root fi
      if !filt f0 then (s, [], none)
      else
        let f := {f0 with flags := f0.flags ||| flags}
        let (t1, dup) := s.t.insert f
        let (s2, fTop) :=
          match dup with
          | some d =>
            ({s with
                t := (tree.updL t1 root
                  (fun i => {i with flags := i.flags ||| f.flags}))},
             {d with flags := d.flags ||| f.flags})
          | none =>
            if watchFilter f then
              ({s with
                  t := (tree.updL t1 root
                    (fun i => {i with watch := some s.nextFd})),
                  fdmap := s.fdmap ++ [(s.nextFd, root)],
                  nextFd := s.nextFd + 1},
               {f with watch := some s.nextFd})
            else ({s with t := t1}, f)
        match fsWalk fs filt root flags event (fsFuel fs) (s2, []) root fi with
        | ((s3, lst), err) =>
          let handled :=
            if event ≠ 0 then
              (match dup with | none => [(event, fTop)] | some _ => []) ++
                lst.map (fun i => (event, i))
            else []
          (s3, handled, err)

/-- `watcher.load` (part_005).  The kernel-mask computation
(`hasParentWatch`, `IN_DELETE_SELF`) does not affect the model state. -/
def load (fs : List (List Nat × fsEntry)) (filt : info → Bool) (s : WState)
    (path : List Nat) (recursive : Bool) :
    WState × List (Nat × info) × Option goerr :=
  if s.fdOpen = false then (s, [], some .errClosed)
  else
    let fiFlags := explicit ||| (if recursive then recurse else 0)
    match loadImpl fs filt s path fiFlags 0 with
    | (s2, h, some .skipDir) => (s2, h, none)
    | (s2, h, e) => (s2, h, e)

/-- `watcher.unload` (kqueue, tree.go).  `w.rm` closes the descriptor and
removes it from `fdmap`; the write `nfo.watch = nil` before `deleteAll` is a
heap update at `path`.  Entries queued for reload keep their watch (the
handler's `else if`) and are re-inserted as-is after the traversal. -/
def unload (s : WState) (path : List Nat) (recursive : Bool) :
    WState × Option goerr :=
  if s.fdOpen = false then (s, some .errClosed)
  else
    match s.t.get path with
    | none => (s, none)
    | some nfo =>
      match nfo.watch with
      | none => (s, none)
      | some fd =>
        let fdm1 := s.fdmap.filter (fun e => decide (e.1 ≠ fd))
        let t1 := tree.updL s.t path (fun i => {i with watch := none})
        match t1.deleteAll path with
        | (t2, vis) =>
          let keepQ : info → Bool := fun n =>
            !recursive && decide (n.flags &&& explicit ≠ 0) &&
              decide (n.path ≠ path)
          let reload := vis.filter keepQ
          let rmfds := (vis.filter (fun n => !keepQ n)).filterMap
            (fun n => n.watch)
          let fdm2 := fdm1.filter (fun e => !(rmfds.contains e.1))
          let t3 := reload.foldl (fun t n => (tree.insert t n).1) t2
          ({s with t := t3, fdmap := fdm2}, none)

/-- `watcher.close` (kqueue, tree.go), sequentialized: `close` removes every
watch and sets `fd = -1` before returning; the signaled closure that closes
the kernel descriptor runs before the next operation. -/
def close (s : WState) : WState × Option goerr :=
  if s.fdOpen = false then (s, some .errClosed)
  else ({s with fdOpen := false, fdmap := []}, none)

/-- `Watcher.Load` (watcher.go): clean the path, then `load`. -/
def Watcher.Load (fs : List (List Nat × fsEntry)) (filt : info → Bool)
    (s : WState) (path : List Nat) (recursive : Bool) :
    WState × List (Nat × info) × Option goerr :=
  load fs filt s (clean path) recursive

/-- `Watcher.Get` (watcher.go): the cached entry at the cleaned path, hiding
filtered-out entries. -/
def Watcher.Get (s : WState) (path : List Nat) : Option info :=
  match s.t.get (clean path) with
  | none => none
  | some fi => if fi.Ignored then none else some fi

/-- `Watcher.Lstat` (watcher.go): `Get`, or an `*os.PathError` carrying the
original (uncleaned) path argument. -/
def Watcher.Lstat (s : WState) (path : List Nat) : Except goerr info :=
  match Watcher.Get s path with
  | some i => .ok i
  | none => .error (.pathError path)

/-- `Watcher.Traverse` (watcher.go): clean the root, then `tree.walk`. -/
def Watcher.Traverse (s : WState) (root : List Nat) (f : info → Option goerr) :
    List info × wres :=
  tree.walk s.t (clean root) f

/-- `Watcher.Unload` (watcher.go): clean the path, then `unload`. -/
def Watcher.Unload (s : WState) (path : List Nat) (recursive : Bool) :
    WState × Option goerr :=
  unload s (clean path) recursive

/-- `Watcher.Close` (watcher.go). -/
def Watcher.Close (s : WState) : WState × Option goerr := close s

/-- `Watcher.Walk` (watcher.go): `Traverse` with a closure that feeds each
visited entry to `walkFn` (with a `nil` incoming error) and records whether
anything was visited; when nothing was (`!found`), `walkFn` is called once
with the ORIGINAL, uncleaned `root` argument and the traversal error, and
its return becomes `Walk`'s result. -/
def Watcher.Walk (s : WState) (root : List Nat)
    (walkFn : List Nat → Option info → wres → Option goerr) : wres :=
  match Watcher.Traverse s root (fun i => walkFn i.path (some i) .ok) with
  | (vis, err) =>
    if vis.isEmpty then
      match walkFn root none err with
      | none => .ok
      | some e => .errw e
    else err

/-! ## Claims about the watcher layer -/

/-- A later watcher call: `Close`, `load`, or `unload`. -/
inductive wop where
  | close
  | load (fs : List (List Nat × fsEntry)) (filt : info → Bool)
      (path : List Nat) (recursive : Bool)
  | unload (path : List Nat) (recursive : Bool)

def wopApply (s : WState) : wop → WState × Option goerr
  | .close => close s
  | .load fs filt p r =>
    (match load fs filt s p r with | (s2, _, e) => (s2, e))
  | .unload p r => unload s p r

def runOps (s : WState) : List wop → WState
  | [] => s
  | op :: ops => runOps (wopApply s op).1 ops

theorem wopApply_closed {s : WState} (h : s.fdOpen = false) (op : wop) :
    (wopApply s op).1 = s ∧ (wopApply s op).2 = some .errClosed := by
  rcases op with _ | ⟨fs, filt, p, r⟩ | ⟨p, r⟩
  · unfold wopApply close
    rw [if_pos h]
    exact ⟨rfl, rfl⟩
  · unfold wopApply
    simp only []
    unfold load
    rw [if_pos h]
    exact ⟨rfl, rfl⟩
  · unfold wopApply
    simp only []
    unfold unload
    rw [if_pos h]
    exact ⟨rfl, rfl⟩

theorem runOps_closed {s : WState} (h : s.fdOpen = false) :
    ∀ l : List wop, runOps s l = s := by
  intro l
  induction l with
  | nil => rfl
  | cons op ops ih =>
    show runOps (wopApply s op).1 ops = s
    rw [(wopApply_closed h op).1, ih]

/-- **C9** (error handling, confirmed): `Close` fails idempotently.  On an
open watcher the first `Close` succeeds and leaves the watcher closed; after
that, any sequence of further `Close`/`load`/`unload` calls leaves the state
untouched and every one of them — in particular every subsequent `Close`,
and every `load` and `unload` for any path and recursive flag — returns
`ErrClosed`. -/
theorem C9_close_idempotent_fail (s : WState) (h : s.fdOpen = true) :
    (close s).2 = none ∧ (close s).1.fdOpen = false ∧
    ∀ (l : List wop) (op : wop),
      (wopApply (runOps (close s).1 l) op).2 = some .errClosed := by
  have hop : s.fdOpen = false → False := by rw [h]; intro hc; cases hc
  have hcl : close s = ({s with fdOpen := false, fdmap := []}, none) := by
    unfold close
    rw [if_neg (by rw [h]; intro hc; cases hc)]
  refine ⟨by rw [hcl], by rw [hcl], ?_⟩
  intro l op
  rw [hcl]
  rw [runOps_closed rfl l]
  exact (wopApply_closed rfl op).2

theorem C9_close_idempotent_fail_witness :
    (close ⟨true, none, [], 0⟩).2 = none ∧
    (wopApply (runOps (close ⟨true, none, [], 0⟩).1
        [.unload [47, 97] false, .close]) (.load [] (fun _ => true) [47] true)).2
      = some .errClosed :=
  ⟨(C9_close_idempotent_fail ⟨true, none, [], 0⟩ rfl).1,
    (C9_close_idempotent_fail ⟨true, none, [], 0⟩ rfl).2.2 _ _⟩

/-- **C10** (amended, corrected): `Load`, `Get`, `Traverse` and `Unload`
lexically clean their path argument first, and `Clean` is idempotent, so for
these four operations the result on `p` equals the result on `Clean(p)` —
spellings like `a//b`, `a/./b`, `a/b/` are interchangeable.  `Lstat` and
`Walk` are the exceptions (see the counterexample): `Lstat`'s not-exist
error carries the original, uncleaned spelling, and `Walk` passes the
original, uncleaned root to `walkFn` when nothing was visited, so their
results differ. -/
theorem C10_public_ops_clean (p : List Nat) :
    clean (clean p) = clean p ∧
    (∀ (fs : List (List Nat × fsEntry)) (filt : info → Bool) (s : WState)
      (r : Bool), Watcher.Load fs filt s p r = Watcher.Load fs filt s (clean p) r) ∧
    (∀ s : WState, Watcher.Get s p = Watcher.Get s (clean p)) ∧
    (∀ (s : WState) (f : info → Option goerr),
      Watcher.Traverse s p f = Watcher.Traverse s (clean p) f) ∧
    (∀ (s : WState) (r : Bool),
      Watcher.Unload s p r = Watcher.Unload s (clean p) r) := by
  refine ⟨clean_idem p, ?_, ?_, ?_, ?_⟩
  · intro fs filt s r
    unfold Watcher.Load
    rw [clean_idem]
  · intro s
    unfold Watcher.Get
    rw [clean_idem]
  · intro s f
    unfold Watcher.Traverse
    rw [clean_idem]
  · intro s r
    unfold Watcher.Unload
    rw [clean_idem]

/-- **C10** (counterexample): `a//b` and `a/b` clean to the same path and
are interchangeable for `Get`, but two of the public path-taking operations
violate the property: `Lstat` builds its not-exist `os.PathError` from the
original argument, and `Walk` passes the original root to `walkFn` when the
root is absent — so `Lstat "a//b"` / `Lstat "a/b"` and `Walk "a//b"` /
`Walk "a/b"` return different results. -/
theorem C10_lstat_walk_counterexample :
    clean [97, 47, 47, 98] = clean [97, 47, 98] ∧
    Watcher.Get ⟨true, none, [], 0⟩ [97, 47, 47, 98]
      = Watcher.Get ⟨true, none, [], 0⟩ [97, 47, 98] ∧
    Watcher.Lstat ⟨true, none, [], 0⟩ [97, 47, 47, 98]
      = .error (.pathError [97, 47, 47, 98]) ∧
    Watcher.Lstat ⟨true, none, [], 0⟩ [97, 47, 98]
      = .error (.pathError [97, 47, 98]) ∧
    Watcher.Lstat ⟨true, none, [], 0⟩ [97, 47, 47, 98]
      ≠ Watcher.Lstat ⟨true, none, [], 0⟩ [97, 47, 98] ∧
    Watcher.Walk ⟨true, none, [], 0⟩ [97, 47, 47, 98]
        (fun p _ _ => some (.pathError p))
      = .errw (.pathError [97, 47, 47, 98]) ∧
    Watcher.Walk ⟨true, none, [], 0⟩ [97, 47, 98]
        (fun p _ _ => some (.pathError p))
      = .errw (.pathError [97, 47, 98]) ∧
    Watcher.Walk ⟨true, none, [], 0⟩ [97, 47, 47, 98]
        (fun p _ _ => some (.pathError p))
      ≠ Watcher.Walk ⟨true, none, [], 0⟩ [97, 47, 98]
        (fun p _ _ => some (.pathError p)) := by
  refine ⟨by decide, by decide, rfl, rfl, ?_, rfl, rfl, ?_⟩
  · intro h
    rw [show Watcher.Lstat ⟨true, none, [], 0⟩ [97, 47, 47, 98]
        = Except.error (goerr.pathError [97, 47, 47, 98]) from rfl,
      show Watcher.Lstat ⟨true, none, [], 0⟩ [97, 47, 98]
        = Except.error (goerr.pathError [97, 47, 98]) from rfl] at h
    injection h with h2
    injection h2 with h3
    simp at h3
  · intro h
    rw [show Watcher.Walk ⟨true, none, [], 0⟩ [97, 47, 47, 98]
          (fun p _ _ => some (.pathError p))
        = wres.errw (goerr.pathError [97, 47, 47, 98]) from rfl,
      show Watcher.Walk ⟨true, none, [], 0⟩ [97, 47, 98]
          (fun p _ _ => some (.pathError p))
        = wres.errw (goerr.pathError [97, 47, 98]) from rfl] at h
    injection h with h2
    injection h2 with h3
    simp at h3

/-- No entry passed to a `walkiter` visitor has the `ignored` flag. -/
theorem walkiter_not_ignored (f : info → Option goerr) :
    ∀ (r : ref) (skips : List (List Nat)) (i : info),
      i ∈ (walkiter f r skips).1 → i.Ignored = false := by
  intro r
  induction r with
  | leaf nfo =>
    intro skips i hi
    rw [walkiter_leaf] at hi
    split at hi
    · simp at hi
    · rcases hign : nfo.Ignored with _ | _
      · rw [if_neg (by rw [hign]; intro hc; cases hc)] at hi
        have hin : i = nfo := by
          rcases hf : f nfo with _ | e
          · rw [hf] at hi; simpa using hi
          · rcases e with _ | _ | _ | _ | _ <;> rw [hf] at hi <;>
              first
                | (simpa using hi)
                | (rcases hd : nfo.isDir with _ | _ <;> rw [hd] at hi <;>
                    simpa using hi)
        rw [hin, hign]
      · rw [if_pos (by rw [hign])] at hi
        simp at hi
  | node c0 c1 off bit ih0 ih1 =>
    intro skips i hi
    rw [walkiter_node] at hi
    rcases h0 : walkiter f c0 skips with ⟨v0, r0⟩
    rw [h0] at hi
    rcases r0 with _ | s0 | e0
    · simp only [] at hi
      rcases h1 : walkiter f c1 skips with ⟨v1, r1⟩
      rw [h1] at hi
      rcases r1 with _ | s1 | e1 <;> simp only [] at hi <;>
        rcases List.mem_append.1 hi with hm | hm
      · exact ih0 skips i (by rw [h0]; exact hm)
      · exact ih1 skips i (by rw [h1]; exact hm)
      · exact ih0 skips i (by rw [h0]; exact hm)
      · exact ih1 skips i (by rw [h1]; exact hm)
      · exact ih0 skips i (by rw [h0]; exact hm)
      · exact ih1 skips i (by rw [h1]; exact hm)
    · simp only [] at hi
      rcases h1 : walkiter f c1 (skips ++ [s0]) with ⟨v1, r1⟩
      rw [h1] at hi
      rcases r1 with _ | s1 | e1 <;> simp only [] at hi <;>
        rcases List.mem_append.1 hi with hm | hm
      · exact ih0 skips i (by rw [h0]; exact hm)
      · exact ih1 (skips ++ [s0]) i (by rw [h1]; exact hm)
      · exact ih0 skips i (by rw [h0]; exact hm)
      · exact ih1 (skips ++ [s0]) i (by rw [h1]; exact hm)
      · exact ih0 skips i (by rw [h0]; exact hm)
      · exact ih1 (skips ++ [s0]) i (by rw [h1]; exact hm)
    · simp only [] at hi
      exact ih0 skips i (by rw [h0]; exact hi)

/-- **C2** (invariants, confirmed): an entry `E` stored with the `IGNORED`
flag is invisible to the read operations — `Get` returns nothing for any
spelling of its path, `Lstat` returns a not-exist `PathError`, no
`walk`/`Traverse` visitor is ever passed `E` (for any root and visitor), and
`walk` fails with the not-exist error at `E`'s own path and at any absent
path — yet `E` still occupies its slot in the index: inserting any entry at
the same path finds `E` and leaves the index unchanged. -/
theorem C2_ignored_invisible (s : WState) (E : info)
    (hget : s.t.get E.path = some E) (hign : E.Ignored = true) :
    (∀ p, clean p = E.path →
      Watcher.Get s p = none ∧ Watcher.Lstat s p = .error (.pathError p)) ∧
    (∀ (root : List Nat) (f : info → Option goerr),
      E ∉ (tree.walk s.t root f).1) ∧
    (∀ f : info → Option goerr,
      tree.walk s.t E.path f = ([], .errw (.pathError E.path))) ∧
    (∀ (root : List Nat) (f : info → Option goerr), s.t.get root = none →
      tree.walk s.t root f = ([], .errw (.pathError root))) ∧
    (∀ g : info, g.path = E.path → tree.insert s.t g = (s.t, some E)) := by
  have hwalkroot : ∀ f : info → Option goerr,
      tree.walk s.t E.path f = ([], .errw (.pathError E.path)) := by
    intro f
    rcases hst : s.t with _ | r
    · rw [hst] at hget
      exact absurd hget (by simp [tree.get])
    · rw [hst] at hget
      rw [walk_some_eq, hget]
      simp only []
      rw [if_pos (by rw [hign])]
  refine ⟨?_, ?_, hwalkroot, ?_, ?_⟩
  · intro p hp
    have hg : Watcher.Get s p = none := by
      unfold Watcher.Get
      rw [hp, hget]
      simp only []
      rw [if_pos (by rw [hign])]
    refine ⟨hg, ?_⟩
    unfold Watcher.Lstat
    rw [hg]
  · intro root f
    rcases hst : s.t with _ | r
    · show E ∉ (tree.walk none root f).1
      simp [tree.walk]
    · show E ∉ (tree.walk (some r) root f).1
      rw [walk_some_eq]
      rcases hg2 : tree.get (some r) root with _ | fi
      · simp
      · simp only []
        rcases hfign : fi.Ignored with _ | _
        · rw [if_neg (by simp)]
          have hEfi : E ≠ fi := by
            intro hc
            rw [hc, hfign] at hign
            cases hign
          rcases hf : f fi with _ | e
          · simp only []
            rcases hfd : fi.isDir with _ | _
            · rw [if_pos (by simp)]
              intro hc
              rw [List.mem_singleton] at hc
              exact hEfi hc
            · rw [if_neg (by simp)]
              by_cases hlen : (bestLeaf r (root ++ [sep])).path.length
                  < (root ++ [sep]).length
              · rw [if_pos hlen]
                intro hc
                rw [List.mem_singleton] at hc
                exact hEfi hc
              · rw [if_neg hlen]
                by_cases hpref : (root ++ [sep]).isPrefixOf
                    (bestLeaf r (root ++ [sep])).path
                · rw [if_neg (by rw [hpref]; intro hc; cases hc)]
                  rcases hwi : walkiter f (walkTopGo (root ++ [sep]) r r) []
                    with ⟨v, res⟩
                  simp only []
                  intro hc
                  rcases List.mem_cons.1 hc with hc | hc
                  · exact hEfi hc
                  · have := walkiter_not_ignored f _ [] E (by rw [hwi]; exact hc)
                    rw [this] at hign
                    cases hign
                · rw [if_pos (by
                    rcases hp2 : (root ++ [sep]).isPrefixOf
                      (bestLeaf r (root ++ [sep])).path with _ | _
                    · rfl
                    · exact absurd hp2 hpref)]
                  intro hc
                  rw [List.mem_singleton] at hc
                  exact hEfi hc
          · simp only []
            intro hc
            rw [List.mem_singleton] at hc
            exact hEfi hc
        · rw [if_pos rfl]
          simp
  · intro root f hnone
    rcases hst : s.t with _ | r
    · rfl
    · rw [hst] at hnone
      rw [walk_some_eq, hnone]
  · intro g hg
    exact insert_dup g (by rw [hg]; exact hget)

theorem C2_ignored_invisible_witness :
    Watcher.Get ⟨true, some (.leaf ⟨[47, 97], true, 0, 1, none⟩), [], 0⟩
        [47, 97, 47] = none ∧
    (⟨[47, 97], true, 0, 1, none⟩ : info) ∉
      (tree.walk (some (.leaf ⟨[47, 97], true, 0, 1, none⟩)) [47, 98]
        (fun _ => none)).1 ∧
    tree.walk (some (.leaf ⟨[47, 97], true, 0, 1, none⟩)) [47, 97]
        (fun _ => none) = ([], .errw (.pathError [47, 97])) ∧
    tree.insert (some (.leaf ⟨[47, 97], true, 0, 1, none⟩))
        ⟨[47, 97], false, 5, 0, none⟩
      = (some (.leaf ⟨[47, 97], true, 0, 1, none⟩),
         some ⟨[47, 97], true, 0, 1, none⟩) := by
  have hC := C2_ignored_invisible
    ⟨true, some (.leaf ⟨[47, 97], true, 0, 1, none⟩), [], 0⟩
    ⟨[47, 97], true, 0, 1, none⟩ (by decide) (by decide)
  exact ⟨(hC.1 [47, 97, 47] (by decide)).1, hC.2.1 [47, 98] _, hC.2.2.1 _,
    hC.2.2.2.2 _ rfl⟩

/-! ## Characterizing `tree.deleteAll`

On a well-formed tree, the first phase of `deleteAll` splices out the leaf
holding `root` exactly.  When the removed entry is a directory with at least
one descendant in the index, the crit-bit invariant forces the final node of
the first descent to be the node splitting at byte `len(root)`, bit `0` —
its 0-child is the `root` leaf and its 1-child holds exactly the descendant
entries.  That subtree contains no node with `off < len(root + sep)`, so the
second descent never sets Go's `wp`, and the `wp == nil` branch sets
`t.root = nil`: the handler sees exactly the subtree, but the whole index is
wiped. -/

/-- Membership in the subtree of `root`: the exact path or any path below
it (the doc comment of `tree.deleteAll` and the walk contract). -/
def subP (root : List Nat) (i : info) : Bool :=
  decide (i.path = root) || (root ++ [sep]).isPrefixOf i.path

theorem topLater_trans {o b o2 b2 : Nat} {c : ref}
    (h12 : o < o2 ∨ (o = o2 ∧ b2 < b)) (h2c : topLater o2 b2 c) :
    topLater o b c := by
  cases c with
  | leaf _ => trivial
  | node c0 c1 o3 b3 =>
    unfold topLater at h2c ⊢
    omega

theorem deliter_ne_nil : ∀ r : ref, deliter r ≠ [] := by
  intro r
  induction r with
  | leaf i => simp [deliter_leaf]
  | node c0 c1 off bit ih0 ih1 =>
    rw [deliter_node]
    intro hc
    exact ih0 (List.append_eq_nil.1 hc).1

theorem keys_ne_nil (r : ref) : keys r ≠ [] := by
  unfold keys
  intro hc
  exact deliter_ne_nil r (List.map_eq_nil_iff.1 hc)

theorem rebuild_mem : ∀ (fs : List frame) (s : ref) (x : info),
    x ∈ deliter s → x ∈ deliter (rebuild fs s) := by
  intro fs
  induction fs with
  | nil => intro s x hx; exact hx
  | cons fr fs ih =>
    intro s x hx
    show x ∈ deliter (if fr.entered then .node fr.c0 (rebuild fs s) fr.off fr.bit
      else .node (rebuild fs s) fr.c1 fr.off fr.bit)
    rcases h : fr.entered with _ | _
    · rw [if_neg (by simp), deliter_node]
      exact List.mem_append_left _ (ih s x hx)
    · rw [if_pos rfl, deliter_node]
      exact List.mem_append_right _ (ih s x hx)

theorem delFrames_node_false (root : List Nat) (c0 c1 : ref) (off bit : Nat)
    (h : dirOf root off bit = false) (fs : List frame) (i : info)
    (hd : delFrames root c0 = (fs, i)) :
    delFrames root (.node c0 c1 off bit)
      = (⟨c0, c1, off, bit, false, false, decide (off < root.length)⟩ :: fs, i) := by
  simp only [delFrames]
  rw [h, hd]
  simp

theorem delFrames_node_true (root : List Nat) (c0 c1 : ref) (off bit : Nat)
    (h : dirOf root off bit = true) (fs : List frame) (i : info)
    (hd : delFrames root c1 = (fs, i)) :
    delFrames root (.node c0 c1 off bit)
      = (⟨c0, c1, off, bit, true, true, decide (off < root.length)⟩ :: fs, i) := by
  simp only [delFrames]
  rw [h, hd]
  simp

theorem delFrames_info (root : List Nat) : ∀ r : ref,
    (delFrames root r).2 = bestLeaf r root := by
  intro r
  induction r with
  | leaf i => rfl
  | node c0 c1 off bit ih0 ih1 =>
    rw [bestLeaf_node]
    rcases h : dirOf root off bit with _ | _
    · rcases hd : delFrames root c0 with ⟨fs, i⟩
      rw [delFrames_node_false root c0 c1 off bit h fs i hd, if_neg (by simp)]
      rw [← ih0, hd]
    · rcases hd : delFrames root c1 with ⟨fs, i⟩
      rw [delFrames_node_true root c0 c1 off bit h fs i hd, if_pos rfl]
      rw [← ih1, hd]

theorem delFrames2_node_eq (root : List Nat) (c0 c1 : ref) (off bit : Nat)
    (dir : Bool) (fs : List frame) (i : info)
    (hd : delFrames2 root (childAt c0 c1 dir)
      (if decide (off < root.length) then dirOf root off bit else dir) = (fs, i)) :
    delFrames2 root (.node c0 c1 off bit) dir
      = (⟨c0, c1, off, bit, dir, dirOf root off bit,
          decide (off < root.length)⟩ :: fs, i) := by
  rcases dir with _ | _
  · rw [show childAt c0 c1 false = c0 from rfl] at hd
    simp only [delFrames2]
    rw [hd]
    simp
  · rw [show childAt c0 c1 true = c1 from rfl] at hd
    simp only [delFrames2]
    rw [hd]
    simp

theorem delFrames2_leaf_mem (root : List Nat) : ∀ (r : ref) (dir : Bool),
    (delFrames2 root r dir).2 ∈ deliter r := by
  intro r
  induction r with
  | leaf i => intro dir; show i ∈ [i]; simp
  | node c0 c1 off bit ih0 ih1 =>
    intro dir
    rcases hd : delFrames2 root (childAt c0 c1 dir)
      (if decide (off < root.length) then dirOf root off bit else dir)
      with ⟨fs, i⟩
    rw [delFrames2_node_eq root c0 c1 off bit dir fs i hd, deliter_node]
    rcases h : dir with _ | _
    · refine List.mem_append_left _ ?_
      have := ih0 (if decide (off < root.length) then dirOf root off bit else false)
      rw [h] at hd
      rw [show childAt c0 c1 false = c0 from rfl] at hd
      rw [hd] at this
      exact this
    · refine List.mem_append_right _ ?_
      have := ih1 (if decide (off < root.length) then dirOf root off bit else true)
      rw [h] at hd
      rw [show childAt c0 c1 true = c1 from rfl] at hd
      rw [hd] at this
      exact this

/-- Every node of the subtree splits at byte offset at least `m`. -/
def allOffGE (m : Nat) : ref → Prop
  | .leaf _ => True
  | .node c0 c1 off _ => m ≤ off ∧ allOffGE m c0 ∧ allOffGE m c1

theorem delFrames2_newtop_false (root : List Nat) : ∀ (r : ref) (dir : Bool),
    allOffGE root.length r →
    ∀ fr ∈ (delFrames2 root r dir).1, fr.newtop = false := by
  intro r
  induction r with
  | leaf i => intro dir _ fr hfr; simp [delFrames2] at hfr
  | node c0 c1 off bit ih0 ih1 =>
    intro dir hge fr hfr
    obtain ⟨hoff, hg0, hg1⟩ := hge
    rcases hd : delFrames2 root (childAt c0 c1 dir)
      (if decide (off < root.length) then dirOf root off bit else dir)
      with ⟨fs, i⟩
    rw [delFrames2_node_eq root c0 c1 off bit dir fs i hd] at hfr
    rcases List.mem_cons.1 hfr with hfr | hfr
    · rw [hfr]
      show decide (off < root.length) = false
      simp
      omega
    · rcases h : dir with _ | _
      · rw [h, show childAt c0 c1 false = c0 from rfl] at hd
        refine ih0 (if decide (off < root.length) then dirOf root off bit else false)
          hg0 fr ?_
        rw [hd]
        exact hfr
      · rw [h, show childAt c0 c1 true = c1 from rfl] at hd
        refine ih1 (if decide (off < root.length) then dirOf root off bit else true)
          hg1 fr ?_
        rw [hd]
        exact hfr

theorem lastNewtop_none : ∀ fs : List frame,
    (∀ fr ∈ fs, fr.newtop = false) → lastNewtop fs = none := by
  intro fs
  induction fs with
  | nil => intro _; rfl
  | cons f fs ih =>
    intro h
    show (match lastNewtop fs with
      | some (pre, fk) => some (f :: pre, fk)
      | none => if f.newtop then some ([], f) else none) = none
    rw [ih (fun fr hfr => h fr (by simp [hfr]))]
    simp only []
    rw [if_neg (by rw [h f (by simp)]; intro hc; cases hc)]

/-! ### Heap updates through `updRef` -/

theorem updRef_deliter (path : List Nat) (g : info → info) : ∀ r : ref,
    ∃ pre post, deliter r = pre ++ bestLeaf r path :: post ∧
      deliter (updRef path g r) = pre ++ g (bestLeaf r path) :: post := by
  intro r
  induction r with
  | leaf i => exact ⟨[], [], rfl, rfl⟩
  | node c0 c1 off bit ih0 ih1 =>
    rcases h : dirOf path off bit with _ | _
    · obtain ⟨pre, post, h1, h2⟩ := ih0
      refine ⟨pre, post ++ deliter c1, ?_, ?_⟩
      · rw [deliter_node, bestLeaf_node, if_neg (by rw [h]; simp), h1]
        simp
      · show deliter (if dirOf path off bit then .node c0 (updRef path g c1) off bit
          else .node (updRef path g c0) c1 off bit) = _
        rw [h, if_neg (by simp), deliter_node, h2, bestLeaf_node,
          if_neg (by rw [h]; simp)]
        simp
    · obtain ⟨pre, post, h1, h2⟩ := ih1
      refine ⟨deliter c0 ++ pre, post, ?_, ?_⟩
      · rw [deliter_node, bestLeaf_node, if_pos (by rw [h]), h1]
        simp
      · show deliter (if dirOf path off bit then .node c0 (updRef path g c1) off bit
          else .node (updRef path g c0) c1 off bit) = _
        rw [h, if_pos rfl, deliter_node, h2, bestLeaf_node, if_pos (by rw [h])]
        simp

theorem updRef_keys {g : info → info} (hg : ∀ i, (g i).path = i.path)
    (path : List Nat) (r : ref) : keys (updRef path g r) = keys r := by
  obtain ⟨pre, post, h1, h2⟩ := updRef_deliter path g r
  unfold keys
  rw [h1, h2]
  simp [hg]

theorem updRef_topLater (path : List Nat) (g : info → info) {o b : Nat}
    {r : ref} (h : topLater o b r) : topLater o b (updRef path g r) := by
  cases r with
  | leaf i => trivial
  | node c0 c1 off bit =>
    show topLater o b (if dirOf path off bit
      then .node c0 (updRef path g c1) off bit
      else .node (updRef path g c0) c1 off bit)
    rcases hd : dirOf path off bit with _ | _
    · rw [if_neg (by simp)]; exact h
    · rw [if_pos rfl]; exact h

theorem updRef_wf {g : info → info} (hg : ∀ i, (g i).path = i.path)
    (path : List Nat) {r : ref} (hw : wf r) : wf (updRef path g r) := by
  induction hw with
  | leaf i => exact wf.leaf (g i)
  | node c0 c1 off i h0 h1 hi hb0 hb1 hag ht0 ht1 ih0 ih1 =>
    show wf (if dirOf path off (2 ^ i)
      then .node c0 (updRef path g c1) off (2 ^ i)
      else .node (updRef path g c0) c1 off (2 ^ i))
    rcases hd : dirOf path off (2 ^ i) with _ | _
    · rw [if_neg (by simp)]
      refine wf.node _ _ _ _ ih0 h1 hi ?_ hb1 ?_ (updRef_topLater path g ht0) ht1
      · rw [updRef_keys hg]; exact hb0
      · rw [updRef_keys hg]; exact hag
    · rw [if_pos rfl]
      refine wf.node _ _ _ _ h0 ih1 hi hb0 ?_ ?_ ht0 (updRef_topLater path g ht1)
      · rw [updRef_keys hg]; exact hb1
      · rw [updRef_keys hg]; exact hag

/-- `tree.get` on a well-formed root misses `q` exactly when no entry has
path `q`. -/
theorem get_none_char {r : ref} (hwf : wf r) {q : List Nat} :
    tree.get (some r) q = none ↔ ∀ E ∈ deliter r, E.path ≠ q := by
  constructor
  · intro h E hE hp
    rw [(get_char hwf).2 ⟨hE, hp⟩] at h
    cases h
  · intro h
    rcases hg : tree.get (some r) q with _ | E
    · rfl
    · obtain ⟨hE, hp⟩ := (get_char hwf).1 hg
      exact absurd hp (h E hE)

/-! ### Insertion only adds entries -/

theorem insertIter_mem (k : List Nat) (co bit : Nat) (ndir : Bool)
    (nfo : info) : ∀ r : ref, ∀ x ∈ deliter r,
    x ∈ deliter (insertIter k co bit ndir nfo r) := by
  intro r
  induction r with
  | leaf i =>
    intro x hx
    show x ∈ deliter (if ndir then .node (.leaf nfo) (.leaf i) co bit
      else .node (.leaf i) (.leaf nfo) co bit)
    rcases ndir with _ | _ <;> simp_all [deliter]
  | node c0 c1 noff nbit ih0 ih1 =>
    intro x hx
    show x ∈ deliter (if noff > co ∨ (noff = co ∧ nbit < bit) then
        (if ndir then .node (.leaf nfo) (.node c0 c1 noff nbit) co bit
          else .node (.node c0 c1 noff nbit) (.leaf nfo) co bit)
      else if dirOf k noff nbit then
        .node c0 (insertIter k co bit ndir nfo c1) noff nbit
      else
        .node (insertIter k co bit ndir nfo c0) c1 noff nbit)
    by_cases h1 : noff > co ∨ (noff = co ∧ nbit < bit)
    · rw [if_pos h1]
      rcases ndir with _ | _ <;> simp_all [deliter] <;> tauto
    · rw [if_neg h1]
      rcases h2 : dirOf k noff nbit with _ | _
      · rw [if_neg (by simp)]
        rw [deliter_node] at hx ⊢
        rcases List.mem_append.1 hx with hx | hx
        · exact List.mem_append_left _ (ih0 x hx)
        · exact List.mem_append_right _ hx
      · rw [if_pos rfl]
        rw [deliter_node] at hx ⊢
        rcases List.mem_append.1 hx with hx | hx
        · exact List.mem_append_left _ hx
        · exact List.mem_append_right _ (ih1 x hx)

theorem insert_leaves_mem (t : tree) (nfo : info) :
    ∀ x ∈ leavesT t, x ∈ leavesT (tree.insert t nfo).1 := by
  intro x hx
  match t with
  | none => cases hx
  | some r =>
    rw [insert_some_eq]
    rcases hfc : findCrit nfo.path (bestLeaf r nfo.path).path 0 with _ | ⟨⟨o, c, y⟩⟩
    · exact hx
    · exact insertIter_mem _ _ _ _ _ r x hx

theorem foldl_insert_leaves_mem : ∀ (l : List info) (t : tree) (x : info),
    x ∈ leavesT t →
    x ∈ leavesT (l.foldl (fun t n => (tree.insert t n).1) t) := by
  intro l
  induction l with
  | nil => intro t x hx; exact hx
  | cons i l ih =>
    intro t x hx
    exact ih _ x (insert_leaves_mem t i x hx)

theorem foldl_insert_get_none : ∀ (l : List info) (t : tree) (q : List Nat),
    wfT t → (∀ i ∈ l, validPath i.path) → tree.get t q = none →
    (∀ i ∈ l, i.path ≠ q) →
    tree.get (l.foldl (fun t n => (tree.insert t n).1) t) q = none := by
  intro l
  induction l with
  | nil => intro t q _ _ hg _; exact hg
  | cons i l ih =>
    intro t q hw hv hg hq
    refine ih _ q (insert_wfT hw (hv i (by simp)))
      (fun j hj => hv j (by simp [hj])) ?_ (fun j hj => hq j (by simp [hj]))
    match t with
    | none =>
      show tree.get (some (.leaf i)) q = none
      rw [get_some_eq]
      rw [if_neg (fun hc => hq i (by simp) hc.symm)]
    | some r =>
      show tree.get (tree.insert (some r) i).1 q = none
      obtain ⟨hwr, hvr⟩ := hw
      rcases hgi : tree.get (some r) i.path with _ | E
      · obtain ⟨r2, heq, hw2, hv2, pre, post, hd1, hd2⟩ :=
          insert_new hwr hvr (hv i (by simp)) hgi
        rw [heq]
        refine (get_none_char hw2).2 fun E hE hp => ?_
        rw [hd2] at hE
        rcases List.mem_append.1 hE with hE | hE
        · refine (get_none_char hwr).1 hg E ?_ hp
          rw [hd1]
          exact List.mem_append_left _ hE
        · rcases List.mem_cons.1 hE with hE | hE
          · exact hq i (by simp) (by rw [← hE]; exact hp)
          · refine (get_none_char hwr).1 hg E ?_ hp
            rw [hd1]
            exact List.mem_append_right _ hE
      · rw [insert_dup i hgi]
        exact hg

theorem insertAll_get_not_mem (l : List info) (q : List Nat)
    (hv : ∀ i ∈ l, validPath i.path) (hq : ∀ i ∈ l, i.path ≠ q) :
    tree.get (insertAll l) q = none :=
  foldl_insert_get_none l none q trivial hv rfl hq

theorem foldl_insert_get_mem : ∀ (l : List info) (t : tree) (E : info),
    wfT t → (∀ i ∈ l, validPath i.path) → E ∈ leavesT t →
    tree.get (l.foldl (fun t n => (tree.insert t n).1) t) E.path = some E := by
  intro l t E hw hv hE
  have hmem := foldl_insert_leaves_mem l t E hE
  have hwf := foldl_insert_wfT l t hw hv
  rcases hft : l.foldl (fun t n => (tree.insert t n).1) t with _ | rf
  · rw [hft] at hmem
    cases hmem
  · rw [hft] at hmem hwf
    exact (get_char hwf.1).2 ⟨hmem, rfl⟩

theorem insertAll_get_mem (l : List info) (E : info)
    (hv : ∀ i ∈ l, validPath i.path)
    (hp : l.Pairwise (fun a b => a.path ≠ b.path)) (hE : E ∈ l) :
    tree.get (insertAll l) E.path = some E := by
  obtain ⟨l1, l2, rfl⟩ := List.append_of_mem hE
  unfold insertAll
  rw [show l1 ++ E :: l2 = (l1 ++ [E]) ++ l2 by simp, List.foldl_append]
  refine foldl_insert_get_mem l2 _ E ?_ (fun i hi => hv i (by simp [hi])) ?_
  · exact foldl_insert_wfT _ none trivial (fun i hi => hv i (by
      rcases List.mem_append.1 hi with hi | hi
      · simp [hi]
      · simp at hi; simp [hi]))
  · rw [List.foldl_append]
    show E ∈ leavesT (tree.insert (l1.foldl (fun t n => (tree.insert t n).1) none) E).1
    have hnone : tree.get (l1.foldl (fun t n => (tree.insert t n).1) none)
        E.path = none := by
      refine foldl_insert_get_none l1 none E.path trivial
        (fun i hi => hv i (by simp [hi])) rfl (fun i hi => ?_)
      have := (List.pairwise_append.1 hp).2.2 i hi E (by simp)
      exact this
    rcases hft : l1.foldl (fun t n => (tree.insert t n).1) none with _ | r1
    · show E ∈ leavesT (tree.insert none E).1
      simp [tree.insert, leavesT, deliter]
    · have hw1 := foldl_insert_wfT l1 none trivial
        (fun i hi => hv i (by simp [hi]))
      rw [hft] at hw1 hnone
      obtain ⟨r2, heq, _, _, pre, post, hd1, hd2⟩ :=
        insert_new hw1.1 hw1.2 (hv E (by simp)) hnone
      rw [heq]
      show E ∈ deliter r2
      rw [hd2]
      exact List.mem_append_right _ (by simp)

/-! ### Locating the subtree cell spliced by `deleteAll` -/

theorem pb_ge_length {k : List Nat} {o : Nat} (h : k.length ≤ o) : pb k o = 0 := by
  unfold pb byteAt
  rw [List.getD_eq_default _ _ h]
  rfl

theorem pb_pref {p k : List Nat} (h : p.isPrefixOf k = true) {o : Nat}
    (ho : o < p.length) : pb k o = pb p o := by
  obtain ⟨t, ht⟩ := List.isPrefixOf_iff_prefix.1 h
  rw [← ht]
  exact pb_append_left ho

theorem pb_eq_of_tb_eq {a b : Nat} (ha : a < 256) (hb : b < 256)
    (h : ∀ j, j < 8 → a.testBit j = b.testBit j) : a = b := by
  refine Nat.eq_of_testBit_eq fun j => ?_
  by_cases hj : j < 8
  · exact h j hj
  · have h8 : (256 : Nat) ≤ 2 ^ j := by
      calc (256 : Nat) = 2 ^ 8 := by norm_num
        _ ≤ 2 ^ j := Nat.pow_le_pow_right (by norm_num) (by omega)
    rw [Nat.testBit_eq_false_of_lt (by omega), Nat.testBit_eq_false_of_lt (by omega)]

theorem allOffGE_of_agree {L : Nat} : ∀ {c : ref}, wf c →
    (∀ k1 ∈ keys c, ∀ k2 ∈ keys c, ∀ o, o ≤ L → pb k1 o = pb k2 o) →
    allOffGE (L + 1) c := by
  intro c hw
  induction hw with
  | leaf i => intro _; trivial
  | node c0 c1 off i h0 h1 hi hb0 hb1 hag ht0 ht1 ih0 ih1 =>
    intro hagree
    rw [keys_node] at hagree
    obtain ⟨k0, hk0⟩ := List.exists_mem_of_ne_nil _ (keys_ne_nil c0)
    obtain ⟨k1, hk1⟩ := List.exists_mem_of_ne_nil _ (keys_ne_nil c1)
    refine ⟨?_,
      ih0 (fun a ha b hb o ho => hagree a (List.mem_append_left _ ha)
        b (List.mem_append_left _ hb) o ho),
      ih1 (fun a ha b hb o ho => hagree a (List.mem_append_right _ ha)
        b (List.mem_append_right _ hb) o ho)⟩
    by_contra hlt
    have hle : off ≤ L := by omega
    have hpb := hagree k0 (List.mem_append_left _ hk0)
      k1 (List.mem_append_right _ hk1) off hle
    have hf := hb0 k0 hk0
    have ht := hb1 k1 hk1
    unfold tb at hf ht
    rw [hpb, ht] at hf
    cases hf

theorem ref_single {r : ref} {root : List Nat}
    (hp : (keys r).Pairwise keyLt) (h : ∀ k ∈ keys r, k = root) :
    ∃ i : info, r = .leaf i ∧ i.path = root := by
  cases r with
  | leaf i => exact ⟨i, rfl, h i.path (by rw [keys_leaf]; simp)⟩
  | node c0 c1 off bit =>
    exfalso
    obtain ⟨k0, hk0⟩ := List.exists_mem_of_ne_nil _ (keys_ne_nil c0)
    obtain ⟨k1, hk1⟩ := List.exists_mem_of_ne_nil _ (keys_ne_nil c1)
    rw [keys_node] at hp h
    have hlt := (List.pairwise_append.1 hp).2.2 k0 hk0 k1 hk1
    rw [h k0 (List.mem_append_left _ hk0),
      h k1 (List.mem_append_right _ hk1)] at hlt
    exact keyLt_irrefl root hlt

/-- The first descent of `deleteAll` on a well-formed tree holding `root`
and at least one entry below it: the bottom node splits at byte offset
`len(root)`, bit `2^0`, with the `root` leaf as its 0-child and exactly the
descendant entries as its 1-child (whose nodes all split at offset at least
`len(root)+1`). -/
theorem findX {root : List Nat} (hvr : validPath root) :
    ∀ r : ref, wf r → (∀ k ∈ keys r, validPath k) →
    (keys r).Pairwise keyLt → root ∈ keys r →
    (∃ k ∈ keys r, (root ++ [sep]).isPrefixOf k = true) →
    ∃ (fs : List frame) (nfo : info) (sib : ref),
      delFrames root r
        = (fs ++ [⟨.leaf nfo, sib, root.length, 1, false, false, false⟩], nfo)
      ∧ nfo.path = root
      ∧ allOffGE (root.length + 1) sib
      ∧ (∀ k ∈ keys sib, (root ++ [sep]).isPrefixOf k = true)
      ∧ (∀ x ∈ deliter r, (root ++ [sep]).isPrefixOf x.path = true →
          x ∈ deliter sib)
      ∧ (∃ pre post, deliter r = pre ++ (nfo :: deliter sib) ++ post) := by
  intro r hw
  induction hw with
  | leaf q =>
    intro hv hp hroot hdesc
    exfalso
    obtain ⟨k, hk, hkpre⟩ := hdesc
    rw [keys_leaf, List.mem_singleton] at hroot hk
    rw [hk, ← hroot] at hkpre
    rw [not_isPrefixOf_short (by simp)] at hkpre
    cases hkpre
  | node c0 c1 off i h0 h1 hi hb0 hb1 hag ht0 ht1 ih0 ih1 =>
    intro hv hp hroot hdesc
    rw [keys_node] at hv hp hroot
    obtain ⟨dk, hdk, hdkpre⟩ := hdesc
    rw [keys_node] at hdk
    have hrootTb : ∀ j, tb root root.length j = false := by
      intro j
      unfold tb
      rw [pb_at_length]
      exact Nat.zero_testBit j
    have hdescPb : ∀ k, (root ++ [sep]).isPrefixOf k = true →
        pb k root.length = 1 := by
      intro k hk
      obtain ⟨t, ht⟩ := List.isPrefixOf_iff_prefix.1 hk
      rw [← ht, List.append_assoc, show [sep] ++ t = sep :: t from rfl,
        pb_append_at_length]
      rfl
    have hdescTb0 : ∀ k, (root ++ [sep]).isPrefixOf k = true →
        tb k root.length 0 = true := by
      intro k hk
      unfold tb
      rw [hdescPb k hk]
      decide
    have hdescTbS : ∀ k, (root ++ [sep]).isPrefixOf k = true →
        ∀ j, 0 < j → tb k root.length j = false := by
      intro k hk j hj
      unfold tb
      rw [hdescPb k hk]
      refine Nat.testBit_eq_false_of_lt ?_
      calc (1 : Nat) < 2 ^ 1 := by norm_num
        _ ≤ 2 ^ j := Nat.pow_le_pow_right (by norm_num) hj
    have hdescLow : ∀ k, (root ++ [sep]).isPrefixOf k = true →
        ∀ o, o < root.length → pb k o = pb root o := by
      intro k hk o ho
      rw [pb_pref hk (by simp; omega)]
      exact pb_append_left ho
    by_cases hcond : off < root.length ∨ (off = root.length ∧ 0 < i)
    · -- the node splits before `(len root, bit 0)`: `root` and every
      -- descendant take the same direction, recurse there
      have hsame : ∀ k, (root ++ [sep]).isPrefixOf k = true →
          tb k off i = tb root off i := by
        intro k hk
        rcases hcond with hlt | ⟨heq, hpos⟩
        · unfold tb
          rw [hdescLow k hk off hlt]
        · rw [heq, hdescTbS k hk i hpos, hrootTb i]
      rcases hd : tb root off i with _ | _
      · have hrc0 : root ∈ keys c0 := by
          rcases List.mem_append.1 hroot with h | h
          · exact h
          · have hx := hb1 root h
            rw [hd] at hx
            cases hx
        have hdkc0 : dk ∈ keys c0 := by
          rcases List.mem_append.1 hdk with h | h
          · exact h
          · have hx := hb1 dk h
            rw [hsame dk hdkpre, hd] at hx
            cases hx
        obtain ⟨fs, nfo, sib, heq, hnp, hall, hsibpre, hsibmem, pre, post, hdec⟩ :=
          ih0 (fun k hk => hv k (List.mem_append_left _ hk))
            ((List.pairwise_append.1 hp).1) hrc0 ⟨dk, hdkc0, hdkpre⟩
        have hnode := delFrames_node_false root c0 c1 off (2 ^ i)
          (by rw [dirOf_eq_tb, hd]) _ _ heq
        refine ⟨⟨c0, c1, off, 2 ^ i, false, false,
            decide (off < root.length)⟩ :: fs, nfo, sib, ?_, hnp, hall,
            hsibpre, ?_, pre, post ++ deliter c1, ?_⟩
        · rw [hnode]
          simp
        · intro x hx hxpre
          rw [deliter_node] at hx
          rcases List.mem_append.1 hx with hx | hx
          · exact hsibmem x hx hxpre
          · exfalso
            have hxk := hb1 x.path (mem_keys_of_deliter hx)
            rw [hsame x.path hxpre, hd] at hxk
            cases hxk
        · rw [deliter_node, hdec]
          simp
      · have hrc1 : root ∈ keys c1 := by
          rcases List.mem_append.1 hroot with h | h
          · have hx := hb0 root h
            rw [hd] at hx
            cases hx
          · exact h
        have hdkc1 : dk ∈ keys c1 := by
          rcases List.mem_append.1 hdk with h | h
          · have hx := hb0 dk h
            rw [hsame dk hdkpre, hd] at hx
            cases hx
          · exact h
        obtain ⟨fs, nfo, sib, heq, hnp, hall, hsibpre, hsibmem, pre, post, hdec⟩ :=
          ih1 (fun k hk => hv k (List.mem_append_right _ hk))
            ((List.pairwise_append.1 hp).2.1) hrc1 ⟨dk, hdkc1, hdkpre⟩
        have hnode := delFrames_node_true root c0 c1 off (2 ^ i)
          (by rw [dirOf_eq_tb, hd]) _ _ heq
        refine ⟨⟨c0, c1, off, 2 ^ i, true, true,
            decide (off < root.length)⟩ :: fs, nfo, sib, ?_, hnp, hall,
            hsibpre, ?_, deliter c0 ++ pre, post, ?_⟩
        · rw [hnode]
          simp
        · intro x hx hxpre
          rw [deliter_node] at hx
          rcases List.mem_append.1 hx with hx | hx
          · exfalso
            have hxk := hb0 x.path (mem_keys_of_deliter hx)
            rw [hsame x.path hxpre, hd] at hxk
            cases hxk
          · exact hsibmem x hx hxpre
        · rw [deliter_node, hdec]
          simp
    · rcases Nat.lt_trichotomy off root.length with hlt | heqL | hgt
      · exact absurd (Or.inl hlt) hcond
      · -- the separating node: `off = len root`, `i = 0`
        have hi0 : i = 0 := by
          by_contra hne
          exact hcond (Or.inr ⟨heqL, Nat.pos_of_ne_zero hne⟩)
        subst hi0
        subst heqL
        have hrc0 : root ∈ keys c0 := by
          rcases List.mem_append.1 hroot with h | h
          · exact h
          · have hx := hb1 root h
            rw [hrootTb 0] at hx
            cases hx
        have hc0keys : ∀ k ∈ keys c0, k = root := by
          intro k hk
          have hvk := hv k (List.mem_append_left _ hk)
          have hpbL : pb k root.length = 0 := by
            refine pb_eq_of_tb_eq (pb_lt_256 hvk _) (by norm_num)
              fun j hj => ?_
            rw [Nat.zero_testBit]
            rcases Nat.eq_zero_or_pos j with hj0 | hj0
            · rw [hj0]
              exact hb0 k hk
            · show tb k root.length j = false
              rw [hag k (List.mem_append_left _ hk) root hroot root.length j
                (Or.inr ⟨rfl, hj0⟩)]
              exact hrootTb j
          have hklen : k.length ≤ root.length := by
            by_contra hc
            push_neg at hc
            have hmem : byteAt k root.length ∈ k := by
              unfold byteAt
              rw [List.getD_eq_getElem _ _ hc]
              exact List.getElem_mem _
            exact validByte_replaceSep (hvk _ hmem) hpbL
          refine pb_inj k root hvk hvr fun m => ?_
          rcases Nat.lt_or_ge m root.length with hm | hm
          · refine pb_eq_of_tb_eq (pb_lt_256 hvk m) (pb_lt_256 hvr m)
              fun j hj => ?_
            exact hag k (List.mem_append_left _ hk) root hroot m j (Or.inl hm)
          · rw [pb_ge_length (le_trans hklen hm), pb_ge_length hm]
        obtain ⟨nfo, hc0eq, hnfopath⟩ :=
          ref_single ((List.pairwise_append.1 hp).1) hc0keys
        subst hc0eq
        have hc1pre : ∀ k ∈ keys c1, (root ++ [sep]).isPrefixOf k = true := by
          intro k hk
          have hvk := hv k (List.mem_append_right _ hk)
          have hpbL : pb k root.length = 1 := by
            refine pb_eq_of_tb_eq (pb_lt_256 hvk _) (by norm_num)
              fun j hj => ?_
            rcases Nat.eq_zero_or_pos j with hj0 | hj0
            · rw [hj0, show (1 : Nat).testBit 0 = true by decide]
              exact hb1 k hk
            · rw [Nat.testBit_eq_false_of_lt (show (1 : Nat) < 2 ^ j by
                calc (1 : Nat) < 2 ^ 1 := by norm_num
                  _ ≤ 2 ^ j := Nat.pow_le_pow_right (by norm_num) hj0)]
              show tb k root.length j = false
              rw [hag k (List.mem_append_right _ hk) root hroot root.length j
                (Or.inr ⟨rfl, hj0⟩)]
              exact hrootTb j
          rw [isPrefixOf_iff_pb (validPath_append_sep hvr) hvk]
          intro o ho
          rw [List.length_append] at ho
          simp at ho
          rcases Nat.lt_or_ge o root.length with ho2 | ho2
          · rw [pb_append_left ho2]
            refine pb_eq_of_tb_eq (pb_lt_256 hvk o) (pb_lt_256 hvr o)
              fun j hj => ?_
            exact hag k (List.mem_append_right _ hk) root hroot o j (Or.inl ho2)
          · have ho3 : o = root.length := by omega
            rw [ho3, show root ++ [sep] = root ++ sep :: [] from rfl,
              pb_append_at_length, hpbL]
            rfl
        have hall : allOffGE (root.length + 1) c1 := by
          refine allOffGE_of_agree h1 fun k1 hk1 k2 hk2 o ho => ?_
          have e1 := (isPrefixOf_iff_pb (validPath_append_sep hvr)
            (hv k1 (List.mem_append_right _ hk1))).1 (hc1pre k1 hk1) o
            (by simp; omega)
          have e2 := (isPrefixOf_iff_pb (validPath_append_sep hvr)
            (hv k2 (List.mem_append_right _ hk2))).1 (hc1pre k2 hk2) o
            (by simp; omega)
          rw [e1, e2]
        have hnode := delFrames_node_false root (.leaf nfo) c1 root.length
          (2 ^ 0) (by rw [dirOf_eq_tb]; exact hrootTb 0) [] nfo rfl
        refine ⟨[], nfo, c1, ?_, hnfopath, hall, hc1pre, ?_, [], [], ?_⟩
        · rw [hnode]
          norm_num
        · intro x hx hxpre
          rw [deliter_node] at hx
          rcases List.mem_append.1 hx with hx | hx
          · exfalso
            rw [deliter_leaf, List.mem_singleton] at hx
            rw [hx, hnfopath] at hxpre
            rw [not_isPrefixOf_short (by simp)] at hxpre
            cases hxpre
          · exact hx
        · rw [deliter_node, deliter_leaf]
          simp
      · exfalso
        have hx := hag root hroot dk hdk root.length 0 (Or.inl hgt)
        rw [hrootTb 0, hdescTb0 dk hdkpre] at hx
        cases hx

/-- `deleteAll` on a well-formed tree whose target is a directory with at
least one descendant in the index: the handler sees the target and exactly
the descendant entries, but the resulting tree is `none` — the whole index
is wiped (Go's `wp == nil` at the second unlink).  This happens on *every*
such input, not just when the target subtree is the whole tree. -/
theorem deleteAll_wipe {r : ref} {root : List Nat} (hw : wf r)
    (hv : ∀ k ∈ keys r, validPath k) (hvr : validPath root)
    {nfo : info} (hget : tree.get (some r) root = some nfo)
    (hdir : nfo.isDir = true)
    (hdesc : ∃ k ∈ keys r, (root ++ [sep]).isPrefixOf k = true) :
    ∃ sib : ref,
      tree.deleteAll (some r) root = (none, nfo :: deliter sib)
      ∧ (∀ k ∈ keys sib, (root ++ [sep]).isPrefixOf k = true)
      ∧ (∀ x ∈ deliter r, (root ++ [sep]).isPrefixOf x.path = true →
          x ∈ deliter sib)
      ∧ (nfo :: deliter sib).Sublist (deliter r) := by
  obtain ⟨hnm, hnp⟩ := (get_char hw).1 hget
  obtain ⟨fs, nfo2, sib, heq, hnp2, hall, hsibpre, hsibmem, pre, post, hdec⟩ :=
    findX hvr r hw hv (wf_pairwise hw)
      (by rw [← hnp]; exact mem_keys_of_deliter hnm) hdesc
  have hbest : bestLeaf r root = nfo := by
    rw [get_some_eq] at hget
    split at hget
    · injection hget
    · cases hget
  have hnfo2 : nfo2 = nfo := by
    have hdi := delFrames_info root r
    rw [heq] at hdi
    rw [hbest] at hdi
    exact hdi
  rw [hnfo2] at heq hdec
  refine ⟨sib, ?_, hsibpre, hsibmem, ?_⟩
  · have hlast : (fs ++
        [(⟨.leaf nfo, sib, root.length, 1, false, false, false⟩ : frame)]).getLast?
        = some (⟨.leaf nfo, sib, root.length, 1, false, false, false⟩ : frame) :=
      List.getLast?_concat _
    have hdrop : (fs ++
        [(⟨.leaf nfo, sib, root.length, 1, false, false, false⟩ : frame)]).dropLast
        = fs := List.dropLast_concat
    rcases h2 : delFrames2 (root ++ [sep]) sib false with ⟨fs2, leaf2⟩
    have hleaf2 : leaf2 ∈ deliter sib := by
      have hm := delFrames2_leaf_mem (root ++ [sep]) sib false
      rw [h2] at hm
      exact hm
    have hl2pre : (root ++ [sep]).isPrefixOf leaf2.path = true :=
      hsibpre leaf2.path (mem_keys_of_deliter hleaf2)
    have hl2len : (root ++ [sep]).length ≤ leaf2.path.length :=
      (List.isPrefixOf_iff_prefix.1 hl2pre).length_le
    have hnewtops : ∀ fr ∈ fs2, fr.newtop = false := by
      intro fr hfr
      refine delFrames2_newtop_false (root ++ [sep]) sib false ?_ fr
        (by rw [h2]; exact hfr)
      rw [show (root ++ [sep]).length = root.length + 1 by simp]
      exact hall
    have hln : lastNewtop fs2 = none := lastNewtop_none fs2 hnewtops
    simp only [tree.deleteAll]
    rw [heq]
    simp only []
    rw [if_neg (show ¬(root ≠ nfo.path) from fun hc => hc hnp.symm)]
    rw [hlast]
    simp only []
    rw [hdrop, hdir]
    simp only [Bool.not_true]
    rw [if_neg (by simp)]
    simp only [Bool.false_eq_true, if_false]
    rw [h2]
    simp only []
    rw [if_neg (by simp [hl2pre]; simpa using hl2len)]
    rw [hln]
  · rw [hdec]
    exact List.Sublist.trans (List.sublist_append_right pre _)
      (List.sublist_append_left _ post)

/-- **C4** (functional correctness, confirmed for the kqueue `unload`): on a
non-recursive `unload(path, false)` of a watched directory, a descendant
entry `E` carrying the `EXPLICIT` flag (with `E.path ≠ path`) is re-loaded
as-is: afterwards it is still present with its original flags and watch;
every non-`EXPLICIT` descendant `D` is removed from the index and its watch
descriptor is dropped from `fdmap`. -/
theorem C4_unload_preserves_explicit
    (s : WState) (path : List Nat) (fd : Nat) (nfo E : info)
    (hopen : s.fdOpen = true)
    (hwf : wfT s.t)
    (hvp : validPath path)
    (hget : s.t.get path = some nfo)
    (hwa : nfo.watch = some fd)
    (hdir : nfo.isDir = true)
    (hE : E ∈ leavesT s.t)
    (hEpre : (path ++ [sep]).isPrefixOf E.path = true)
    (hEex : E.flags &&& explicit ≠ 0) :
    (unload s path false).2 = none
    ∧ (unload s path false).1.t.get E.path = some E
    ∧ (∀ D ∈ leavesT s.t, (path ++ [sep]).isPrefixOf D.path = true →
        D.flags &&& explicit = 0 →
        (unload s path false).1.t.get D.path = none
        ∧ (∀ fdD, D.watch = some fdD →
            ∀ q, (fdD, q) ∉ (unload s path false).1.fdmap)) := by
  rcases hst : s.t with _ | r
  · rw [hst] at hget
    simp [tree.get] at hget
  rw [hst] at hwf hget hE
  obtain ⟨hwr, hvr⟩ := hwf
  obtain ⟨hnmem, hnpath⟩ := (get_char hwr).1 hget
  have hbest : bestLeaf r path = nfo := by
    rw [get_some_eq] at hget
    split at hget
    · injection hget
    · cases hget
  have hwr1 : wf (updRef path (fun i => {i with watch := none}) r) :=
    @updRef_wf (fun i => {i with watch := none}) (fun i => rfl) path r hwr
  have hkeys1 : keys (updRef path (fun i => {i with watch := none}) r)
      = keys r :=
    @updRef_keys (fun i => {i with watch := none}) (fun i => rfl) path r
  have hvr1 : ∀ k ∈ keys (updRef path (fun i => {i with watch := none}) r),
      validPath k := by
    rw [hkeys1]
    exact hvr
  obtain ⟨pre0, post0, hd1, hd2⟩ :=
    updRef_deliter path (fun i => {i with watch := none}) r
  rw [hbest] at hd1 hd2
  have hmem1 : ∀ X ∈ deliter r, (path ++ [sep]).isPrefixOf X.path = true →
      X ∈ deliter (updRef path (fun i => {i with watch := none}) r) := by
    intro X hX hXpre
    rw [hd1] at hX
    rw [hd2]
    rcases List.mem_append.1 hX with hX | hX
    · exact List.mem_append_left _ hX
    · rcases List.mem_cons.1 hX with hX | hX
      · exfalso
        rw [hX, hnpath, not_isPrefixOf_short (by simp)] at hXpre
        cases hXpre
      · exact List.mem_append_right _ (List.mem_cons_of_mem _ hX)
  have hget1 : tree.get (some (updRef path (fun i => {i with watch := none}) r))
      path = some {nfo with watch := none} := by
    refine (get_char hwr1).2 ⟨?_, hnpath⟩
    rw [hd2]
    exact List.mem_append_right _ (List.mem_cons_self _ _)
  obtain ⟨sib, hda, hsibpre, hsibmem, hsub⟩ :=
    deleteAll_wipe hwr1 hvr1 hvp hget1 hdir
      ⟨E.path, mem_keys_of_deliter (hmem1 E hE hEpre), hEpre⟩
  have hEne : E.path ≠ path := by
    intro hc
    have hlen := (List.isPrefixOf_iff_prefix.1 hEpre).length_le
    rw [hc] at hlen
    simp at hlen
  have hEsib : E ∈ deliter sib := hsibmem E (hmem1 E hE hEpre) hEpre
  -- the visited list is a distinct-path, valid sublist of the index
  have hvis_sub : ({nfo with watch := none} :: deliter sib).Sublist
      (deliter (updRef path (fun i => {i with watch := none}) r)) := hsub
  have hvis_pair : ({nfo with watch := none} :: deliter sib).Pairwise
      (fun a b => a.path ≠ b.path) := by
    refine ((deliter_pairwise hwr1).sublist hvis_sub).imp ?_
    intro a b hlt hc
    rw [hc] at hlt
    exact keyLt_irrefl _ hlt
  have hvis_val : ∀ i ∈ ({nfo with watch := none} :: deliter sib),
      validPath i.path := by
    intro i hi
    exact hvr1 i.path (mem_keys_of_deliter (hvis_sub.mem hi))
  have hu : unload s path false
      = (⟨true,
          (({nfo with watch := none} :: deliter sib).filter
            (fun n => decide (n.flags &&& explicit ≠ 0)
              && decide (n.path ≠ path))).foldl
            (fun t n => (tree.insert t n).1) none,
          (s.fdmap.filter (fun e => decide (e.1 ≠ fd))).filter
            (fun e => !((({nfo with watch := none} :: deliter sib).filter
                (fun n => !(decide (n.flags &&& explicit ≠ 0)
                  && decide (n.path ≠ path)))).filterMap
              (fun n => n.watch)).contains e.1),
          s.nextFd⟩,
         none) := by
    simp only [unload]
    rw [hopen]
    rw [if_neg (by simp)]
    rw [hst, hget]
    simp only []
    rw [hwa]
    simp only []
    simp only [tree.updL]
    rw [hda]
    rfl
  rw [hu]
  refine ⟨rfl, ?_, ?_⟩
  · show tree.get ((({nfo with watch := none} :: deliter sib).filter
        (fun n => decide (n.flags &&& explicit ≠ 0)
          && decide (n.path ≠ path))).foldl
        (fun t n => (tree.insert t n).1) none) E.path = some E
    have hEfil : E ∈ ({nfo with watch := none} :: deliter sib).filter
        (fun n => decide (n.flags &&& explicit ≠ 0)
          && decide (n.path ≠ path)) := by
      refine List.mem_filter.2 ⟨List.mem_cons_of_mem _ hEsib, ?_⟩
      simp [hEex, hEne]
    refine insertAll_get_mem _ E ?_ ?_ hEfil
    · intro i hi
      exact hvis_val i (List.mem_of_mem_filter hi)
    · exact hvis_pair.sublist (List.filter_sublist _)
  · intro D hD hDpre hDex
    have hDr : D ∈ deliter r := hD
    have hDr1 : D ∈ deliter (updRef path (fun i => {i with watch := none}) r) :=
      hmem1 D hDr hDpre
    have hDsib : D ∈ deliter sib := hsibmem D hDr1 hDpre
    constructor
    · show tree.get ((({nfo with watch := none} :: deliter sib).filter
          (fun n => decide (n.flags &&& explicit ≠ 0)
            && decide (n.path ≠ path))).foldl
          (fun t n => (tree.insert t n).1) none) D.path = none
      refine insertAll_get_not_mem _ _ ?_ ?_
      · intro i hi
        exact hvis_val i (List.mem_of_mem_filter hi)
      · intro i hi hc
        have hieq : i = D := by
          refine eq_of_mem_same_path (deliter_pairwise hwr1) ?_ hDr1 hc
          exact hvis_sub.mem (List.mem_of_mem_filter hi)
        have hkeep := (List.mem_filter.1 hi).2
        rw [hieq] at hkeep
        simp [hDex] at hkeep
    · intro fdD hfdD q hq
      have hq2 := List.mem_filter.1 hq
      have hnotc := hq2.2
      have hDfil : D ∈ ({nfo with watch := none} :: deliter sib).filter
          (fun n => !(decide (n.flags &&& explicit ≠ 0)
            && decide (n.path ≠ path))) := by
        refine List.mem_filter.2 ⟨List.mem_cons_of_mem _ hDsib, ?_⟩
        simp [hDex]
      simp at hnotc
      exact hnotc D hDsib (Or.inl hDex) hfdD

theorem C4_unload_preserves_explicit_witness :
    (unload ⟨true, insertAll [⟨[47, 97], true, 0, 2, some 0⟩,
        ⟨[47, 97, 47, 98], true, 0, 2, some 1⟩,
        ⟨[47, 97, 47, 99], true, 0, 0, some 2⟩],
        [(0, [47, 97]), (1, [47, 97, 47, 98]), (2, [47, 97, 47, 99])], 3⟩
      [47, 97] false).2 = none
    ∧ (unload ⟨true, insertAll [⟨[47, 97], true, 0, 2, some 0⟩,
        ⟨[47, 97, 47, 98], true, 0, 2, some 1⟩,
        ⟨[47, 97, 47, 99], true, 0, 0, some 2⟩],
        [(0, [47, 97]), (1, [47, 97, 47, 98]), (2, [47, 97, 47, 99])], 3⟩
      [47, 97] false).1.t.get [47, 97, 47, 98]
      = some ⟨[47, 97, 47, 98], true, 0, 2, some 1⟩
    ∧ (∀ D ∈ leavesT (insertAll [⟨[47, 97], true, 0, 2, some 0⟩,
        ⟨[47, 97, 47, 98], true, 0, 2, some 1⟩,
        ⟨[47, 97, 47, 99], true, 0, 0, some 2⟩]),
        ([47, 97] ++ [sep]).isPrefixOf D.path = true →
        D.flags &&& explicit = 0 →
        (unload ⟨true, insertAll [⟨[47, 97], true, 0, 2, some 0⟩,
            ⟨[47, 97, 47, 98], true, 0, 2, some 1⟩,
            ⟨[47, 97, 47, 99], true, 0, 0, some 2⟩],
            [(0, [47, 97]), (1, [47, 97, 47, 98]), (2, [47, 97, 47, 99])], 3⟩
          [47, 97] false).1.t.get D.path = none
        ∧ (∀ fdD, D.watch = some fdD →
            ∀ q, (fdD, q) ∉ (unload ⟨true,
              insertAll [⟨[47, 97], true, 0, 2, some 0⟩,
                ⟨[47, 97, 47, 98], true, 0, 2, some 1⟩,
                ⟨[47, 97, 47, 99], true, 0, 0, some 2⟩],
              [(0, [47, 97]), (1, [47, 97, 47, 98]), (2, [47, 97, 47, 99])], 3⟩
              [47, 97] false).1.fdmap)) :=
  C4_unload_preserves_explicit
    ⟨true, insertAll [⟨[47, 97], true, 0, 2, some 0⟩,
        ⟨[47, 97, 47, 98], true, 0, 2, some 1⟩,
        ⟨[47, 97, 47, 99], true, 0, 0, some 2⟩],
      [(0, [47, 97]), (1, [47, 97, 47, 98]), (2, [47, 97, 47, 99])], 3⟩
    [47, 97] 0 ⟨[47, 97], true, 0, 2, some 0⟩
    ⟨[47, 97, 47, 98], true, 0, 2, some 1⟩
    rfl (insertAll_wfT _ (by decide)) (by decide) (by decide) rfl rfl
    (by decide) (by decide) (by decide)

/-! ### More heap-update lemmas, towards `loadImpl` -/

theorem updRef_id {q : List Nat} {g : info → info} {r : ref}
    (h : g (bestLeaf r q) = bestLeaf r q) : updRef q g r = r := by
  induction r with
  | leaf i => exact congrArg ref.leaf h
  | node c0 c1 off bit ih0 ih1 =>
    rw [bestLeaf_node] at h
    show (if dirOf q off bit then ref.node c0 (updRef q g c1) off bit
      else ref.node (updRef q g c0) c1 off bit) = ref.node c0 c1 off bit
    rcases hd : dirOf q off bit with _ | _
    · rw [hd] at h
      rw [if_neg (by simp)] at h
      rw [if_neg (by simp), ih0 h]
    · rw [hd] at h
      rw [if_pos rfl] at h
      rw [if_pos rfl, ih1 h]

theorem updL_id {t : tree} {q : List Nat} {g : info → info}
    (h : ∀ r : ref, t = some r → g (bestLeaf r q) = bestLeaf r q) :
    tree.updL t q g = t := by
  match t with
  | none => rfl
  | some r =>
    show some (updRef q g r) = some r
    rw [updRef_id (h r rfl)]

theorem updRef_mem_ne {q : List Nat} (g : info → info) (r : ref) :
    ∀ E ∈ deliter r, E.path ≠ (bestLeaf r q).path →
    E ∈ deliter (updRef q g r) := by
  obtain ⟨pre, post, h1, h2⟩ := updRef_deliter q g r
  intro E hE hne
  rw [h1] at hE
  rw [h2]
  rcases List.mem_append.1 hE with hE | hE
  · exact List.mem_append_left _ hE
  · rcases List.mem_cons.1 hE with hE | hE
    · exact absurd (congrArg info.path hE) hne
    · exact List.mem_append_right _ (List.mem_cons_of_mem _ hE)

theorem updRef_mem_self (q : List Nat) (g : info → info) (r : ref) :
    g (bestLeaf r q) ∈ deliter (updRef q g r) := by
  obtain ⟨pre, post, h1, h2⟩ := updRef_deliter q g r
  rw [h2]
  exact List.mem_append_right _ (List.mem_cons_self _ _)

theorem updRef_mem_inv {q : List Nat} (g : info → info) (r : ref) :
    ∀ E ∈ deliter (updRef q g r),
    E ∈ deliter r ∨ E = g (bestLeaf r q) := by
  obtain ⟨pre, post, h1, h2⟩ := updRef_deliter q g r
  intro E hE
  rw [h2] at hE
  rcases List.mem_append.1 hE with hE | hE
  · exact Or.inl (by rw [h1]; exact List.mem_append_left _ hE)
  · rcases List.mem_cons.1 hE with hE | hE
    · exact Or.inr hE
    · refine Or.inl ?_
      rw [h1]
      exact List.mem_append_right _ (List.mem_cons_of_mem _ hE)

theorem updL_wfT {t : tree} {g : info → info}
    (hg : ∀ i, (g i).path = i.path) (q : List Nat) (h : wfT t) :
    wfT (tree.updL t q g) := by
  match t with
  | none => trivial
  | some r =>
    obtain ⟨hw, hv⟩ := h
    refine ⟨updRef_wf hg q hw, ?_⟩
    rw [updRef_keys hg]
    exact hv

theorem get_updL_self {r : ref} (hw : wf r) {g : info → info}
    (hg : ∀ i, (g i).path = i.path) {q : List Nat}
    (hb : (bestLeaf r q).path = q) :
    tree.get (some (updRef q g r)) q = some (g (bestLeaf r q)) := by
  refine (get_char (updRef_wf hg q hw)).2 ⟨updRef_mem_self q g r, ?_⟩
  rw [hg, hb]

/-- The fresh case of `tree.insert`, packaged at the `tree` level. -/
theorem insert_fresh_spec {t : tree} (hwf : wfT t) {nfo : info}
    (hv : validPath nfo.path) {t1 : tree}
    (h : tree.insert t nfo = (t1, none)) :
    wfT t1
    ∧ (∃ pre post, leavesT t = pre ++ post ∧ leavesT t1 = pre ++ nfo :: post)
    ∧ (∀ E ∈ leavesT t, E.path ≠ nfo.path) := by
  match t with
  | none =>
    have ht1 : t1 = some (.leaf nfo) :=
      (congrArg Prod.fst h).symm
    subst ht1
    refine ⟨⟨wf.leaf nfo, ?_⟩, ⟨[], [], rfl, rfl⟩, ?_⟩
    · intro k hk
      rw [keys_leaf, List.mem_singleton] at hk
      rw [hk]
      exact hv
    · intro E hE
      cases hE
  | some r =>
    obtain ⟨hwr, hvr⟩ := hwf
    rcases hg : tree.get (some r) nfo.path with _ | E
    · obtain ⟨r2, heq, hw2, hv2, pre, post, hd1, hd2⟩ :=
        insert_new hwr hvr hv hg
      rw [heq] at h
      have ht1 : t1 = some r2 := (congrArg Prod.fst h).symm
      subst ht1
      exact ⟨⟨hw2, hv2⟩, ⟨pre, post, hd1, hd2⟩,
        fun E hE hp => (get_none_char hwr).1 hg E hE hp⟩
    · rw [insert_dup nfo hg] at h
      have := congrArg Prod.snd h
      cases this

/-- The duplicate case of `tree.insert`, packaged at the `tree` level. -/
theorem insert_dup_spec {t : tree} (hwf : wfT t) {nfo : info}
    (hv : validPath nfo.path) {t1 : tree} {d : info}
    (h : tree.insert t nfo = (t1, some d)) :
    t1 = t ∧ d ∈ leavesT t ∧ d.path = nfo.path := by
  match t with
  | none =>
    have := congrArg Prod.snd h
    cases this
  | some r =>
    obtain ⟨hwr, hvr⟩ := hwf
    rw [insert_some_eq] at h
    rcases hfc : findCrit nfo.path (bestLeaf r nfo.path).path 0
      with _ | ⟨⟨o, c, y⟩⟩
    · rw [hfc] at h
      simp only [] at h
      have ht1 : t1 = some r := (congrArg Prod.fst h).symm
      have hd : some (bestLeaf r nfo.path) = some d := congrArg Prod.snd h
      injection hd with hd
      refine ⟨ht1, ?_, ?_⟩
      · rw [← hd]
        exact bestLeaf_mem r nfo.path
      · rw [← hd]
        exact (pb_inj _ _ hv
          (hvr _ (mem_keys_of_deliter (bestLeaf_mem r nfo.path)))
          (findCrit_none_pb _ _ _ hfc)).symm
    · rw [hfc] at h
      simp only [] at h
      have := congrArg Prod.snd h
      cases this

/-- One call of `loadImpl`'s walker: well-formedness, the open flag, and
entry membership evolve in a controlled way; the only possible error is the
skip sentinel; a visited non-root path is afterwards present. -/
theorem walkerStep_main (filt : info → Bool) (root : List Nat)
    (flags event : Nat) (st : WState × List info) (path : List Nat)
    (fi : fsEntry) (hwf : wfT st.1.t) (hvpath : validPath path) :
    wfT (walkerStep filt root flags event st path fi).1.1.t
    ∧ (walkerStep filt root flags event st path fi).1.1.fdOpen = st.1.fdOpen
    ∧ (∀ i ∈ leavesT st.1.t,
        i ∈ leavesT (walkerStep filt root flags event st path fi).1.1.t)
    ∧ (∀ i ∈ leavesT (walkerStep filt root flags event st path fi).1.1.t,
        i ∈ leavesT st.1.t
        ∨ (path ≠ root ∧ i.path = path ∧ i.flags &&& explicit = 0))
    ∧ ((walkerStep filt root flags event st path fi).2 = none
        ∨ (walkerStep filt root flags event st path fi).2 = some .skipDir)
    ∧ (∀ p ∈ (walkerStep filt root flags event st path fi).1.1.fdmap,
        p ∈ st.1.fdmap
        ∨ (∃ E ∈ leavesT (walkerStep filt root flags event st path fi).1.1.t,
            E.path = p.2 ∧ E.watch = some p.1))
    ∧ (path ≠ root →
        ∃ i ∈ leavesT (walkerStep filt root flags event st path fi).1.1.t,
          i.path = path) := by
  by_cases hpr : path = root
  · have heval : walkerStep filt root flags event st path fi = (st, none) := by
      simp only [walkerStep]
      rw [if_pos hpr]
    rw [heval]
    exact ⟨hwf, rfl, fun i hi => hi, fun i hi => Or.inl hi, Or.inl rfl,
      fun p hp => Or.inl hp, fun hc => absurd hpr hc⟩
  · rcases hins : tree.insert st.1.t (newInfo path fi) with ⟨t1, dup⟩
    rcases dup with _ | d
    · -- fresh insertion
      obtain ⟨hw1, ⟨pre, post, hL0, hL1⟩, hne⟩ :=
        insert_fresh_spec hwf (by exact hvpath) hins
      rcases ht1 : t1 with _ | r1
      · rw [ht1] at hL1
        have hL1' : ([] : List info) = pre ++ newInfo path fi :: post := hL1
        simp at hL1'
      rw [ht1] at hL1 hw1 hins
      obtain ⟨hwr1, hvr1⟩ := hw1
      have hfl : (newInfo path fi).flags = 0 := rfl
      have hfmem : newInfo path fi ∈ deliter r1 := by
        show newInfo path fi ∈ leavesT (some r1)
        rw [hL1]
        exact List.mem_append_right _ (List.mem_cons_self _ _)
      have hblp : (bestLeaf r1 path).path = path := by
        refine bestLeaf_of_mem hwr1 ?_
        have := mem_keys_of_deliter hfmem
        exact this
      have hbest : bestLeaf r1 path = newInfo path fi := by
        refine eq_of_mem_same_path (deliter_pairwise hwr1)
          (bestLeaf_mem r1 path) hfmem ?_
        rw [hblp]
        rfl
      have hmemold : ∀ i ∈ leavesT st.1.t, i ∈ deliter r1 := by
        intro i hi
        show i ∈ leavesT (some r1)
        rw [hL1]
        rw [hL0] at hi
        rcases List.mem_append.1 hi with hi | hi
        · exact List.mem_append_left _ hi
        · exact List.mem_append_right _ (List.mem_cons_of_mem _ hi)
      have hmemoldne : ∀ i ∈ leavesT st.1.t, i.path ≠ (bestLeaf r1 path).path := by
        intro i hi
        rw [hblp]
        exact hne i hi
      have hinv1 : ∀ i ∈ deliter r1,
          i ∈ leavesT st.1.t ∨ (i.path = path ∧ i.flags &&& explicit = 0) := by
        intro i hi
        have hi2 : i ∈ leavesT (some r1) := hi
        rw [hL1] at hi2
        rcases List.mem_append.1 hi2 with hi2 | hi2
        · refine Or.inl ?_
          rw [hL0]
          exact List.mem_append_left _ hi2
        · rcases List.mem_cons.1 hi2 with hi2 | hi2
          · refine Or.inr ?_
            rw [hi2]
            refine ⟨rfl, ?_⟩
            show (newInfo path fi).flags &&& explicit = 0
            rw [hfl]
            decide
          · refine Or.inl ?_
            rw [hL0]
            exact List.mem_append_right _ hi2
      rcases hig : filt (newInfo path fi) with _ | _
      · -- filtered out: mark ignored
        have heval : walkerStep filt root flags event st path fi
            = (({st.1 with t := (tree.updL (some r1) path
                  (fun i => {i with flags := i.flags ||| ignored}))}, st.2),
               if fi.isDir then some .skipDir else none) := by
          simp only [walkerStep]
          rw [if_neg hpr, hins, hig]
          rfl
        rw [heval]
        refine ⟨?_, rfl, ?_, ?_, ?_, ?_, ?_⟩
        · exact @updL_wfT (some r1)
            (fun i => {i with flags := i.flags ||| ignored})
            (fun i => rfl) path ⟨hwr1, hvr1⟩
        · intro i hi
          exact updRef_mem_ne _ r1 i (hmemold i hi) (hmemoldne i hi)
        · intro i hi
          rcases updRef_mem_inv _ r1 i hi with hi | hi
          · exact (hinv1 i hi).imp (fun h => h) (fun h => ⟨hpr, h⟩)
          · rw [hi, hbest]
            refine Or.inr ⟨hpr, rfl, ?_⟩
            show ((newInfo path fi).flags ||| ignored) &&& explicit = 0
            rw [hfl]
            decide
        · rcases fi.isDir with _ | _
          · exact Or.inl rfl
          · exact Or.inr rfl
        · intro p hp
          exact Or.inl hp
        · intro _
          refine ⟨(fun i => {i with flags := i.flags ||| ignored})
            (bestLeaf r1 path), updRef_mem_self _ _ _, ?_⟩
          rw [hblp]
      · rcases hwc : watchFilter (newInfo path fi) with _ | _
        · -- plain fresh entry, no kernel watch
          have heval : walkerStep filt root flags event st path fi
              = (({st.1 with t := some r1},
                  if event ≠ 0 then st.2 ++ [newInfo path fi] else st.2),
                 if fi.isDir = true ∧ flags &&& recurse = 0
                  then some .skipDir else none) := by
            simp only [walkerStep]
            rw [if_neg hpr, hins, hig, hwc]
            rfl
          rw [heval]
          refine ⟨⟨hwr1, hvr1⟩, rfl, ?_, ?_, ?_, ?_, ?_⟩
          · intro i hi
            exact hmemold i hi
          · intro i hi
            exact (hinv1 i hi).imp (fun h => h) (fun h => ⟨hpr, h⟩)
          · rcases h5 : (if fi.isDir = true ∧ flags &&& recurse = 0
                then (some goerr.skipDir) else none) with _ | e
            · exact Or.inl rfl
            · refine Or.inr ?_
              split at h5
              · rw [← h5]
              · cases h5
          · intro p hp
            exact Or.inl hp
          · intro _
            exact ⟨newInfo path fi, hfmem, rfl⟩
        · -- fresh directory entry: set a kernel watch
          have heval : walkerStep filt root flags event st path fi
              = (({st.1 with
                    t := (tree.updL (some r1) path
                      (fun i => {i with watch := some st.1.nextFd})),
                    fdmap := st.1.fdmap ++ [(st.1.nextFd, path)],
                    nextFd := st.1.nextFd + 1},
                  if event ≠ 0
                    then st.2 ++ [{newInfo path fi with
                      watch := some st.1.nextFd}]
                    else st.2),
                 if fi.isDir = true ∧ flags &&& recurse = 0
                  then some .skipDir else none) := by
            simp only [walkerStep]
            rw [if_neg hpr, hins, hig, hwc]
            rfl
          rw [heval]
          refine ⟨?_, rfl, ?_, ?_, ?_, ?_, ?_⟩
          · exact @updL_wfT (some r1) (fun i => {i with watch := some st.1.nextFd})
              (fun i => rfl) path ⟨hwr1, hvr1⟩
          · intro i hi
            exact updRef_mem_ne _ r1 i (hmemold i hi) (hmemoldne i hi)
          · intro i hi
            rcases updRef_mem_inv _ r1 i hi with hi | hi
            · exact (hinv1 i hi).imp (fun h => h) (fun h => ⟨hpr, h⟩)
            · rw [hi, hbest]
              refine Or.inr ⟨hpr, rfl, ?_⟩
              show (newInfo path fi).flags &&& explicit = 0
              rw [hfl]
              decide
          · rcases h5 : (if fi.isDir = true ∧ flags &&& recurse = 0
                then (some goerr.skipDir) else none) with _ | e
            · exact Or.inl rfl
            · refine Or.inr ?_
              split at h5
              · rw [← h5]
              · cases h5
          · intro p hp
            rcases List.mem_append.1 hp with hp | hp
            · exact Or.inl hp
            · rw [List.mem_singleton] at hp
              refine Or.inr ⟨(fun i => {i with watch := some st.1.nextFd})
                (bestLeaf r1 path), updRef_mem_self _ _ _, ?_, ?_⟩
              · rw [hp, hblp]
              · rw [hp, hbest]
          · intro _
            refine ⟨(fun i => {i with watch := some st.1.nextFd})
              (bestLeaf r1 path), updRef_mem_self _ _ _, ?_⟩
            rw [hblp]
    · -- duplicate: the walker skips
      obtain ⟨ht1, hdm, hdp⟩ := insert_dup_spec hwf (by exact hvpath) hins
      have heval : walkerStep filt root flags event st path fi
          = (st, some .skipDir) := by
        simp only [walkerStep]
        rw [if_neg hpr, hins]
      rw [heval]
      exact ⟨hwf, rfl, fun i hi => hi, fun i hi => Or.inl hi, Or.inr rfl,
        fun p hp => Or.inl hp, fun _ => ⟨d, hdm, hdp⟩⟩

/-! ### The recursive walk of `filepath.Walk` -/

theorem foldl_inv {α β : Type} (P : α → Prop) (f : α → β → α) :
    ∀ (l : List β) (a : α), P a → (∀ x, P x → ∀ b ∈ l, P (f x b)) →
    P (l.foldl f a) := by
  intro l
  induction l with
  | nil => intro a ha _; exact ha
  | cons b l ih =>
    intro a ha hstep
    exact ih (f a b) (hstep a ha b (by simp))
      (fun x hx c hc => hstep x hx c (by simp [hc]))

theorem mem_insSorted (x y : List Nat × fsEntry) :
    ∀ l, y ∈ insSorted x l ↔ y = x ∨ y ∈ l := by
  intro l
  induction l with
  | nil =>
    show y ∈ [x] ↔ _
    simp
  | cons z l ih =>
    show y ∈ (if lexLe x.1 z.1 then x :: z :: l else z :: insSorted x l) ↔ _
    split
    · simp
    · rw [List.mem_cons, ih, List.mem_cons]
      tauto

theorem mem_foldr_insSorted (y : List Nat × fsEntry) :
    ∀ l acc : List (List Nat × fsEntry),
    y ∈ l.foldr insSorted acc ↔ y ∈ l ∨ y ∈ acc := by
  intro l
  induction l with
  | nil => intro acc; simp
  | cons x l ih =>
    intro acc
    show y ∈ insSorted x (l.foldr insSorted acc) ↔ _
    rw [mem_insSorted, ih, List.mem_cons]
    tauto

theorem childEntries_src {fs : List (List Nat × fsEntry)} {d : List Nat}
    {c : List Nat × fsEntry} (h : c ∈ childEntries fs d) :
    ∃ e ∈ fs, c.1 = e.1.drop (d.length + 1) := by
  unfold childEntries at h
  rw [mem_foldr_insSorted] at h
  rcases h with h | h
  · obtain ⟨e, he, hfe⟩ := List.mem_filterMap.1 h
    refine ⟨e, he, ?_⟩
    split at hfe
    · have hfe2 : (if List.drop (d.length + 1) e.1 ≠ []
            ∧ sep ∉ List.drop (d.length + 1) e.1
          then some (List.drop (d.length + 1) e.1, e.2) else none)
          = some c := hfe
      split at hfe2
      · injection hfe2 with hfe2
        rw [← hfe2]
      · cases hfe2
    · cases hfe
  · cases h

theorem childEntries_valid {fs : List (List Nat × fsEntry)} {d : List Nat}
    (hvfs : ∀ e ∈ fs, validPath e.1) {c : List Nat × fsEntry}
    (h : c ∈ childEntries fs d) : validPath c.1 := by
  obtain ⟨e, he, hc⟩ := childEntries_src h
  rw [hc]
  intro b hb
  exact hvfs e he b (List.mem_of_mem_drop hb)

theorem validPath_child {d nm : List Nat} (hd : validPath d)
    (hnm : validPath nm) : validPath (d ++ sep :: nm) := by
  intro b hb
  rcases List.mem_append.1 hb with hb | hb
  · exact hd b hb
  · rcases List.mem_cons.1 hb with hb | hb
    · rw [hb]
      unfold validByte sep
      omega
    · exact hnm b hb

theorem pref_child {root d nm : List Nat}
    (h : d = root ∨ (root ++ [sep]).isPrefixOf d = true) :
    (root ++ [sep]).isPrefixOf (d ++ sep :: nm) = true := by
  rw [List.isPrefixOf_iff_prefix]
  rcases h with h | h
  · rw [h]
    exact ⟨nm, by simp⟩
  · obtain ⟨t, ht⟩ := List.isPrefixOf_iff_prefix.1 h
    exact ⟨t ++ sep :: nm, by rw [← List.append_assoc, ht]⟩

/-- The per-child accumulator function of `fsWalk`'s directory loop. -/
def walkChildFold (fs : List (List Nat × fsEntry)) (filt : info → Bool)
    (root : List Nat) (flags event fuel : Nat) (d : List Nat) :
    ((WState × List info) × Option goerr) → (List Nat × fsEntry) →
    ((WState × List info) × Option goerr) :=
  fun acc c =>
    match acc with
    | (st2, some e) => (st2, some e)
    | (st2, none) =>
      match fsWalk fs filt root flags event fuel st2 (d ++ sep :: c.1) c.2 with
      | (st3, none) => (st3, none)
      | (st3, some e) =>
        if c.2.isDir = false ∨ e ≠ .skipDir then (st3, some e) else (st3, none)

theorem walkChildFold_frozen (fs : List (List Nat × fsEntry))
    (filt : info → Bool) (root : List Nat) (flags event fuel : Nat)
    (d : List Nat) : ∀ (C : List (List Nat × fsEntry))
    (st2 : WState × List info) (e : goerr),
    C.foldl (walkChildFold fs filt root flags event fuel d) (st2, some e)
      = (st2, some e) := by
  intro C
  induction C with
  | nil => intro st2 e; rfl
  | cons c C ih =>
    intro st2 e
    show C.foldl _ (walkChildFold fs filt root flags event fuel d (st2, some e) c)
      = _
    rw [show walkChildFold fs filt root flags event fuel d (st2, some e) c
      = (st2, some e) from rfl]
    exact ih st2 e

/-- Invariants of the recursive walk: well-formedness and the open flag are
preserved, existing entries persist, new entries sit strictly below `root`
with no `EXPLICIT` flag, the only error produced is the skip sentinel, new
`fdmap` pairs are backed by a live watch in the index, and a visited
non-root path is present afterwards. -/
theorem fsWalk_main (fs : List (List Nat × fsEntry)) (filt : info → Bool)
    (root : List Nat) (flags event : Nat)
    (hvfs : ∀ e ∈ fs, validPath e.1) :
    ∀ (fuel : Nat) (st : WState × List info) (path : List Nat) (fi : fsEntry),
    wfT st.1.t → validPath path →
    (path = root ∨ (root ++ [sep]).isPrefixOf path = true) →
    wfT (fsWalk fs filt root flags event fuel st path fi).1.1.t
    ∧ (fsWalk fs filt root flags event fuel st path fi).1.1.fdOpen
        = st.1.fdOpen
    ∧ (∀ i ∈ leavesT st.1.t,
        i ∈ leavesT (fsWalk fs filt root flags event fuel st path fi).1.1.t)
    ∧ (∀ i ∈ leavesT (fsWalk fs filt root flags event fuel st path fi).1.1.t,
        i ∈ leavesT st.1.t
        ∨ ((root ++ [sep]).isPrefixOf i.path = true
            ∧ i.flags &&& explicit = 0))
    ∧ ((fsWalk fs filt root flags event fuel st path fi).2 = none
        ∨ (fsWalk fs filt root flags event fuel st path fi).2 = some .skipDir)
    ∧ (∀ p ∈ (fsWalk fs filt root flags event fuel st path fi).1.1.fdmap,
        p ∈ st.1.fdmap
        ∨ ∃ E ∈ leavesT (fsWalk fs filt root flags event fuel st path fi).1.1.t,
            E.path = p.2 ∧ E.watch = some p.1)
    ∧ (0 < fuel → path ≠ root →
        ∃ i ∈ leavesT (fsWalk fs filt root flags event fuel st path fi).1.1.t,
          i.path = path) := by
  intro fuel
  induction fuel with
  | zero =>
    intro st path fi hwf hvp hpp
    exact ⟨hwf, rfl, fun i hi => hi, fun i hi => Or.inl hi, Or.inl rfl,
      fun p hp => Or.inl hp, fun h0 _ => absurd h0 (by omega)⟩
  | succ fuel ih =>
    intro st path fi hwf hvp hpp
    obtain ⟨w1, w2, w3, w4, w5, w6, w7⟩ :=
      walkerStep_main filt root flags event st path fi hwf hvp
    have hpref : ∀ i : info, i.path = path → path ≠ root →
        (root ++ [sep]).isPrefixOf i.path = true := by
      intro i hip hnr
      rw [hip]
      rcases hpp with h | h
      · exact absurd h hnr
      · exact h
    rcases hws : walkerStep filt root flags event st path fi with ⟨st1, e1⟩
    have w1' : wfT st1.1.t := by rw [hws] at w1; exact w1
    have w2' : st1.1.fdOpen = st.1.fdOpen := by rw [hws] at w2; exact w2
    have w3' : ∀ i ∈ leavesT st.1.t, i ∈ leavesT st1.1.t := by
      rw [hws] at w3; exact w3
    have w4' : ∀ i ∈ leavesT st1.1.t, i ∈ leavesT st.1.t
        ∨ ((root ++ [sep]).isPrefixOf i.path = true
            ∧ i.flags &&& explicit = 0) := by
      rw [hws] at w4
      intro i hi
      rcases w4 i hi with h | ⟨hnr, hip, hfl⟩
      · exact Or.inl h
      · exact Or.inr ⟨hpref i hip hnr, hfl⟩
    have w6' : ∀ p ∈ st1.1.fdmap, p ∈ st.1.fdmap
        ∨ ∃ E ∈ leavesT st1.1.t, E.path = p.2 ∧ E.watch = some p.1 := by
      rw [hws] at w6; exact w6
    have w7' : path ≠ root → ∃ i ∈ leavesT st1.1.t, i.path = path := by
      rw [hws] at w7; exact w7
    rcases e1 with _ | e
    · rcases hfd : fi.isDir with _ | _
      · -- plain file: the walk stops here
        have heval : fsWalk fs filt root flags event (fuel + 1) st path fi
            = (st1, none) := by
          simp only [fsWalk]
          rw [hws]
          simp only []
          rw [hfd, if_pos rfl]
        rw [heval]
        exact ⟨w1', w2', w3', w4', Or.inl rfl, w6', fun _ => w7'⟩
      · -- directory: loop over the children
        have heval : fsWalk fs filt root flags event (fuel + 1) st path fi
            = (childEntries fs path).foldl
                (walkChildFold fs filt root flags event fuel path)
                (st1, none) := by
          simp only [fsWalk]
          rw [hws]
          simp only []
          rw [hfd]
          rfl
        rw [heval]
        have hfold := foldl_inv (fun acc =>
            wfT acc.1.1.t
            ∧ acc.1.1.fdOpen = st1.1.fdOpen
            ∧ (∀ i ∈ leavesT st1.1.t, i ∈ leavesT acc.1.1.t)
            ∧ (∀ i ∈ leavesT acc.1.1.t, i ∈ leavesT st1.1.t
                ∨ ((root ++ [sep]).isPrefixOf i.path = true
                    ∧ i.flags &&& explicit = 0))
            ∧ (acc.2 = none ∨ acc.2 = some goerr.skipDir)
            ∧ (∀ p ∈ acc.1.1.fdmap, p ∈ st1.1.fdmap
                ∨ ∃ E ∈ leavesT acc.1.1.t, E.path = p.2 ∧ E.watch = some p.1))
          (walkChildFold fs filt root flags event fuel path)
          (childEntries fs path) (st1, none)
          ⟨w1', rfl, fun i hi => hi, fun i hi => Or.inl hi, Or.inl rfl,
            fun p hp => Or.inl hp⟩
          (by
            rintro ⟨stx, ex⟩ ⟨p1, p2, p3, p4, p5, p6⟩ c hc
            rcases ex with _ | e
            · -- continue into this child
              obtain ⟨s1c, s2c, s3c, s4c, s5c, s6c, s7c⟩ :=
                ih stx (path ++ sep :: c.1) c.2 p1
                  (validPath_child hvp (childEntries_valid hvfs hc))
                  (Or.inr (pref_child hpp))
              rcases hsw : fsWalk fs filt root flags event fuel stx
                  (path ++ sep :: c.1) c.2 with ⟨st3, e3⟩
              have s1c' : wfT st3.1.t := by rw [hsw] at s1c; exact s1c
              have s2c' : st3.1.fdOpen = stx.1.fdOpen := by
                rw [hsw] at s2c; exact s2c
              have s3c' : ∀ i ∈ leavesT stx.1.t, i ∈ leavesT st3.1.t := by
                rw [hsw] at s3c; exact s3c
              have s4c' : ∀ i ∈ leavesT st3.1.t, i ∈ leavesT stx.1.t
                  ∨ ((root ++ [sep]).isPrefixOf i.path = true
                      ∧ i.flags &&& explicit = 0) := by
                rw [hsw] at s4c; exact s4c
              have s5c' : e3 = none ∨ e3 = some goerr.skipDir := by
                rw [hsw] at s5c; exact s5c
              have s6c' : ∀ p ∈ st3.1.fdmap, p ∈ stx.1.fdmap
                  ∨ ∃ E ∈ leavesT st3.1.t, E.path = p.2 ∧ E.watch = some p.1 := by
                rw [hsw] at s6c; exact s6c
              have hcomp : wfT st3.1.t
                  ∧ st3.1.fdOpen = st1.1.fdOpen
                  ∧ (∀ i ∈ leavesT st1.1.t, i ∈ leavesT st3.1.t)
                  ∧ (∀ i ∈ leavesT st3.1.t, i ∈ leavesT st1.1.t
                      ∨ ((root ++ [sep]).isPrefixOf i.path = true
                          ∧ i.flags &&& explicit = 0))
                  ∧ (∀ p ∈ st3.1.fdmap, p ∈ st1.1.fdmap
                      ∨ ∃ E ∈ leavesT st3.1.t, E.path = p.2
                          ∧ E.watch = some p.1) := by
                refine ⟨s1c', by rw [s2c', p2], ?_, ?_, ?_⟩
                · intro i hi
                  exact s3c' i (p3 i hi)
                · intro i hi
                  rcases s4c' i hi with h | h
                  · exact p4 i h
                  · exact Or.inr h
                · intro p hp
                  rcases s6c' p hp with h | h
                  · rcases p6 p h with h2 | ⟨E, hE, hE2⟩
                    · exact Or.inl h2
                    · exact Or.inr ⟨E, s3c' E hE, hE2⟩
                  · exact Or.inr h
              obtain ⟨c1, c2, c3, c4, c6⟩ := hcomp
              have hstep : walkChildFold fs filt root flags event fuel path
                  (stx, none) c
                  = (match ((st3, e3) : (WState × List info) × Option goerr) with
                    | (st3, none) => (st3, none)
                    | (st3, some e) =>
                      if c.2.isDir = false ∨ e ≠ .skipDir
                        then (st3, some e) else (st3, none)) := by
                show (match fsWalk fs filt root flags event fuel stx
                    (path ++ sep :: c.1) c.2 with
                  | (st3, none) => (st3, none)
                  | (st3, some e) =>
                    if c.2.isDir = false ∨ e ≠ .skipDir
                      then (st3, some e) else (st3, none)) = _
                rw [hsw]
              rw [hstep]
              rcases e3 with _ | e
              · exact ⟨c1, c2, c3, c4, Or.inl rfl, c6⟩
              · have he : e = goerr.skipDir := by
                  rcases s5c' with h | h
                  · cases h
                  · injection h
                by_cases hcd : c.2.isDir = false ∨ e ≠ goerr.skipDir
                · have hred : (match ((st3, some e) :
                      (WState × List info) × Option goerr) with
                    | (st3, none) => (st3, none)
                    | (st3, some e) =>
                      if c.2.isDir = false ∨ e ≠ .skipDir
                        then (st3, some e) else (st3, none))
                      = (st3, some e) := by
                    simp only []
                    rw [if_pos hcd]
                  rw [hred]
                  refine ⟨c1, c2, c3, c4, Or.inr ?_, c6⟩
                  rw [he]
                · have hred : (match ((st3, some e) :
                      (WState × List info) × Option goerr) with
                    | (st3, none) => (st3, none)
                    | (st3, some e) =>
                      if c.2.isDir = false ∨ e ≠ .skipDir
                        then (st3, some e) else (st3, none))
                      = (st3, none) := by
                    simp only []
                    rw [if_neg hcd]
                  rw [hred]
                  exact ⟨c1, c2, c3, c4, Or.inl rfl, c6⟩
            · -- already aborted: the accumulator passes through
              exact ⟨p1, p2, p3, p4, p5, p6⟩)
        obtain ⟨f1, f2, f3, f4, f5, f6⟩ := hfold
        refine ⟨f1, by rw [f2, w2'], ?_, ?_, f5, ?_, ?_⟩
        · intro i hi
          exact f3 i (w3' i hi)
        · intro i hi
          rcases f4 i hi with h | h
          · exact w4' i h
          · exact Or.inr h
        · intro p hp
          rcases f6 p hp with h | h
          · rcases w6' p h with h2 | ⟨E, hE, hE2⟩
            · exact Or.inl h2
            · exact Or.inr ⟨E, f3 E hE, hE2⟩
          · exact Or.inr h
        · intro _ hnr
          obtain ⟨i, hi, hip⟩ := w7' hnr
          exact ⟨i, f3 i hi, hip⟩
    · -- the walker returned the skip sentinel
      have he : e = goerr.skipDir := by
        rw [hws] at w5
        rcases w5 with h | h
        · cases h
        · injection h
      by_cases hcond : fi.isDir = true ∧ e = goerr.skipDir
      · have heval : fsWalk fs filt root flags event (fuel + 1) st path fi
            = (st1, none) := by
          simp only [fsWalk]
          rw [hws]
          simp only []
          rw [if_pos hcond]
        rw [heval]
        exact ⟨w1', w2', w3', w4', Or.inl rfl, w6', fun _ => w7'⟩
      · have heval : fsWalk fs filt root flags event (fuel + 1) st path fi
            = (st1, some e) := by
          simp only [fsWalk]
          rw [hws]
          simp only []
          rw [if_neg hcond]
        rw [heval]
        refine ⟨w1', w2', w3', w4', Or.inr ?_, w6', fun _ => w7'⟩
        rw [he]

theorem path_child_ne (d nm : List Nat) : d ++ sep :: nm ≠ d := by
  intro hc
  have hlen := congrArg List.length hc
  simp at hlen

theorem or_or_self (a b : Nat) : a ||| b ||| b = a ||| b := by
  rw [Nat.or_assoc, Nat.or_self]

theorem walkChildFold_fst (fs : List (List Nat × fsEntry)) (filt : info → Bool)
    (root : List Nat) (flags event fuel : Nat) (d : List Nat)
    (stx : WState × List info) (c : List Nat × fsEntry) :
    (walkChildFold fs filt root flags event fuel d (stx, none) c).1
      = (fsWalk fs filt root flags event fuel stx (d ++ sep :: c.1) c.2).1 := by
  show (match fsWalk fs filt root flags event fuel stx (d ++ sep :: c.1) c.2 with
    | (st3, none) => (st3, none)
    | (st3, some e) =>
      if c.2.isDir = false ∨ e ≠ .skipDir
        then (st3, some e) else (st3, none)).1 = _
  rcases hsw : fsWalk fs filt root flags event fuel stx (d ++ sep :: c.1) c.2
    with ⟨st3, e3⟩
  rcases e3 with _ | e
  · rfl
  · show (if c.2.isDir = false ∨ e ≠ goerr.skipDir
      then (st3, some e) else (st3, none)).1 = st3
    split
    · rfl
    · rfl

theorem walkChildFold_mono (fs : List (List Nat × fsEntry))
    (filt : info → Bool) (root : List Nat) (flags event fuel : Nat)
    (d : List Nat) (hvfs : ∀ e ∈ fs, validPath e.1) (hvd : validPath d)
    (hdpp : d = root ∨ (root ++ [sep]).isPrefixOf d = true)
    (C : List (List Nat × fsEntry)) (hCv : ∀ c ∈ C, validPath c.1)
    (acc : (WState × List info) × Option goerr) (hwa : wfT acc.1.1.t) :
    wfT ((C.foldl (walkChildFold fs filt root flags event fuel d) acc)).1.1.t
    ∧ ∀ i ∈ leavesT acc.1.1.t,
        i ∈ leavesT
          ((C.foldl (walkChildFold fs filt root flags event fuel d) acc)).1.1.t := by
  refine foldl_inv (fun x => wfT x.1.1.t
      ∧ ∀ i ∈ leavesT acc.1.1.t, i ∈ leavesT x.1.1.t)
    (walkChildFold fs filt root flags event fuel d) C acc
    ⟨hwa, fun i hi => hi⟩ ?_
  rintro ⟨stx, ex⟩ ⟨hx1, hx2⟩ c hc
  rcases ex with _ | e
  · obtain ⟨s1c, _, s3c, _, _, _, _⟩ :=
      fsWalk_main fs filt root flags event hvfs fuel stx (d ++ sep :: c.1) c.2
        hx1 (validPath_child hvd (hCv c hc)) (Or.inr (pref_child hdpp))
    constructor
    · rw [walkChildFold_fst fs filt root flags event fuel d stx c]
      exact s1c
    · intro i hi
      rw [walkChildFold_fst fs filt root flags event fuel d stx c]
      exact s3c i (hx2 i hi)
  · exact ⟨hx1, hx2⟩

theorem fsWalk_dup_eq (fs : List (List Nat × fsEntry)) (filt : info → Bool)
    (root : List Nat) (flags event fuel : Nat) (st : WState × List info)
    (path : List Nat) (fi : fsEntry) (hpr : path ≠ root) {D : info}
    (hget : tree.get st.1.t path = some D) :
    fsWalk fs filt root flags event (fuel + 1) st path fi
      = (st, if fi.isDir = true then none else some .skipDir) := by
  have hins : tree.insert st.1.t (newInfo path fi) = (st.1.t, some D) :=
    insert_dup (newInfo path fi) hget
  have hws : walkerStep filt root flags event st path fi
      = (st, some .skipDir) := by
    simp only [walkerStep]
    rw [if_neg hpr, hins]
  simp only [fsWalk]
  rw [hws]
  simp only []
  rcases hfd : fi.isDir with _ | _
  · rw [if_neg (by simp), if_neg (by simp)]
  · rw [if_pos (by simp), if_pos rfl]

/-- A second pass of `loadImpl`'s child loop, started from the final state
of a first pass, leaves the state untouched and returns at most the skip
sentinel: every child it can reach is already cached, so the duplicate
check fires. -/
theorem loadFold_idem (fs : List (List Nat × fsEntry)) (filt : info → Bool)
    (P : List Nat) (flags event fuel : Nat)
    (hvfs : ∀ e ∈ fs, validPath e.1) (hvP : validPath P)
    (T1 : tree) (hwT1 : wfT T1) (v : WState × List info) (hvT : v.1.t = T1) :
    ∀ (C : List (List Nat × fsEntry)), (∀ c ∈ C, validPath c.1) →
    ∀ (u : WState × List info), wfT u.1.t →
    (∀ i ∈ leavesT (C.foldl
        (walkChildFold fs filt P flags event (fuel + 1) P) (u, none)).1.1.t,
      i ∈ leavesT T1) →
    ∃ e2, C.foldl (walkChildFold fs filt P flags event (fuel + 1) P) (v, none)
        = (v, e2) ∧ (e2 = none ∨ e2 = some goerr.skipDir) := by
  intro C
  induction C with
  | nil =>
    intro _ u _ _
    exact ⟨none, rfl, Or.inl rfl⟩
  | cons c C ihC =>
    intro hCv u hwu hsub
    obtain ⟨m1, m2, m3, m4, m5, m6, m7⟩ :=
      fsWalk_main fs filt P flags event hvfs (fuel + 1) u (P ++ sep :: c.1) c.2
        hwu (validPath_child hvP (hCv c (by simp)))
        (Or.inr (pref_child (Or.inl rfl)))
    rcases hsw1 : fsWalk fs filt P flags event (fuel + 1) u
        (P ++ sep :: c.1) c.2 with ⟨v1, e1⟩
    have hwv1 : wfT v1.1.t := by rw [hsw1] at m1; exact m1
    have hpres1 : ∃ i ∈ leavesT v1.1.t, i.path = P ++ sep :: c.1 := by
      rw [hsw1] at m7
      exact m7 (by omega) (path_child_ne P c.1)
    have he1 : e1 = none ∨ e1 = some goerr.skipDir := by
      rw [hsw1] at m5
      exact m5
    -- the value of this child's step in the first pass
    have hstep1 : walkChildFold fs filt P flags event (fuel + 1) P (u, none) c
        = (if c.2.isDir = false ∧ e1 ≠ none then (v1, e1) else (v1, none)) := by
      show (match fsWalk fs filt P flags event (fuel + 1) u
          (P ++ sep :: c.1) c.2 with
        | (st3, none) => (st3, none)
        | (st3, some e) =>
          if c.2.isDir = false ∨ e ≠ .skipDir
            then (st3, some e) else (st3, none)) = _
      rw [hsw1]
      rcases he1 with he1' | he1'
      · subst he1'
        simp
      · subst he1'
        rcases hcd : c.2.isDir with _ | _
        · simp [hcd]
        · simp [hcd]
    -- the child's path is present in the final first-pass index
    have hpresT : ∃ i ∈ leavesT T1, i.path = P ++ sep :: c.1 := by
      rw [List.foldl_cons, hstep1] at hsub
      by_cases hab : c.2.isDir = false ∧ e1 ≠ none
      · rw [if_pos hab] at hsub
        have he1s : e1 = some goerr.skipDir := by
          rcases he1 with h | h
          · exact absurd h hab.2
          · exact h
        rw [he1s, walkChildFold_frozen] at hsub
        obtain ⟨i, hi, hip⟩ := hpres1
        exact ⟨i, hsub i hi, hip⟩
      · rw [if_neg hab] at hsub
        obtain ⟨_, hmono⟩ := walkChildFold_mono fs filt P flags event (fuel + 1)
          P hvfs hvP (Or.inl rfl) C (fun x hx => hCv x (by simp [hx]))
          (v1, none) hwv1
        obtain ⟨i, hi, hip⟩ := hpres1
        exact ⟨i, hsub i (hmono i hi), hip⟩
    obtain ⟨iD, hiD, hiDp⟩ := hpresT
    rcases hT1r : T1 with _ | rT
    · rw [hT1r] at hiD
      cases hiD
    have hget2 : tree.get v.1.t (P ++ sep :: c.1) = some iD := by
      rw [hvT, hT1r]
      rw [hT1r] at hwT1 hiD
      exact (get_char hwT1.1).2 ⟨hiD, hiDp⟩
    have hsw2 : fsWalk fs filt P flags event (fuel + 1) v (P ++ sep :: c.1) c.2
        = (v, if c.2.isDir = true then none else some .skipDir) :=
      fsWalk_dup_eq fs filt P flags event fuel v (P ++ sep :: c.1) c.2
        (path_child_ne P c.1) hget2
    rcases hcd : c.2.isDir with _ | _
    · -- a cached file child aborts the second pass with the state unchanged
      have hstep2 : walkChildFold fs filt P flags event (fuel + 1) P
          (v, none) c = (v, some goerr.skipDir) := by
        show (match fsWalk fs filt P flags event (fuel + 1) v
            (P ++ sep :: c.1) c.2 with
          | (st3, none) => (st3, none)
          | (st3, some e) =>
            if c.2.isDir = false ∨ e ≠ .skipDir
              then (st3, some e) else (st3, none)) = _
        rw [hsw2, hcd]
        simp
      rw [List.foldl_cons, hstep2, walkChildFold_frozen]
      exact ⟨some goerr.skipDir, rfl, Or.inr rfl⟩
    · -- a cached directory child is skipped; recurse over the rest
      have hstep2 : walkChildFold fs filt P flags event (fuel + 1) P
          (v, none) c = (v, none) := by
        show (match fsWalk fs filt P flags event (fuel + 1) v
            (P ++ sep :: c.1) c.2 with
          | (st3, none) => (st3, none)
          | (st3, some e) =>
            if c.2.isDir = false ∨ e ≠ .skipDir
              then (st3, some e) else (st3, none)) = _
        rw [hsw2, hcd]
        simp
      rw [List.foldl_cons, hstep2]
      -- the first pass also entered this directory as a no-abort step
      have hstep1' : walkChildFold fs filt P flags event (fuel + 1) P
          (u, none) c = (v1, none) := by
        rw [hstep1]
        rw [if_neg (by rw [hcd]; simp)]
      refine ihC (fun x hx => hCv x (by simp [hx])) v1 hwv1 ?_
      rw [List.foldl_cons, hstep1'] at hsub
      exact hsub

/-- The kernel-flag word passed by `load`. -/
def loadFlags (recursive : Bool) : Nat :=
  explicit ||| (if recursive then recurse else 0)

theorem load_open_eq (fs : List (List Nat × fsEntry)) (filt : info → Bool)
    (s : WState) (path : List Nat) (recursive : Bool)
    (ho : s.fdOpen = true) :
    load fs filt s path recursive
      = (match loadImpl fs filt s path (loadFlags recursive) 0 with
        | (s2, h, some .skipDir) => (s2, h, none)
        | (s2, h, e) => (s2, h, e)) := by
  simp only [load]
  rw [ho]
  rfl

theorem walkerStep_root_eq (filt : info → Bool) (root : List Nat)
    (flags event : Nat) (st : WState × List info) (fi : fsEntry) :
    walkerStep filt root flags event st root fi = (st, none) := by
  simp only [walkerStep]
  simp

theorem fsWalk_top_eq (fs : List (List Nat × fsEntry)) (filt : info → Bool)
    (P : List Nat) (F event : Nat) (fi : fsEntry) (hdir : fi.isDir = true)
    (st : WState × List info) :
    fsWalk fs filt P F event (fsFuel fs) st P fi
      = (childEntries fs P).foldl
          (walkChildFold fs filt P F event
            (fs.length + (fs.map (fun e => e.1.length)).sum + 1) P)
          (st, none) := by
  have hNF : fsFuel fs
      = (fs.length + (fs.map (fun e => e.1.length)).sum + 1) + 1 := rfl
  rw [hNF]
  simp only [fsWalk]
  rw [walkerStep_root_eq]
  simp only []
  rw [hdir]
  rw [if_neg (by simp)]
  rfl

/-- The common tail of the `load`-idempotence argument: knowing the final
state of a first successful `load` and its child-loop equation, a second
`load` of the same directory changes nothing. -/
theorem load_idem_tail (fs : List (List Nat × fsEntry)) (filt : info → Bool)
    (P : List Nat) (fi : fsEntry)
    (hvfs : ∀ e ∈ fs, validPath e.1) (hvP : validPath P)
    (hff : fsFind fs P = some fi) (hdir : fi.isDir = true)
    (hfl : filt (newInfo P fi) = true)
    (S2c s1 : WState) (lst : List info) (err : Option goerr)
    (hwS2 : wfT S2c.t) (hoS2 : S2c.fdOpen = true)
    (EP : info) (hEPmem : EP ∈ leavesT S2c.t) (hEPpath : EP.path = P)
    (hEPf : EP.flags ||| ({newInfo P fi with
        flags := (newInfo P fi).flags ||| loadFlags true}).flags = EP.flags)
    (hfold1 : (childEntries fs P).foldl
        (walkChildFold fs filt P (loadFlags true) 0
          (fs.length + (fs.map (fun e => e.1.length)).sum + 1) P)
        (((S2c, []) : WState × List info), none) = ((s1, lst), err)) :
    load fs filt s1 P true = (s1, [], none) := by
  have hwalk1 : fsWalk fs filt P (loadFlags true) 0 (fsFuel fs)
      ((S2c, []) : WState × List info) P fi = ((s1, lst), err) := by
    rw [fsWalk_top_eq fs filt P (loadFlags true) 0 fi hdir]
    exact hfold1
  obtain ⟨g1, g2, g3, g4, g5, g6, g7⟩ :=
    fsWalk_main fs filt P (loadFlags true) 0 hvfs (fsFuel fs)
      ((S2c, []) : WState × List info) P fi (by exact hwS2) hvP (Or.inl rfl)
  rw [hwalk1] at g1 g2 g3
  have hwf1 : wfT s1.t := g1
  have hopen1 : s1.fdOpen = true := by
    rw [← hoS2]
    exact g2
  have hEP1 : EP ∈ leavesT s1.t := g3 EP hEPmem
  have hget1 : tree.get s1.t P = some EP := by
    rcases ht : s1.t with _ | r1
    · rw [ht] at hEP1
      cases hEP1
    · rw [ht] at hEP1 hwf1
      exact (get_char hwf1.1).2 ⟨hEP1, hEPpath⟩
  rw [load_open_eq fs filt s1 P true hopen1]
  have hins2 : tree.insert s1.t {newInfo P fi with
      flags := (newInfo P fi).flags ||| loadFlags true} = (s1.t, some EP) :=
    insert_dup _ hget1
  have hupd : tree.updL s1.t P (fun i => {i with flags := i.flags |||
      ({newInfo P fi with
        flags := (newInfo P fi).flags ||| loadFlags true}).flags})
      = s1.t := by
    refine updL_id fun r hr => ?_
    have hb : bestLeaf r P = EP := by
      rw [hr] at hget1
      rw [get_some_eq] at hget1
      split at hget1
      · injection hget1
      · cases hget1
    rw [hb]
    show ({EP with flags := EP.flags ||| _} : info) = EP
    rw [hEPf]
  obtain ⟨e2', hfold2eq, he2'⟩ := loadFold_idem fs filt P (loadFlags true) 0
    (fs.length + (fs.map (fun e => e.1.length)).sum) hvfs hvP s1.t hwf1
    ((s1, []) : WState × List info) rfl (childEntries fs P)
    (fun c hc => childEntries_valid hvfs hc) ((S2c, []) : WState × List info)
    (by exact hwS2) (by rw [hfold1]; exact fun i hi => hi)
  have hwalk2 : fsWalk fs filt P (loadFlags true) 0 (fsFuel fs)
      ((s1, []) : WState × List info) P fi = ((s1, []), e2') := by
    rw [fsWalk_top_eq fs filt P (loadFlags true) 0 fi hdir]
    exact hfold2eq
  have hLI2 : loadImpl fs filt s1 P (loadFlags true) 0 = (s1, [], e2') := by
    simp only [loadImpl]
    rw [hff]
    simp only []
    rw [if_neg (by simp [hdir])]
    rw [hfl, if_neg (by simp)]
    rw [hins2]
    simp only []
    rw [hupd]
    rw [show ({s1 with t := s1.t} : WState) = s1 from rfl]
    rw [hwalk2]
    rfl
  rw [hLI2]
  rcases he2' with h | h
  · rw [h]
  · rw [h]

/-- **C7** (algebraic/relational, confirmed): `load(P, true)` is idempotent.
If a first `load` returned without error, issuing the same `load` again
returns the state unchanged, reports no handled entries and no error: the
root insert is a duplicate whose flag-merge adds nothing, and the second
walk sees every child it reaches as a duplicate, so it either skips it (a
directory) or aborts with the swallowed skip sentinel (a file). -/
theorem C7_load_idempotent (fs : List (List Nat × fsEntry)) (filt : info → Bool)
    (s0 : WState) (P : List Nat) (s1 : WState) (h1 : List (Nat × info))
    (hvfs : ∀ e ∈ fs, validPath e.1) (hvP : validPath P) (hwf0 : wfT s0.t)
    (hload : load fs filt s0 P true = (s1, h1, none)) :
    load fs filt s1 P true = (s1, [], none) := by
  rcases ho : s0.fdOpen with _ | _
  · exfalso
    have hcl : load fs filt s0 P true = (s0, [], some .errClosed) := by
      simp only [load]
      rw [ho]
      rfl
    rw [hcl] at hload
    have hc := congrArg (fun x => x.2.2) hload
    simp at hc
  rw [load_open_eq fs filt s0 P true ho] at hload
  rcases hff : fsFind fs P with _ | fi
  · exfalso
    have hLI : loadImpl fs filt s0 P (loadFlags true) 0
        = (s0, [], some (.pathError P)) := by
      simp only [loadImpl]
      rw [hff]
    rw [hLI] at hload
    have hload' : ((s0, [], some (goerr.pathError P)) :
        WState × List (Nat × info) × Option goerr) = (s1, h1, none) := hload
    have hc := congrArg (fun x => x.2.2) hload'
    simp at hc
  · rcases hdir : fi.isDir with _ | _
    · exfalso
      have hLI : loadImpl fs filt s0 P (loadFlags true) 0
          = (s0, [], some .errNotDir) := by
        simp only [loadImpl]
        rw [hff]
        simp only []
        rw [if_pos ⟨hdir, by decide⟩]
      rw [hLI] at hload
      have hload' : ((s0, [], some goerr.errNotDir) :
          WState × List (Nat × info) × Option goerr) = (s1, h1, none) := hload
      have hc := congrArg (fun x => x.2.2) hload'
      simp at hc
    · rcases hfl : filt (newInfo P fi) with _ | _
      · -- the root is filtered out: the state never changes
        have hLI : loadImpl fs filt s0 P (loadFlags true) 0
            = (s0, [], none) := by
          simp only [loadImpl]
          rw [hff]
          simp only []
          rw [if_neg (by simp [hdir])]
          rw [hfl, if_pos (show (!false) = true from rfl)]
        rw [hLI] at hload
        have hload' : ((s0, [], none) :
            WState × List (Nat × info) × Option goerr) = (s1, h1, none) := hload
        have hs10 : s0 = s1 := congrArg (fun x => x.1) hload'
        rw [← hs10]
        rw [load_open_eq fs filt s0 P true ho, hLI]
      · rcases hins : tree.insert s0.t {newInfo P fi with
            flags := (newInfo P fi).flags ||| loadFlags true} with ⟨t1, dup⟩
        rcases dup with _ | d
        · -- the root entry is fresh
          obtain ⟨hw1, ⟨pre, post, hL0, hL1⟩, hne⟩ :=
            insert_fresh_spec hwf0 (by exact hvP) hins
          rcases ht1 : t1 with _ | r1
          · rw [ht1] at hL1
            have hL1' : ([] : List info) = pre ++ _ :: post := hL1
            simp at hL1'
          rw [ht1] at hL1 hw1 hins
          obtain ⟨hwr1, hvr1⟩ := hw1
          have hfmem : ({newInfo P fi with
              flags := (newInfo P fi).flags ||| loadFlags true} : info)
              ∈ deliter r1 := by
            show _ ∈ leavesT (some r1)
            rw [hL1]
            exact List.mem_append_right _ (List.mem_cons_self _ _)
          have hblp : (bestLeaf r1 P).path = P := by
            refine bestLeaf_of_mem hwr1 ?_
            exact mem_keys_of_deliter hfmem
          have hbest : bestLeaf r1 P = {newInfo P fi with
              flags := (newInfo P fi).flags ||| loadFlags true} := by
            refine eq_of_mem_same_path (deliter_pairwise hwr1)
              (bestLeaf_mem r1 P) hfmem ?_
            rw [hblp]
            rfl
          rcases hwc : watchFilter {newInfo P fi with
              flags := (newInfo P fi).flags ||| loadFlags true} with _ | _
          · -- fresh, no kernel watch
            rcases hwk : fsWalk fs filt P (loadFlags true) 0 (fsFuel fs)
                ((({s0 with t := some r1} : WState), []) : WState × List info)
                P fi with ⟨⟨s3, lst⟩, err⟩
            have hLI : loadImpl fs filt s0 P (loadFlags true) 0
                = (s3, [], err) := by
              simp only [loadImpl]
              rw [hff]
              simp only []
              rw [if_neg (by simp [hdir])]
              rw [hfl, if_neg (by simp)]
              rw [hins]
              simp only []
              rw [hwc]
              rw [if_neg (by simp)]
              simp only []
              rw [hwk]
              rfl
            rw [hLI] at hload
            have hs3 : s3 = s1 := by
              rcases err with _ | e
              · have hload' : ((s3, [], (none : Option goerr)) :
                    WState × List (Nat × info) × Option goerr)
                    = (s1, h1, none) := hload
                exact congrArg (fun x => x.1) hload'
              · rcases e with _ | p | _ | _ | n
                · have hload' : ((s3, [], (none : Option goerr)) :
                      WState × List (Nat × info) × Option goerr)
                      = (s1, h1, none) := hload
                  exact congrArg (fun x => x.1) hload'
                · have hload' : ((s3, [], some (goerr.pathError p)) :
                      WState × List (Nat × info) × Option goerr)
                      = (s1, h1, none) := hload
                  have hc := congrArg (fun x => x.2.2) hload'
                  simp at hc
                · have hload' : ((s3, [], some goerr.errClosed) :
                      WState × List (Nat × info) × Option goerr)
                      = (s1, h1, none) := hload
                  have hc := congrArg (fun x => x.2.2) hload'
                  simp at hc
                · have hload' : ((s3, [], some goerr.errNotDir) :
                      WState × List (Nat × info) × Option goerr)
                      = (s1, h1, none) := hload
                  have hc := congrArg (fun x => x.2.2) hload'
                  simp at hc
                · have hload' : ((s3, [], some (goerr.user n)) :
                      WState × List (Nat × info) × Option goerr)
                      = (s1, h1, none) := hload
                  have hc := congrArg (fun x => x.2.2) hload'
                  simp at hc
            have hfold1 : (childEntries fs P).foldl
                (walkChildFold fs filt P (loadFlags true) 0
                  (fs.length + (fs.map (fun e => e.1.length)).sum + 1) P)
                ((({s0 with t := some r1} : WState), []), none)
                = ((s1, lst), err) := by
              rw [← fsWalk_top_eq fs filt P (loadFlags true) 0 fi hdir]
              rw [hwk, hs3]
            refine load_idem_tail fs filt P fi hvfs hvP hff hdir hfl
              {s0 with t := some r1} s1 lst err ?_ ?_
              {newInfo P fi with
                flags := (newInfo P fi).flags ||| loadFlags true}
              hfmem rfl ?_ hfold1
            · exact ⟨hwr1, hvr1⟩
            · exact ho
            · exact Nat.or_self _
          · -- fresh, with a kernel watch on the root
            rcases hwk : fsWalk fs filt P (loadFlags true) 0 (fsFuel fs)
                ((({s0 with
                    t := (tree.updL (some r1) P
                      (fun i => {i with watch := some s0.nextFd})),
                    fdmap := s0.fdmap ++ [(s0.nextFd, P)],
                    nextFd := s0.nextFd + 1} : WState), []) :
                  WState × List info)
                P fi with ⟨⟨s3, lst⟩, err⟩
            have hLI : loadImpl fs filt s0 P (loadFlags true) 0
                = (s3, [], err) := by
              simp only [loadImpl]
              rw [hff]
              simp only []
              rw [if_neg (by simp [hdir])]
              rw [hfl, if_neg (by simp)]
              rw [hins]
              simp only []
              rw [hwc]
              rw [if_pos rfl]
              simp only []
              rw [hwk]
              rfl
            rw [hLI] at hload
            have hs3 : s3 = s1 := by
              rcases err with _ | e
              · have hload' : ((s3, [], (none : Option goerr)) :
                    WState × List (Nat × info) × Option goerr)
                    = (s1, h1, none) := hload
                exact congrArg (fun x => x.1) hload'
              · rcases e with _ | p | _ | _ | n
                · have hload' : ((s3, [], (none : Option goerr)) :
                      WState × List (Nat × info) × Option goerr)
                      = (s1, h1, none) := hload
                  exact congrArg (fun x => x.1) hload'
                · have hload' : ((s3, [], some (goerr.pathError p)) :
                      WState × List (Nat × info) × Option goerr)
                      = (s1, h1, none) := hload
                  have hc := congrArg (fun x => x.2.2) hload'
                  simp at hc
                · have hload' : ((s3, [], some goerr.errClosed) :
                      WState × List (Nat × info) × Option goerr)
                      = (s1, h1, none) := hload
                  have hc := congrArg (fun x => x.2.2) hload'
                  simp at hc
                · have hload' : ((s3, [], some goerr.errNotDir) :
                      WState × List (Nat × info) × Option goerr)
                      = (s1, h1, none) := hload
                  have hc := congrArg (fun x => x.2.2) hload'
                  simp at hc
                · have hload' : ((s3, [], some (goerr.user n)) :
                      WState × List (Nat × info) × Option goerr)
                      = (s1, h1, none) := hload
                  have hc := congrArg (fun x => x.2.2) hload'
                  simp at hc
            have hfold1 : (childEntries fs P).foldl
                (walkChildFold fs filt P (loadFlags true) 0
                  (fs.length + (fs.map (fun e => e.1.length)).sum + 1) P)
                ((({s0 with
                    t := (tree.updL (some r1) P
                      (fun i => {i with watch := some s0.nextFd})),
                    fdmap := s0.fdmap ++ [(s0.nextFd, P)],
                    nextFd := s0.nextFd + 1} : WState), []), none)
                = ((s1, lst), err) := by
              rw [← fsWalk_top_eq fs filt P (loadFlags true) 0 fi hdir]
              rw [hwk, hs3]
            refine load_idem_tail fs filt P fi hvfs hvP hff hdir hfl
              {s0 with
                t := (tree.updL (some r1) P
                  (fun i => {i with watch := some s0.nextFd})),
                fdmap := s0.fdmap ++ [(s0.nextFd, P)],
                nextFd := s0.nextFd + 1} s1 lst err ?_ ?_
              ((fun i => {i with watch := some s0.nextFd}) (bestLeaf r1 P))
              ?_ ?_ ?_ hfold1
            · exact @updL_wfT (some r1)
                (fun i => {i with watch := some s0.nextFd})
                (fun i => rfl) P ⟨hwr1, hvr1⟩
            · exact ho
            · exact updRef_mem_self P _ r1
            · exact hblp
            · show (bestLeaf r1 P).flags ||| _ = (bestLeaf r1 P).flags
              rw [hbest]
              exact Nat.or_self _
        · -- the root entry already existed: merge the flags in place
          obtain ⟨ht1, hdm, hdp⟩ := insert_dup_spec hwf0 (by exact hvP) hins
          subst ht1
          rcases hs0t : s0.t with _ | r0
          · rw [hs0t] at hdm
            cases hdm
          have hwf0' := hwf0
          rw [hs0t] at hwf0' hdm
          obtain ⟨hwr0, hvr0⟩ := hwf0'
          have hb0 : (bestLeaf r0 P).path = P := by
            refine bestLeaf_of_mem hwr0 ?_
            have := mem_keys_of_deliter hdm
            rw [show d.path = P from hdp] at this
            exact this
          rcases hwk : fsWalk fs filt P (loadFlags true) 0 (fsFuel fs)
              ((({s0 with t := (tree.updL s0.t P
                  (fun i => {i with flags := i.flags ||| ((newInfo P fi).flags ||| loadFlags true)}))} :
                  WState), []) : WState × List info)
              P fi with ⟨⟨s3, lst⟩, err⟩
          have hLI : loadImpl fs filt s0 P (loadFlags true) 0
              = (s3, [], err) := by
            simp only [loadImpl]
            rw [hff]
            simp only []
            rw [if_neg (by simp [hdir])]
            rw [hfl, if_neg (by simp)]
            rw [hins]
            simp only []
            rw [hwk]
            rfl
          rw [hLI] at hload
          have hs3 : s3 = s1 := by
            rcases err with _ | e
            · have hload' : ((s3, [], (none : Option goerr)) :
                  WState × List (Nat × info) × Option goerr)
                  = (s1, h1, none) := hload
              exact congrArg (fun x => x.1) hload'
            · rcases e with _ | p | _ | _ | n
              · have hload' : ((s3, [], (none : Option goerr)) :
                    WState × List (Nat × info) × Option goerr)
                    = (s1, h1, none) := hload
                exact congrArg (fun x => x.1) hload'
              · have hload' : ((s3, [], some (goerr.pathError p)) :
                    WState × List (Nat × info) × Option goerr)
                    = (s1, h1, none) := hload
                have hc := congrArg (fun x => x.2.2) hload'
                simp at hc
              · have hload' : ((s3, [], some goerr.errClosed) :
                    WState × List (Nat × info) × Option goerr)
                    = (s1, h1, none) := hload
                have hc := congrArg (fun x => x.2.2) hload'
                simp at hc
              · have hload' : ((s3, [], some goerr.errNotDir) :
                    WState × List (Nat × info) × Option goerr)
                    = (s1, h1, none) := hload
                have hc := congrArg (fun x => x.2.2) hload'
                simp at hc
              · have hload' : ((s3, [], some (goerr.user n)) :
                    WState × List (Nat × info) × Option goerr)
                    = (s1, h1, none) := hload
                have hc := congrArg (fun x => x.2.2) hload'
                simp at hc
          have hfold1 : (childEntries fs P).foldl
              (walkChildFold fs filt P (loadFlags true) 0
                (fs.length + (fs.map (fun e => e.1.length)).sum + 1) P)
              ((({s0 with t := (tree.updL s0.t P
                  (fun i => {i with flags := i.flags ||| ((newInfo P fi).flags ||| loadFlags true)}))} :
                  WState), []), none)
              = ((s1, lst), err) := by
            rw [← fsWalk_top_eq fs filt P (loadFlags true) 0 fi hdir]
            rw [hwk, hs3]
          refine load_idem_tail fs filt P fi hvfs hvP hff hdir hfl
            {s0 with t := (tree.updL s0.t P
              (fun i => {i with flags := i.flags ||| ((newInfo P fi).flags ||| loadFlags true)}))}
            s1 lst err ?_ ?_
            ((fun i => {i with flags := i.flags ||| ((newInfo P fi).flags ||| loadFlags true)})
              (bestLeaf r0 P))
            ?_ ?_ ?_ hfold1
          · exact @updL_wfT s0.t
              (fun i => {i with flags := i.flags |||
                ((newInfo P fi).flags ||| loadFlags true)})
              (fun i => rfl) P hwf0
          · exact ho
          · show _ ∈ leavesT ({s0 with t := (tree.updL s0.t P _)} : WState).t
            rw [show ({s0 with t := (tree.updL s0.t P
              (fun i => {i with flags := i.flags ||| ((newInfo P fi).flags ||| loadFlags true)}))} :
              WState).t = tree.updL s0.t P
              (fun i => {i with flags := i.flags ||| ((newInfo P fi).flags ||| loadFlags true)})
              from rfl, hs0t]
            exact updRef_mem_self P _ r0
          · exact hb0
          · show ((bestLeaf r0 P).flags ||| _) ||| _ = (bestLeaf r0 P).flags ||| _
            exact or_or_self _ _

/-- Witness for C7: loading `/a` recursively over a filesystem with the
directory `/a` and the file `/a/b`, then loading it again, returns the
first load's state unchanged with no handled entries and no error. -/
theorem C7_load_idempotent_witness :
    load [([47, 97], ⟨true, 0⟩), ([47, 97, 47, 98], ⟨false, 0⟩)] watchFilter
      (load [([47, 97], ⟨true, 0⟩), ([47, 97, 47, 98], ⟨false, 0⟩)]
        watchFilter ⟨true, none, [], 0⟩ [47, 97] true).1 [47, 97] true
    = ((load [([47, 97], ⟨true, 0⟩), ([47, 97, 47, 98], ⟨false, 0⟩)]
        watchFilter ⟨true, none, [], 0⟩ [47, 97] true).1, [], none) :=
  C7_load_idempotent [([47, 97], ⟨true, 0⟩), ([47, 97, 47, 98], ⟨false, 0⟩)]
    watchFilter ⟨true, none, [], 0⟩ [47, 97]
    (load [([47, 97], ⟨true, 0⟩), ([47, 97, 47, 98], ⟨false, 0⟩)]
      watchFilter ⟨true, none, [], 0⟩ [47, 97] true).1
    (load [([47, 97], ⟨true, 0⟩), ([47, 97, 47, 98], ⟨false, 0⟩)]
      watchFilter ⟨true, none, [], 0⟩ [47, 97] true).2.1
    (by decide) (by decide) trivial (by decide)

/-- An `unload` (either flag) of a watched directory entry clears the whole
index and the whole `fdmap`, provided every entry is the target or one of
its descendants, no entry besides the target carries the `explicit` flag
(so the reload queue stays empty), and every `fdmap` pair is backed by an
entry's watch. -/
theorem unload_clear (s : WState) (P : List Nat) (recursive : Bool) (r : ref)
    (hst : s.t = some r) (hw : wf r) (hv : ∀ k ∈ keys r, validPath k)
    (hvP : validPath P) (ho : s.fdOpen = true)
    (EP : info) (hmem : EP ∈ deliter r) (hpath : EP.path = P)
    (hdir : EP.isDir = true) (fd : Nat) (hfd : EP.watch = some fd)
    (hpref : ∀ E ∈ deliter r,
      E.path = P ∨ (P ++ [sep]).isPrefixOf E.path = true)
    (hexp : ∀ E ∈ deliter r, E.path = P ∨ E.flags &&& explicit = 0)
    (hback : ∀ p ∈ s.fdmap, ∃ E ∈ deliter r,
      E.path = p.2 ∧ E.watch = some p.1) :
    (unload s P recursive).1.t = none
    ∧ (unload s P recursive).1.fdmap = [] := by
  have hup := deliter_pairwise hw
  have huniq : ∀ E ∈ deliter r, E.path = P → E = EP := by
    intro E hE hEp
    exact eq_of_mem_same_path hup hE hmem (by rw [hEp, hpath])
  have hget : tree.get (some r) P = some EP := (get_char hw).2 ⟨hmem, hpath⟩
  have hbest : bestLeaf r P = EP := by
    have h := hget
    rw [get_some_eq] at h
    split at h
    · exact Option.some.inj h
    · cases h
  have hbp : (bestLeaf r P).path = P := by rw [hbest, hpath]
  simp only [unload]
  rw [ho]
  rw [if_neg (by simp)]
  rw [hst, hget]
  simp only []
  rw [hfd]
  simp only [tree.updL]
  by_cases hdesc : ∃ k ∈ keys r, (P ++ [sep]).isPrefixOf k = true
  · -- the target has descendants: deleteAll wipes the index
    have hw' : wf (updRef P (fun i => {i with watch := none}) r) :=
      @updRef_wf (fun i => {i with watch := none}) (fun i => rfl) P r hw
    have hv' : ∀ k ∈ keys (updRef P (fun i => {i with watch := none}) r),
        validPath k := by
      rw [@updRef_keys (fun i => {i with watch := none}) (fun i => rfl) P r]
      exact hv
    have hget' : tree.get
        (some (updRef P (fun i => {i with watch := none}) r)) P
        = some ({EP with watch := none}) := by
      have h := @get_updL_self r hw (fun i => {i with watch := none})
        (fun i => rfl) P hbp
      rw [hbest] at h
      exact h
    have hdesc' : ∃ k ∈ keys (updRef P (fun i => {i with watch := none}) r),
        (P ++ [sep]).isPrefixOf k = true := by
      rw [@updRef_keys (fun i => {i with watch := none}) (fun i => rfl) P r]
      exact hdesc
    obtain ⟨sib, hda, hsibk, hsibmem, hsub⟩ :=
      deleteAll_wipe hw' hv' hvP hget' (show EP.isDir = true from hdir) hdesc'
    rw [hda]
    have hkeep : ∀ n ∈ ({EP with watch := none} : info) :: deliter sib,
        ((!recursive && decide (n.flags &&& explicit ≠ 0))
          && decide (n.path ≠ P)) = false := by
      intro n hn
      rcases List.mem_cons.1 hn with hn | hn
      · have hnp : n.path = P := by rw [hn]; exact hpath
        simp [hnp]
      · have hnr : n ∈ deliter
            (updRef P (fun i => {i with watch := none}) r) :=
          hsub.subset (List.mem_cons_of_mem _ hn)
        rcases updRef_mem_inv (fun i => {i with watch := none}) r n hnr
            with hnr2 | hnr2
        · rcases hexp n hnr2 with h | h
          · simp [h]
          · simp [h]
        · have hnp : n.path = P := by rw [hnr2, hbest]; exact hpath
          simp [hnp]
    have hreload : (({EP with watch := none} : info) :: deliter sib).filter
        (fun n => (!recursive && decide (n.flags &&& explicit ≠ 0))
          && decide (n.path ≠ P)) = [] :=
      List.filter_eq_nil_iff.2 (fun a ha => by rw [hkeep a ha]; simp)
    have hrm : (({EP with watch := none} : info) :: deliter sib).filter
        (fun n => !((!recursive && decide (n.flags &&& explicit ≠ 0))
          && decide (n.path ≠ P)))
        = ({EP with watch := none} : info) :: deliter sib :=
      List.filter_eq_self.2 (fun a ha => by rw [hkeep a ha]; rfl)
    rw [hreload, hrm, List.foldl_nil]
    refine ⟨rfl, ?_⟩
    show (s.fdmap.filter (fun e => decide (e.1 ≠ fd))).filter _ = []
    refine List.filter_eq_nil_iff.2 ?_
    intro e he
    obtain ⟨hes, hefd⟩ := List.mem_filter.1 he
    have hene : e.1 ≠ fd := of_decide_eq_true hefd
    obtain ⟨E, hEmem, hEp, hEw⟩ := hback e hes
    have hEne : E ≠ EP := by
      intro h
      rw [h, hfd] at hEw
      exact hene (Option.some.inj hEw).symm
    have hEpref : (P ++ [sep]).isPrefixOf E.path = true := by
      rcases hpref E hEmem with h | h
      · exact absurd (huniq E hEmem h) hEne
      · exact h
    obtain ⟨pre, post, h1, h2⟩ :=
      updRef_deliter P (fun i => {i with watch := none}) r
    rw [hbest] at h1 h2
    have hEmem' : E ∈ deliter (updRef P (fun i => {i with watch := none}) r) := by
      rw [h2]
      rw [h1] at hEmem
      rcases List.mem_append.1 hEmem with h | h
      · exact List.mem_append_left _ h
      · rcases List.mem_cons.1 h with h | h
        · exact absurd h hEne
        · exact List.mem_append_right _ (List.mem_cons_of_mem _ h)
    have hEsib : E ∈ deliter sib := hsibmem E hEmem' hEpref
    simp
    exact ⟨E, hEsib, hEw⟩
  · -- no descendants: the index is the single target leaf
    have hall : ∀ E ∈ deliter r, E.path = P := by
      intro E hE
      rcases hpref E hE with h | h
      · exact h
      · exact absurd ⟨E.path, mem_keys_of_deliter hE, h⟩ hdesc
    obtain ⟨i0, hri, hi0p⟩ := ref_single (wf_pairwise hw) (by
      intro k hk
      unfold keys at hk
      obtain ⟨E, hE, rfl⟩ := List.mem_map.1 hk
      exact hall E hE)
    have hi0 : i0 = EP := by
      refine huniq i0 ?_ hi0p
      rw [hri, deliter_leaf]
      exact List.mem_singleton.2 rfl
    rw [hi0] at hri
    subst hri
    have hda : tree.deleteAll
        (some (updRef P (fun i => {i with watch := none}) (ref.leaf EP))) P
        = (none, [{EP with watch := none}]) := by
      show tree.deleteAll (some (ref.leaf ({EP with watch := none}))) P = _
      simp only [tree.deleteAll, delFrames]
      rw [if_neg (by simp [hpath])]
      rfl
    rw [hda]
    have hkeep1 : ((!recursive
        && decide (({EP with watch := none} : info).flags &&& explicit ≠ 0))
        && decide (({EP with watch := none} : info).path ≠ P)) = false := by
      simp [hpath]
    have hreload1 : ([({EP with watch := none} : info)]).filter
        (fun n => (!recursive && decide (n.flags &&& explicit ≠ 0))
          && decide (n.path ≠ P)) = [] := by
      simp only [List.filter, hkeep1]
    have hrm1 : ([({EP with watch := none} : info)]).filter
        (fun n => !((!recursive && decide (n.flags &&& explicit ≠ 0))
          && decide (n.path ≠ P)))
        = [({EP with watch := none} : info)] := by
      simp only [List.filter, hkeep1, Bool.not_false]
    rw [hreload1, hrm1, List.foldl_nil]
    refine ⟨rfl, ?_⟩
    show (s.fdmap.filter (fun e => decide (e.1 ≠ fd))).filter _ = []
    have hfdm1 : s.fdmap.filter (fun e => decide (e.1 ≠ fd)) = [] := by
      refine List.filter_eq_nil_iff.2 ?_
      intro e he
      obtain ⟨E, hEmem, hEp, hEw⟩ := hback e he
      have hEeq : E = EP := huniq E hEmem (hall E hEmem)
      rw [hEeq, hfd] at hEw
      have : e.1 = fd := (Option.some.inj hEw).symm
      simp [this]
    rw [hfdm1]
    rfl

/-- **C8** (algebraic/relational, corrected): in general `Load(P, r)`
followed by `Unload(P, r)` does NOT restore an arbitrary pre-Load state
(see the counterexample: `deleteAll` wipes unrelated entries whenever `P`
has descendants, and only the queued descendants are re-inserted).  The
amended statement restores the claim for the empty watcher: starting from
an open watcher with an empty index and no live watches, `Load(P, r)`
followed by `Unload(P, r)` — for either value of the recursive flag —
leaves the index empty and the watch map empty again. -/
theorem C8_load_unload_restores_empty (fs : List (List Nat × fsEntry))
    (filt : info → Bool) (P : List Nat) (n0 : Nat) (r : Bool)
    (hvfs : ∀ e ∈ fs, validPath e.1) (hvP : validPath P) :
    (unload (load fs filt ⟨true, none, [], n0⟩ P r).1 P r).1.t = none
    ∧ (unload (load fs filt ⟨true, none, [], n0⟩ P r).1 P r).1.fdmap
        = [] := by
  rw [load_open_eq fs filt ⟨true, none, [], n0⟩ P r rfl]
  rcases hff : fsFind fs P with _ | fi
  · have hLI : loadImpl fs filt ⟨true, none, [], n0⟩ P (loadFlags r) 0
        = (⟨true, none, [], n0⟩, [], some (.pathError P)) := by
      simp only [loadImpl]
      rw [hff]
    rw [hLI]
    exact ⟨rfl, rfl⟩
  · rcases hdir : fi.isDir with _ | _
    · have hLI : loadImpl fs filt ⟨true, none, [], n0⟩ P (loadFlags r) 0
          = (⟨true, none, [], n0⟩, [], some .errNotDir) := by
        simp only [loadImpl]
        rw [hff]
        simp only []
        rw [if_pos ⟨hdir, by cases r <;> decide⟩]
      rw [hLI]
      exact ⟨rfl, rfl⟩
    · rcases hfl : filt (newInfo P fi) with _ | _
      · have hLI : loadImpl fs filt ⟨true, none, [], n0⟩ P (loadFlags r) 0
            = (⟨true, none, [], n0⟩, [], none) := by
          simp only [loadImpl]
          rw [hff]
          simp only []
          rw [if_neg (by simp [hdir])]
          rw [hfl, if_pos (show (!false) = true from rfl)]
        rw [hLI]
        exact ⟨rfl, rfl⟩
      · have hins : tree.insert (none : tree) {newInfo P fi with
            flags := (newInfo P fi).flags ||| loadFlags r}
            = (some (ref.leaf {newInfo P fi with
                flags := (newInfo P fi).flags ||| loadFlags r}), none) := rfl
        have hwc : watchFilter {newInfo P fi with
            flags := (newInfo P fi).flags ||| loadFlags r} = true := hdir
        rcases hwk : fsWalk fs filt P (loadFlags r) 0 (fsFuel fs)
            ((({ fdOpen := true,
                 t := (tree.updL (some (ref.leaf {newInfo P fi with
                   flags := (newInfo P fi).flags ||| loadFlags r})) P
                   (fun i => {i with watch := some n0})),
                 fdmap := [(n0, P)], nextFd := n0 + 1 } : WState), []) :
              WState × List info)
            P fi with ⟨⟨s3, lst⟩, err⟩
        have hLI : loadImpl fs filt ⟨true, none, [], n0⟩ P (loadFlags r) 0
            = (s3, [], err) := by
          simp only [loadImpl]
          rw [hff]
          simp only [List.nil_append]
          rw [if_neg (by simp [hdir])]
          rw [hfl, if_neg (by simp)]
          rw [hins]
          simp only [List.nil_append]
          rw [hwc]
          rw [if_pos rfl]
          simp only [List.nil_append]
          rw [hwk]
          rfl
        rw [hLI]
        have hS2w : wfT ({ fdOpen := true,
                           t := (tree.updL (some (ref.leaf {newInfo P fi with
                             flags := (newInfo P fi).flags ||| loadFlags r})) P
                             (fun i => {i with watch := some n0})),
                           fdmap := [(n0, P)],
                           nextFd := n0 + 1 } : WState).t := by
          refine @updL_wfT (some (ref.leaf {newInfo P fi with
              flags := (newInfo P fi).flags ||| loadFlags r}))
            (fun i => {i with watch := some n0}) (fun i => rfl) P ?_
          refine ⟨wf.leaf _, ?_⟩
          intro k hk
          rw [keys_leaf] at hk
          rcases List.mem_singleton.1 hk with rfl
          exact hvP
        obtain ⟨hw3, ho3, hold, hnew, herr5, hfdb, hlast⟩ :=
          fsWalk_main fs filt P (loadFlags r) 0 hvfs (fsFuel fs)
            (({ fdOpen := true,
                t := (tree.updL (some (ref.leaf {newInfo P fi with
                  flags := (newInfo P fi).flags ||| loadFlags r})) P
                  (fun i => {i with watch := some n0})),
                fdmap := [(n0, P)], nextFd := n0 + 1 } : WState), [])
            P fi hS2w hvP (Or.inl rfl)
        rw [hwk] at hw3 ho3 hold hnew hfdb
        have hEP0 : (⟨P, fi.isDir, fi.meta,
            (newInfo P fi).flags ||| loadFlags r, some n0⟩ : info)
            ∈ leavesT s3.t :=
          hold _ (List.mem_singleton.2 rfl)
        rcases hs3t : s3.t with _ | r3
        · rw [hs3t] at hEP0
          cases hEP0
        have hw3' : wf r3 ∧ ∀ k ∈ keys r3, validPath k := by
          have h : wfT s3.t := hw3
          rw [hs3t] at h
          exact h
        have hEP0' : (⟨P, fi.isDir, fi.meta,
            (newInfo P fi).flags ||| loadFlags r, some n0⟩ : info)
            ∈ deliter r3 := by
          rw [hs3t] at hEP0
          exact hEP0
        have hprefAll : ∀ E ∈ deliter r3,
            E.path = P ∨ (P ++ [sep]).isPrefixOf E.path = true := by
          intro E hE
          have hE' : E ∈ leavesT s3.t := by rw [hs3t]; exact hE
          rcases hnew E hE' with h | h
          · rcases List.mem_singleton.1 h with rfl
            exact Or.inl rfl
          · exact Or.inr h.1
        have hexpAll : ∀ E ∈ deliter r3,
            E.path = P ∨ E.flags &&& explicit = 0 := by
          intro E hE
          have hE' : E ∈ leavesT s3.t := by rw [hs3t]; exact hE
          rcases hnew E hE' with h | h
          · rcases List.mem_singleton.1 h with rfl
            exact Or.inl rfl
          · exact Or.inr h.2
        have hback : ∀ p ∈ s3.fdmap, ∃ E ∈ deliter r3,
            E.path = p.2 ∧ E.watch = some p.1 := by
          intro p hp
          rcases hfdb p hp with h | h
          · rcases List.mem_singleton.1 h with rfl
            exact ⟨_, hEP0', rfl, rfl⟩
          · obtain ⟨E, hE, h1, h2⟩ := h
            rw [hs3t] at hE
            exact ⟨E, hE, h1, h2⟩
        have hmain : (unload s3 P r).1.t = none
            ∧ (unload s3 P r).1.fdmap = [] :=
          unload_clear s3 P r r3 hs3t hw3'.1 hw3'.2 hvP ho3
            ⟨P, fi.isDir, fi.meta,
              (newInfo P fi).flags ||| loadFlags r, some n0⟩
            hEP0' rfl hdir n0 rfl hprefAll hexpAll hback
        rcases err with _ | e
        · exact hmain
        · rcases e with _ | p | _ | _ | m
          · exact hmain
          · exact hmain
          · exact hmain
          · exact hmain
          · exact hmain

/-- Witness for C8: loading `/a` non-recursively over a filesystem with the
directory `/a` and the file `/a/b` from the empty open watcher, then
unloading it non-recursively, empties the index and the watch map. -/
theorem C8_load_unload_restores_empty_witness :
    (unload (load [([47, 97], ⟨true, 0⟩), ([47, 97, 47, 98], ⟨false, 0⟩)]
        watchFilter ⟨true, none, [], 5⟩ [47, 97] false).1 [47, 97] false).1.t
      = none
    ∧ (unload (load [([47, 97], ⟨true, 0⟩), ([47, 97, 47, 98], ⟨false, 0⟩)]
        watchFilter ⟨true, none, [], 5⟩ [47, 97] false).1 [47, 97]
        false).1.fdmap
      = [] :=
  C8_load_unload_restores_empty
    [([47, 97], ⟨true, 0⟩), ([47, 97, 47, 98], ⟨false, 0⟩)]
    watchFilter [47, 97] 5 false (by decide) (by decide)

/-- Counterexample for C8 as stated: a watcher that already holds `/b`
does NOT return to its pre-Load state after `Load(/a, true)` followed by
`Unload(/a, true)` — the `deleteAll` root wipe removes `/b` from the index
and the unload's reload queue does not restore it. -/
theorem C8_load_unload_counterexample :
    (unload
        (load [([47, 98], ⟨true, 0⟩), ([47, 97], ⟨true, 0⟩),
               ([47, 97, 47, 99], ⟨true, 0⟩)] watchFilter
          (load [([47, 98], ⟨true, 0⟩), ([47, 97], ⟨true, 0⟩),
                 ([47, 97, 47, 99], ⟨true, 0⟩)] watchFilter
            ⟨true, none, [], 0⟩ [47, 98] true).1 [47, 97] true).1
        [47, 97] true).1.t
      ≠ (load [([47, 98], ⟨true, 0⟩), ([47, 97], ⟨true, 0⟩),
               ([47, 97, 47, 99], ⟨true, 0⟩)] watchFilter
          ⟨true, none, [], 0⟩ [47, 98] true).1.t := by
  decide

end fswatch
